import Mathlib

/-!
Verification development for the format-args lowering pipeline
(compiler/rustc_ast_lowering/src/format.rs), the runtime execution engine
(library/core/src/fmt/rt.rs), and the reference-counted allocation core
(library/alloc/src/raw_rc.rs).

The definitions below are a shallow embedding of the source code:

  - machine integers (`usize`, `u64`, `isize`) are modelled as `Nat` or `Int`
    with explicit `% 2 ^ 64` wrapping where the source wraps;
  - code that can panic (out-of-bounds indexing, `unwrap` of an `Err`
    argument index) is modelled with `Option`;
  - the hash maps (`FxHashMap`) used by the encoder are modelled as
    association lists with first-match lookup, which matches a map whose
    keys are inserted at most once;
  - diagnostic-only data (spans, `argument_ref_counts` which only selects
    spans for error messages) is omitted.
-/

def emptyStr : String := ""

/-- The `usize` modulus of the (64-bit) host running the compiler. -/
def usizeMod : Nat := 2 ^ 64

/-- `usize::wrapping_sub(a, b) as isize` on the 64-bit host:
two's-complement reinterpretation of `(a - b) mod 2^64`. -/
def usizeWrapSubIsize (a b : Nat) : Int :=
  let d := (a + (usizeMod - b % usizeMod)) % usizeMod
  if d < 2 ^ 63 then (d : Int) else (d : Int) - (usizeMod : Int)

/-! ## AST model (rustc_ast format-args types, as used by format.rs) -/

inductive FormatSign where
  | plus
  | minus
deriving DecidableEq, Repr

inductive FormatDebugHex where
  | lower
  | upper
deriving DecidableEq, Repr

inductive FormatAlignment where
  | left
  | right
  | center
deriving DecidableEq, Repr

/-- `FormatArgPosition`: `index : Result<usize, usize>`; `none` models
`Err(_)` (an unresolved argument reference), `some i` models `Ok(i)`. -/
structure FormatArgPosition where
  index : Option Nat
deriving DecidableEq, Repr

inductive FormatCount where
  | literal (n : Nat)
  | argument (position : FormatArgPosition)
deriving DecidableEq, Repr

structure FormatOptions where
  width : Option FormatCount := none
  precision : Option FormatCount := none
  alignment : Option FormatAlignment := none
  fill : Option Char := none
  sign : Option FormatSign := none
  alternate : Bool := false
  zero_pad : Bool := false
  debug_hex : Option FormatDebugHex := none
deriving DecidableEq, Repr

inductive FormatTrait where
  | display
  | debug
  | lowerExp
  | upperExp
  | octal
  | pointer
  | binary
  | lowerHex
  | upperHex
deriving DecidableEq, Repr

structure FormatPlaceholder where
  argument : FormatArgPosition
  format_trait : FormatTrait
  format_options : FormatOptions
deriving DecidableEq, Repr

inductive FormatArgsPiece where
  | literal (s : String)
  | placeholder (p : FormatPlaceholder)
deriving DecidableEq, Repr

/-- `rustc_ast::IntTy`. -/
inductive IntTy where
  | isize
  | i8
  | i16
  | i32
  | i64
  | i128
deriving DecidableEq, Repr

/-- `rustc_ast::UintTy`. -/
inductive UintTy where
  | usize
  | u8
  | u16
  | u32
  | u64
  | u128
deriving DecidableEq, Repr

inductive LitIntType where
  | unsuffixed
  | signed (t : IntTy)
  | unsigned (t : UintTy)
deriving DecidableEq, Repr

/-- The result of `LitKind::from_token_lit` as consumed by `try_inline_lit`:
a string literal, an integer literal (value is a `u128`, modelled as `Nat`),
or anything else (floats, bools, chars, parse errors, ...). -/
inductive LitKindM where
  | str (s : String)
  | int (n : Nat) (ty : LitIntType)
  | other
deriving DecidableEq, Repr

/-- Argument expressions, restricted to the structure format.rs inspects:
parenthesised / borrowed wrappers (peeled by `peel_parens_and_refs`),
literal expressions, nested `format_args!` invocations, and opaque
expressions. -/
inductive ArgExpr where
  | paren (e : ArgExpr)
  | addrOf (e : ArgExpr)
  | lit (l : LitKindM)
  | fmtArgs (template : List FormatArgsPiece) (arguments : List ArgExpr)
  | other (id : Nat)

/-- `FormatArgs`: the template and the flat argument-expression list
(`arguments.all_args()`; argument kinds are diagnostic-only and omitted). -/
structure FormatArgs where
  template : List FormatArgsPiece
  arguments : List ArgExpr

/-- `Expr::peel_parens_and_refs`: strip `Paren` and `AddrOf` wrappers. -/
def peelParensAndRefs : ArgExpr → ArgExpr
  | .paren e => peelParensAndRefs e
  | .addrOf e => peelParensAndRefs e
  | .lit l => .lit l
  | .fmtArgs t a => .fmtArgs t a
  | .other i => .other i

/-! ## for_all_argument_indexes -/

/-- Argument index stored in an `Option FormatCount` width/precision field,
when it is an `Ok` argument reference. -/
def countArgIndex : Option FormatCount → Option Nat
  | some (.argument ⟨some i⟩) => some i
  | _ => none

/-- The `Ok` argument indexes visited by `for_all_argument_indexes` for one
piece, in visit order (value, then width, then precision). -/
def pieceIndexes : FormatArgsPiece → List Nat
  | .literal _ => []
  | .placeholder p =>
      p.argument.index.toList ++ (countArgIndex p.format_options.width).toList
        ++ (countArgIndex p.format_options.precision).toList

/-- All `Ok` argument indexes referenced by a template, in visit order. -/
def templateIndexes (t : List FormatArgsPiece) : List Nat :=
  t.flatMap pieceIndexes

/-- Rewrite one `Ok` count-argument index with `f`. -/
def mapCount (f : Nat → Nat) : Option FormatCount → Option FormatCount
  | some (.argument ⟨some i⟩) => some (.argument ⟨some (f i)⟩)
  | c => c

/-- Rewrite the `Ok` argument indexes of one piece with `f`. -/
def mapPiece (f : Nat → Nat) : FormatArgsPiece → FormatArgsPiece
  | .literal s => .literal s
  | .placeholder p =>
      .placeholder
        { p with
          argument := ⟨p.argument.index.map f⟩
          format_options :=
            { p.format_options with
              width := mapCount f p.format_options.width
              precision := mapCount f p.format_options.precision } }

/-- The mutating `for_all_argument_indexes(template, |i| *i = f(i))`. -/
def mapIndexes (f : Nat → Nat) (t : List FormatArgsPiece) : List FormatArgsPiece :=
  t.map (mapPiece f)

/-! ## Literal inliner (`LoweringContext::inline_literals`) -/

/-- `i32::MAX` as a `u128` bound. -/
def i32Max : Nat := 2 ^ 31 - 1

/-- `LoweringContext::int_ty_max` (pointer-width dependent for `isize`). -/
def int_ty_max (pw : Nat) : IntTy → Nat
  | .isize => 2 ^ (pw - 1) - 1
  | .i8 => 2 ^ 7 - 1
  | .i16 => 2 ^ 15 - 1
  | .i32 => 2 ^ 31 - 1
  | .i64 => 2 ^ 63 - 1
  | .i128 => 2 ^ 127 - 1

/-- `LoweringContext::uint_ty_max` (pointer-width dependent for `usize`). -/
def uint_ty_max (pw : Nat) : UintTy → Nat
  | .usize => 2 ^ pw - 1
  | .u8 => 2 ^ 8 - 1
  | .u16 => 2 ^ 16 - 1
  | .u32 => 2 ^ 32 - 1
  | .u64 => 2 ^ 64 - 1
  | .u128 => 2 ^ 128 - 1

/-- `LoweringContext::try_inline_lit`, with the target pointer width `pw`.
Unsuffixed integer literals are bounded by `i32::MAX`; suffixed ones by
their type's maximum. Non-string, non-integer literals are not inlined. -/
def try_inline_lit (pw : Nat) : LitKindM → Option String
  | .str s => some s
  | .int n ty =>
      match ty with
      | .unsuffixed => if n ≤ i32Max then some (Nat.repr n) else none
      | .signed t => if n ≤ int_ty_max pw t then some (Nat.repr n) else none
      | .unsigned t => if n ≤ uint_ty_max pw t then some (Nat.repr n) else none
  | .other => none

/-- The per-placeholder test of the first inlining pass: a `Display`
placeholder with default options whose resolved argument expression peels to
a literal that `try_inline_lit` accepts yields the inlined text together
with the argument index that was consumed. -/
def inlineResult (pw : Nat) (args : List ArgExpr) : FormatArgsPiece → Option (String × Nat)
  | .literal _ => none
  | .placeholder p =>
      match p.argument.index with
      | none => none
      | some argIndex =>
          if p.format_trait = .display ∧ p.format_options = {} then
            match (args.get? argIndex).map peelParensAndRefs with
            | some (.lit l) => (try_inline_lit pw l).map (fun s => (s, argIndex))
            | _ => none
          else none

/-- First pass of `inline_literals`: rewrite eligible placeholders into
literal pieces, recording which argument indexes were inlined and whether
anything was inlined at all. -/
def inlineLoop (pw : Nat) (args : List ArgExpr) :
    List FormatArgsPiece → List Bool → List FormatArgsPiece × List Bool × Bool
  | [], was => ([], was, false)
  | piece :: rest, was =>
      match inlineResult pw args piece with
      | some (lit, argIndex) =>
          let r := inlineLoop pw args rest (was.set argIndex true)
          (.literal lit :: r.1, r.2.1, true)
      | none =>
          let r := inlineLoop pw args rest was
          (piece :: r.1, r.2.1, r.2.2)

/-- `Vec::retain` driven by the `remove` mask (`remove_it.next() != Some(&true)`). -/
def retainByMask : List ArgExpr → List Bool → List ArgExpr
  | [], _ => []
  | a :: rest, [] => a :: rest
  | a :: rest, b :: bs => if b then retainByMask rest bs else a :: retainByMask rest bs

/-- `index_map[old]`: the number of surviving (not removed) arguments
strictly before `old`, as produced by the `scan` in `inline_literals`. -/
def newIndex (remove : List Bool) (old : Nat) : Nat :=
  (remove.take old).countP (fun b => !b)

/-- `LoweringContext::inline_literals` for target pointer width `pw`. -/
def inline_literals (pw : Nat) (fmt : FormatArgs) : FormatArgs :=
  let r := inlineLoop pw fmt.arguments fmt.template
    (List.replicate fmt.arguments.length false)
  let t1 := r.1
  let was := r.2.1
  let anything := r.2.2
  if anything then
    let remove := (templateIndexes t1).foldl (fun m i => m.set i false) was
    let args := retainByMask fmt.arguments remove
    let t2 := mapIndexes (newIndex remove) t1
    ⟨t2, args⟩
  else
    ⟨t1, fmt.arguments⟩

/-! ## Flattener (`flatten_format_args`) -/

/-- The check on the other template pieces: no placeholder other than the one
at position `i` references argument `k` as its formatting value. -/
def uniqueRef (t : List FormatArgsPiece) (i k : Nat) : Bool :=
  t.enum.all fun jp =>
    (jp.1 == i) ||
      (match jp.2 with
       | .placeholder q => !(q.argument.index == some k)
       | .literal _ => true)

/-- The splice condition of the flattening loop, returning the argument
index and the peeled inner template and arguments when it holds. Note that
the source never looks at the placeholder's `format_options` here. An
out-of-bounds `Ok` argument index (which would panic in the source) makes
the condition fail. -/
def spliceCheck (fmt : FormatArgs) (i : Nat) : Option (Nat × List FormatArgsPiece × List ArgExpr) :=
  match fmt.template.get? i with
  | some (.placeholder p) =>
      if p.format_trait = .display ∨ p.format_trait = .debug then
        match p.argument.index with
        | some k =>
            match (fmt.arguments.get? k).map peelParensAndRefs with
            | some (.fmtArgs t2 a2) =>
                if uniqueRef fmt.template i k then some (k, t2, a2) else none
            | _ => none
        | none => none
      else none
  | _ => none

/-- One splice step: replace the argument at `k` by the inner arguments
(preserving evaluation order), renumber outer indexes past the spliced
region, and replace the placeholder piece at `i` by the inner pieces with
their indexes rebased by `k`. -/
def spliceAt (fmt : FormatArgs) (i k : Nat) (t2 : List FormatArgsPiece)
    (a2 : List ArgExpr) : FormatArgs :=
  let oldArgOffset := k + 1
  let args0 := fmt.arguments.take k ++ a2
  let newArgOffset := args0.length
  let args1 := args0 ++ fmt.arguments.drop (k + 1)
  let tFix := mapIndexes
    (fun idx => if oldArgOffset ≤ idx then idx - oldArgOffset + newArgOffset else idx)
    fmt.template
  let t2Fix := mapIndexes (fun idx => idx + k) t2
  ⟨tFix.take i ++ t2Fix ++ tFix.drop (i + 1), args1⟩

/-- The flattening loop, with an explicit fuel bounding the number of loop
iterations. Each iteration either splices (strictly decreasing the total
nested weight of the arguments plus remaining template length) or advances
`i`, so `flattenWeight` fuel suffices; `flattenFuel_irrelevant` below proves
the result does not depend on the fuel once it is large enough. -/
def flattenFuel : Nat → FormatArgs → Nat → FormatArgs
  | 0, fmt, _ => fmt
  | fuel + 1, fmt, i =>
      if i < fmt.template.length then
        match spliceCheck fmt i with
        | some r => flattenFuel fuel (spliceAt fmt i r.1 r.2.1 r.2.2) i
        | none => flattenFuel fuel fmt (i + 1)
      else fmt

mutual

/-- Structural weight of an argument expression; a nested `format_args`
contributes its template length plus the weight of its own arguments. -/
def ArgExpr.weight : ArgExpr → Nat
  | .paren e => e.weight + 1
  | .addrOf e => e.weight + 1
  | .lit _ => 1
  | .other _ => 1
  | .fmtArgs t a => t.length + weightList a + 1

def weightList : List ArgExpr → Nat
  | [] => 0
  | e :: rest => e.weight + weightList rest

end

/-- Loop measure: total argument weight plus remaining template pieces. -/
def flattenMeasure (fmt : FormatArgs) (i : Nat) : Nat :=
  weightList fmt.arguments + (fmt.template.length - i)

/-- `flatten_format_args`: run the loop from `i = 0` with sufficient fuel. -/
def flatten_format_args (fmt : FormatArgs) : FormatArgs :=
  flattenFuel (flattenMeasure fmt 0 + 1) fmt 0

/-! ## Operation encoder (`FormatOpsEncoder`) -/

/-- `ArgumentUsage` (the diagnostic span of the `Usize` variant is omitted). -/
inductive ArgumentUsage where
  | ref
  | usize
deriving DecidableEq, Repr

/-- `FormatCountKey`: comparison key for width/precision sources. -/
inductive FormatCountKey where
  | literal (n : Nat)
  | argument (i : Nat)
deriving DecidableEq, Repr

/-- `FormatCountKey::try_from`: fails on an `Err` argument index. -/
def formatCountKey : FormatCount → Option FormatCountKey
  | .literal n => some (.literal n)
  | .argument pos => pos.index.map .argument

inductive OffsetPtrKind where
  | literal
  | argument
deriving DecidableEq, Repr

/-- `FormatOp` (the compiler-side operation list; each constructor maps to
one `FmtFnBuilder` method and so to one `FmtOp` type in fmt/rt.rs). -/
inductive FormatOp where
  | offsetPtr (n : Int) (kind : OffsetPtrKind)
  | writeStr
  | setFlags (flags : Nat)
  | setFill (fill : Char)
  | clearAlign
  | setLeftAlign
  | setRightAlign
  | setCenterAlign
  | clearWidth
  | setWidth (w : Nat)
  | setDynWidth
  | clearPrecision
  | setPrecision (p : Nat)
  | setDynPrecision
  | fmtValue (p : FormatPlaceholder)
deriving DecidableEq, Repr

/-- Encoder state (`FormatOpsEncoder`). `literal_offsets` and
`usize_argument_offsets` are association lists standing for the hash maps;
`ref_argument_offsets` uses `none` for the `usize::MAX` sentinel;
`argument_ref_counts` and `literal_buffer` are omitted (diagnostics /
allocation reuse only). -/
structure EncState where
  literal_data : List String
  literal_offsets : List (String × Nat)
  argument_data : List (Nat × ArgumentUsage)
  ref_argument_offsets : List (Option Nat)
  usize_argument_offsets : List (Nat × Nat)
  current_literal_offset : Nat
  current_argument_offset : Nat
  current_flags : Nat
  current_fill : Char
  current_align : Option FormatAlignment
  current_width : Option FormatCountKey
  current_precision : Option FormatCountKey
  incomplete_literal : List String
  format_ops : List FormatOp
deriving DecidableEq, Repr

/-- `FormatOpsEncoder::encode_literal`: skip `kw::Empty`. -/
def encode_literal (s : EncState) (lit : String) : EncState :=
  if lit ≠ emptyStr then
    { s with incomplete_literal := s.incomplete_literal ++ [lit] }
  else s

/-- `FormatOpsEncoder::set_literal_offset`. -/
def set_literal_offset (s : EncState) (offset : Nat) : EncState :=
  if s.current_literal_offset ≠ offset then
    { s with
      current_literal_offset := offset
      format_ops := s.format_ops
        ++ [.offsetPtr (usizeWrapSubIsize offset s.current_literal_offset) .literal] }
  else s

/-- `FormatOpsEncoder::set_argument_offset`. -/
def set_argument_offset (s : EncState) (offset : Nat) : EncState :=
  if s.current_argument_offset ≠ offset then
    { s with
      current_argument_offset := offset
      format_ops := s.format_ops
        ++ [.offsetPtr (usizeWrapSubIsize offset s.current_argument_offset) .argument] }
  else s

/-- `FormatOpsEncoder::allocate_literal`: intern `lit` and move the literal
cursor to its slot. -/
def allocate_literal (s : EncState) (lit : String) : EncState :=
  match s.literal_offsets.lookup lit with
  | some offset => set_literal_offset s offset
  | none =>
      let offset := s.literal_data.length
      set_literal_offset
        { s with
          literal_data := s.literal_data ++ [lit]
          literal_offsets := s.literal_offsets ++ [(lit, offset)] }
        offset

/-- `FormatOpsEncoder::allocate_ref_argument`. Fails (`none`) where the
source would panic: an `Err` argument index, or an index out of the bounds
of `ref_argument_offsets` (whose length is the argument count). -/
def allocate_ref_argument (s : EncState) (position : FormatArgPosition) : Option EncState :=
  match position.index with
  | none => none
  | some index =>
      match s.ref_argument_offsets.get? index with
      | none => none
      | some (some offset) => some (set_argument_offset s offset)
      | some none =>
          let offset := s.argument_data.length
          some (set_argument_offset
            { s with
              argument_data := s.argument_data ++ [(index, .ref)]
              ref_argument_offsets := s.ref_argument_offsets.set index (some offset) }
            offset)

/-- `FormatOpsEncoder::allocate_usize_argument` for an already-unwrapped
`Ok` index. Fails where the source would panic (index out of bounds of
`argument_ref_counts`, which has the argument count as its length). -/
def allocate_usize_argument (s : EncState) (index : Nat) : Option EncState :=
  if index < s.ref_argument_offsets.length then
    match s.usize_argument_offsets.lookup index with
    | some offset => some (set_argument_offset s offset)
    | none =>
        let offset := s.argument_data.length
        some (set_argument_offset
          { s with
            argument_data := s.argument_data ++ [(index, .usize)]
            usize_argument_offsets := s.usize_argument_offsets ++ [(index, offset)] }
          offset)
  else none

/-- The merge of a pending literal run (`flush_literal`'s match: a single
piece is reused as-is, several pieces are concatenated). -/
def joinPieces : List String → String
  | [l] => l
  | pieces => String.join pieces

/-- `FormatOpsEncoder::flush_literal`. -/
def flush_literal (s : EncState) : EncState :=
  match s.incomplete_literal with
  | [] => s
  | pieces =>
      let lit := joinPieces pieces
      let s1 := allocate_literal { s with incomplete_literal := [] } lit
      { s1 with format_ops := s1.format_ops ++ [.writeStr] }

/-- The flags word computed by `encode_placeholder` (must match `Flag` in
fmt/rt.rs: SignPlus, SignMinus, Alternate, SignAwareZeroPad, DebugLowerHex,
DebugUpperHex). -/
def computeFlags (fo : FormatOptions) : Nat :=
  (if fo.sign = some .plus then 1 else 0)
    + (if fo.sign = some .minus then 1 else 0) * 2
    + (if fo.alternate then 1 else 0) * 4
    + (if fo.zero_pad then 1 else 0) * 8
    + (if fo.debug_hex = some .lower then 1 else 0) * 16
    + (if fo.debug_hex = some .upper then 1 else 0) * 32

/-- The flags update block of `encode_placeholder`. -/
def updateFlags (s : EncState) (fo : FormatOptions) : EncState :=
  let flags := computeFlags fo
  if s.current_flags ≠ flags then
    { s with current_flags := flags, format_ops := s.format_ops ++ [.setFlags flags] }
  else s

/-- The fill update block of `encode_placeholder`. -/
def updateFill (s : EncState) (fo : FormatOptions) : EncState :=
  let fill := fo.fill.getD ' '
  if s.current_fill ≠ fill then
    { s with current_fill := fill, format_ops := s.format_ops ++ [.setFill fill] }
  else s

/-- The alignment update block of `encode_placeholder`. -/
def updateAlign (s : EncState) (fo : FormatOptions) : EncState :=
  if s.current_align ≠ fo.alignment then
    { s with
      current_align := fo.alignment
      format_ops := s.format_ops ++
        [match fo.alignment with
         | none => .clearAlign
         | some .left => .setLeftAlign
         | some .right => .setRightAlign
         | some .center => .setCenterAlign] }
  else s

/-- The width update block of `encode_placeholder`. Fails where
`FormatCountKey::try_from(..).unwrap()` would panic (an `Err` index). -/
def updateWidth (s : EncState) (fo : FormatOptions) : Option EncState :=
  match fo.width with
  | none =>
      if s.current_width ≠ none then
        some { s with current_width := none, format_ops := s.format_ops ++ [.clearWidth] }
      else some s
  | some (.literal n) =>
      if s.current_width ≠ some (.literal n) then
        some { s with
          current_width := some (.literal n)
          format_ops := s.format_ops ++ [.setWidth n] }
      else some s
  | some (.argument pos) =>
      match pos.index with
      | none => none
      | some i =>
          if s.current_width ≠ some (.argument i) then
            (allocate_usize_argument s i).map fun s1 =>
              { s1 with
                current_width := some (.argument i)
                format_ops := s1.format_ops ++ [.setDynWidth] }
          else some s

/-- The precision update block of `encode_placeholder`. -/
def updatePrecision (s : EncState) (fo : FormatOptions) : Option EncState :=
  match fo.precision with
  | none =>
      if s.current_precision ≠ none then
        some { s with
          current_precision := none
          format_ops := s.format_ops ++ [.clearPrecision] }
      else some s
  | some (.literal n) =>
      if s.current_precision ≠ some (.literal n) then
        some { s with
          current_precision := some (.literal n)
          format_ops := s.format_ops ++ [.setPrecision n] }
      else some s
  | some (.argument pos) =>
      match pos.index with
      | none => none
      | some i =>
          if s.current_precision ≠ some (.argument i) then
            (allocate_usize_argument s i).map fun s1 =>
              { s1 with
                current_precision := some (.argument i)
                format_ops := s1.format_ops ++ [.setDynPrecision] }
          else some s

/-- `FormatOpsEncoder::encode_placeholder`. -/
def encode_placeholder (s : EncState) (p : FormatPlaceholder) : Option EncState :=
  let s0 := flush_literal s
  let fo := p.format_options
  let s1 := updateFlags s0 fo
  let s2 := updateFill s1 fo
  let s3 := updateAlign s2 fo
  (updateWidth s3 fo).bind fun s4 =>
    (updatePrecision s4 fo).bind fun s5 =>
      (allocate_ref_argument s5 p.argument).map fun s6 =>
        { s6 with format_ops := s6.format_ops ++ [.fmtValue p] }

/-- One piece of the encoding loop in `expand_format_args`. -/
def encodePiece (s : EncState) : FormatArgsPiece → Option EncState
  | .literal lit => some (encode_literal s lit)
  | .placeholder p => encode_placeholder s p

def encodePieces (s : EncState) : List FormatArgsPiece → Option EncState
  | [] => some s
  | piece :: rest => (encodePiece s piece).bind (encodePieces · rest)

/-- The freshly initialised encoder for `argc` arguments (capacities are
irrelevant in the model). -/
def encInit (argc : Nat) : EncState where
  literal_data := []
  literal_offsets := []
  argument_data := []
  ref_argument_offsets := List.replicate argc none
  usize_argument_offsets := []
  current_literal_offset := 0
  current_argument_offset := 0
  current_flags := 0
  current_fill := ' '
  current_align := none
  current_width := none
  current_precision := none
  incomplete_literal := []
  format_ops := []

/-- The encoding phase of `expand_format_args`: encode every piece, then
`finish` (flush the trailing literal run). -/
def encodeTemplate (fmt : FormatArgs) : Option EncState :=
  (encodePieces (encInit fmt.arguments.length) fmt.template).map flush_literal

/-! ## Runtime execution engine (fmt/rt.rs `State` + `FmtOp` chain) -/

/-- The live formatting options of the runtime `Formatter`
(`FormattingOptions::new()` is the initial value). -/
structure RtOptions where
  flags : Nat
  fill : Char
  align : Option FormatAlignment
  width : Option Nat
  precision : Option Nat
deriving DecidableEq, Repr

def RtOptions.new : RtOptions := ⟨0, ' ', none, none, none⟩

/-- An evaluated argument: its numeric reading (`Argument::from_usize` /
`as_usize`) and its rendering function for each format trait given the live
options (abstracting the trait impls invoked by `fmt_display::<T>` etc.).
The source stores these as union members selected by usage; here one record
offers both views. -/
structure ArgValue where
  usize : Nat
  render : FormatTrait → RtOptions → String

def ArgValue.null : ArgValue := ⟨0, fun _ _ => emptyStr⟩

/-- `State` (fmt/rt.rs): output accumulated so far, live options, and the
two cursors, kept as integer indexes into the literal table and the
argument slot table (the source uses raw pointers; `ptr.offset(N)` becomes
integer addition). -/
structure RtState where
  output : String
  opts : RtOptions
  litPtr : Int
  argPtr : Int
deriving Repr

def rtInit : RtState := ⟨emptyStr, RtOptions.new, 0, 0⟩

/-- The literal the literal cursor points at. -/
def litAt (lits : List String) (p : Int) : String :=
  lits.getD p.toNat emptyStr

/-- The argument slot the argument cursor points at. -/
def argAt (slots : List ArgValue) (p : Int) : ArgValue :=
  slots.getD p.toNat ArgValue.null

/-- One step of the runtime chain: each `FmtOp` type's `fmt` performs its
state mutation / write and tail-calls the next operation; the chain is a
plain list here. (`fmt_debug` under `FmtDebug::None` is emitted as a no-op
by the expansion layer, which is outside the operation stream modelled
here.) -/
def runOp (lits : List String) (slots : List ArgValue) (st : RtState) :
    FormatOp → RtState
  | .offsetPtr n .literal => { st with litPtr := st.litPtr + n }
  | .offsetPtr n .argument => { st with argPtr := st.argPtr + n }
  | .writeStr => { st with output := st.output ++ litAt lits st.litPtr }
  | .setFlags f => { st with opts := { st.opts with flags := f } }
  | .setFill c => { st with opts := { st.opts with fill := c } }
  | .clearAlign => { st with opts := { st.opts with align := none } }
  | .setLeftAlign => { st with opts := { st.opts with align := some .left } }
  | .setRightAlign => { st with opts := { st.opts with align := some .right } }
  | .setCenterAlign => { st with opts := { st.opts with align := some .center } }
  | .clearWidth => { st with opts := { st.opts with width := none } }
  | .setWidth w => { st with opts := { st.opts with width := some w } }
  | .setDynWidth =>
      { st with opts := { st.opts with width := some (argAt slots st.argPtr).usize } }
  | .clearPrecision => { st with opts := { st.opts with precision := none } }
  | .setPrecision p => { st with opts := { st.opts with precision := some p } }
  | .setDynPrecision =>
      { st with opts := { st.opts with precision := some (argAt slots st.argPtr).usize } }
  | .fmtValue p =>
      { st with output := st.output ++ (argAt slots st.argPtr).render p.format_trait st.opts }

/-- Execute a whole operation chain. -/
def runOps (lits : List String) (slots : List ArgValue) (ops : List FormatOp)
    (st : RtState) : RtState :=
  ops.foldl (runOp lits slots) st

/-- Ghost-instrumented step: additionally record each literal written by a
`write_str` operation (used only to state the interning property). -/
def runOpG (lits : List String) (slots : List ArgValue)
    (sw : RtState × List String) (op : FormatOp) : RtState × List String :=
  match op with
  | .writeStr => (runOp lits slots sw.1 .writeStr, sw.2 ++ [litAt lits sw.1.litPtr])
  | op => (runOp lits slots sw.1 op, sw.2)

def runOpsG (lits : List String) (slots : List ArgValue) (ops : List FormatOp)
    (sw : RtState × List String) : RtState × List String :=
  ops.foldl (runOpG lits slots) sw

/-- The runtime argument slot table: each encoder slot resolved to the
evaluated argument it was built from (`from_ref` / `from_usize` both
capture `args[index]`). -/
def slotVals (slots : List (Nat × ArgumentUsage)) (args : List ArgValue) : List ArgValue :=
  slots.map fun sl => args.getD sl.1 ArgValue.null

/-! ## Direct (specification-side) formatting semantics -/

/-- The numeric value of a width/precision source, resolved against the
evaluated arguments. -/
def countValue (args : List ArgValue) : Option FormatCount → Option Nat
  | none => none
  | some (.literal n) => some n
  | some (.argument pos) =>
      match pos.index with
      | some i => some ((args.getD i ArgValue.null).usize)
      | none => none

/-- The runtime options a placeholder's own `FormatOptions` denote. -/
def placeholderOpts (args : List ArgValue) (fo : FormatOptions) : RtOptions where
  flags := computeFlags fo
  fill := fo.fill.getD ' '
  align := fo.alignment
  width := countValue args fo.width
  precision := countValue args fo.precision

/-- Directly format one template piece with the placeholder's original
options. -/
def directPiece (args : List ArgValue) (acc : String) : FormatArgsPiece → String
  | .literal s => acc ++ s
  | .placeholder p =>
      acc ++ (args.getD (p.argument.index.getD 0) ArgValue.null).render
        p.format_trait (placeholderOpts args p.format_options)

/-- Directly format each template piece in order. -/
def directFormat (args : List ArgValue) (t : List FormatArgsPiece) : String :=
  t.foldl (directPiece args) emptyStr

/-- Encode a template and execute the encoded operation stream against the
evaluated arguments, producing the final output. -/
def encodeRun (fmt : FormatArgs) (args : List ArgValue) : Option String :=
  (encodeTemplate fmt).map fun r =>
    (runOps r.literal_data (slotVals r.argument_data args) r.format_ops rtInit).output

/-- Merged literal runs of a template: the flushed texts in write order and
the still-pending run. -/
def runsGo (pending : List String) : List FormatArgsPiece → List String × List String
  | [] => ([], pending)
  | .literal s :: rest =>
      if s ≠ emptyStr then runsGo (pending ++ [s]) rest else runsGo pending rest
  | .placeholder _ :: rest =>
      let r := runsGo [] rest
      ((match pending with | [] => [] | ps => [joinPieces ps]) ++ r.1, r.2)

/-- The sequence of literal texts a template writes (consecutive literal
pieces merged, empty pieces skipped, trailing run flushed). -/
def mergedRuns (t : List FormatArgsPiece) : List String :=
  let r := runsGo [] t
  r.1 ++ (match r.2 with | [] => [] | ps => [joinPieces ps])

/-! ## Output-buffer preallocation estimate (`expand_format_args`) -/

/-- `u64::checked_add`. -/
def checkedAddU64 (a b : Nat) : Option Nat :=
  if a + b < 2 ^ 64 then some (a + b) else none

/-- `u64::checked_mul(_, 2)`. -/
def checkedMul2U64 (a : Nat) : Option Nat :=
  if a * 2 < 2 ^ 64 then some (a * 2) else none

/-- The `literal_length` accumulation loop of the estimation pre-pass. -/
def literalLengthGo (acc : Option Nat) : List FormatArgsPiece → Option Nat
  | [] => acc
  | .literal s :: rest =>
      literalLengthGo (if s ≠ emptyStr then acc.bind (checkedAddU64 · s.length) else acc) rest
  | .placeholder _ :: rest => literalLengthGo acc rest

/-- The `literal_length` value of the estimation pre-pass: the summed length
of the non-empty literal pieces, as a checked `u64`. -/
def literalLength (t : List FormatArgsPiece) : Option Nat :=
  literalLengthGo (some 0) t

/-- `matches!(format_ops.first(), Some(FormatOp::WriteStr))`. -/
def startsWithLiteral (s : EncState) : Bool :=
  match s.format_ops with
  | .writeStr :: _ => true
  | _ => false

/-- `isize::MAX` for target pointer width `pw`: `(1u64 << (pw - 1)) - 1`. -/
def isizeMax (pw : Nat) : Nat := 2 ^ (pw - 1) - 1

/-- The `estimated_capacity` expression of `expand_format_args`, as a
function of the target pointer width, the `starts_with_literal` flag and
the checked `literal_length`. -/
def estimated_capacity (pw : Nat) (starts : Bool) (ll : Option Nat) : Nat :=
  (ll.bind fun len =>
    if !starts ∧ len < 16 then some 0
    else (checkedMul2U64 len).filter (fun l2 => l2 ≤ isizeMax pw)).getD 0

/-- The unchecked total literal length (plain arithmetic). -/
def naiveLiteralLength : List FormatArgsPiece → Nat
  | [] => 0
  | .literal s :: rest => s.length + naiveLiteralLength rest
  | .placeholder _ :: rest => naiveLiteralLength rest

/-- The capacity the spec's words describe once corrected: zero when the
stream does not start with a literal write and the total length is small,
otherwise twice the total literal length when that fits `isize::MAX`, and
zero (not a clamped value) when it would exceed it. -/
def amendedCapacity (pw : Nat) (starts : Bool) (tlen : Nat) : Nat :=
  if !starts ∧ tlen < 16 then 0
  else if 2 * tlen ≤ isizeMax pw then 2 * tlen else 0

/-- The capacity the claim as stated describes: "twice the total known
literal length, capped so that it does not overflow the platform's maximum
allocation size", i.e. clamped to `isize::MAX`. -/
def claimedCapacity (pw : Nat) (starts : Bool) (tlen : Nat) : Nat :=
  if !starts ∧ tlen < 16 then 0
  else min (2 * tlen) (isizeMax pw)

/-- The output-buffer preallocation size `expand_format_args` actually
emits, if any: when the argument list is empty the function returns early
through `Arguments::from_static_str(_with_lifetime)` before the
`estimated_capacity` expression is evaluated, so no size is emitted
(`none`); otherwise the expression is evaluated on this template's
`starts_with_literal` flag and checked literal length (still `none` on the
encoder's panic paths, where nothing is emitted either). -/
def emittedCapacity (pw : Nat) (fmt : FormatArgs) : Option Nat :=
  if fmt.arguments.isEmpty then none
  else (encodeTemplate fmt).map fun r =>
    estimated_capacity pw (startsWithLiteral r) (literalLength fmt.template)

/-! ## Spec-side condition for the flattener (claim C2) -/

/-- Whether a piece is a placeholder whose formatting value is argument `k`. -/
def referencesValue (k : Nat) : FormatArgsPiece → Prop
  | .placeholder q => q.argument.index = some k
  | .literal _ => False

instance (k : Nat) (p : FormatArgsPiece) : Decidable (referencesValue k p) := by
  cases p with
  | literal s => exact isFalse id
  | placeholder q => exact inferInstanceAs (Decidable (q.argument.index = some k))

/-- The flattening condition as the amended claim states it: the piece at
`i` is a placeholder that (a) formats with Display or Debug, (c') no other
placeholder uses its argument index as a formatting value, and (d) the
argument's expression peels to a complete format-template invocation.
(The claim's condition (b) — default format options — is absent from the
code.) -/
def flattenEligible (fmt : FormatArgs) (i : Nat) : Prop :=
  ∃ p k t2 a2,
    fmt.template.get? i = some (.placeholder p)
    ∧ (p.format_trait = .display ∨ p.format_trait = .debug)
    ∧ p.argument.index = some k
    ∧ (fmt.arguments.get? k).map peelParensAndRefs = some (.fmtArgs t2 a2)
    ∧ ∀ j, j < fmt.template.length → j ≠ i →
        ¬ referencesValue k (fmt.template.getD j (.literal emptyStr))

/-! ## Named intermediate results of the inliner (for stating claim C3) -/

/-- The result of the first inlining pass: the rewritten template, the
`was_inlined` mask, and the `inlined_anything` flag. -/
def inlinePassResult (pw : Nat) (fmt : FormatArgs) :
    List FormatArgsPiece × List Bool × Bool :=
  inlineLoop pw fmt.arguments fmt.template (List.replicate fmt.arguments.length false)

/-- The argument indexes consumed by the first inlining pass, in template
order. -/
def inlinedIndexes (pw : Nat) (args : List ArgExpr) (t : List FormatArgsPiece) : List Nat :=
  t.filterMap fun piece => (inlineResult pw args piece).map Prod.snd

/-- The `remove` mask of `inline_literals`: `was_inlined` with every index
still referenced by the rewritten template cleared. -/
def removeMask (pw : Nat) (fmt : FormatArgs) : List Bool :=
  (templateIndexes (inlinePassResult pw fmt).1).foldl (fun m i => m.set i false)
    (inlinePassResult pw fmt).2.1

/-- The inlined text a placeholder's argument would contribute (spec side of
claim C5): literals keep their text, placeholders contribute the stringified
constant of their argument. -/
def inlinedText (pw : Nat) (args : List ArgExpr) : FormatArgsPiece → String
  | .literal s => s
  | .placeholder p =>
      match p.argument.index with
      | some i =>
          match (args.get? i).map peelParensAndRefs with
          | some (.lit l) => (try_inline_lit pw l).getD emptyStr
          | _ => emptyStr
      | none => emptyStr

/-- The naive concatenation of the original template pieces in order, with
each placeholder replaced by its stringified constant. -/
def concatInlined (pw : Nat) (fmt : FormatArgs) : String :=
  String.join (fmt.template.map (inlinedText pw fmt.arguments))

/-- The non-empty literal texts of a template, in order. -/
def nonEmptyLiterals : List FormatArgsPiece → List String :=
  List.filterMap fun piece =>
    match piece with
    | .literal s => if s ≠ emptyStr then some s else none
    | .placeholder _ => none

/-! ## Channel-state checker (for stating claim C4) -/

/-- The option channels of the encoder together with the two cursors. -/
structure ChanState where
  flags : Nat
  fill : Char
  align : Option FormatAlignment
  width : Option FormatCountKey
  precision : Option FormatCountKey
  litPtr : Int
  argPtr : Int
deriving DecidableEq, Repr

/-- The channel state at the start of an operation stream. -/
def chanInit : ChanState := ⟨0, ' ', none, none, none, 0, 0⟩

/-- The width/precision key an operation sets, resolved against the argument
slot table (a dynamic width/precision keys on the argument index stored in
the slot under the argument cursor). -/
def dynKey (slots : List (Nat × ArgumentUsage)) (p : Int) : FormatCountKey :=
  .argument (slots.getD p.toNat (0, .ref)).1

/-- Apply one operation to the tracked channel state. -/
def chanStep (slots : List (Nat × ArgumentUsage)) (c : ChanState) : FormatOp → ChanState
  | .offsetPtr n .literal => { c with litPtr := c.litPtr + n }
  | .offsetPtr n .argument => { c with argPtr := c.argPtr + n }
  | .writeStr => c
  | .setFlags f => { c with flags := f }
  | .setFill ch => { c with fill := ch }
  | .clearAlign => { c with align := none }
  | .setLeftAlign => { c with align := some .left }
  | .setRightAlign => { c with align := some .right }
  | .setCenterAlign => { c with align := some .center }
  | .clearWidth => { c with width := none }
  | .setWidth w => { c with width := some (.literal w) }
  | .setDynWidth => { c with width := some (dynKey slots c.argPtr) }
  | .clearPrecision => { c with precision := none }
  | .setPrecision p => { c with precision := some (.literal p) }
  | .setDynPrecision => { c with precision := some (dynKey slots c.argPtr) }
  | .fmtValue _ => c

/-- Whether one operation is non-redundant in channel state `c`: an
operation that sets a channel to its already-current value (or moves a
cursor by zero) is redundant. -/
def chanOk (slots : List (Nat × ArgumentUsage)) (c : ChanState) : FormatOp → Bool
  | .offsetPtr n _ => decide (n ≠ 0)
  | .writeStr => true
  | .setFlags f => decide (c.flags ≠ f)
  | .setFill ch => decide (c.fill ≠ ch)
  | .clearAlign => decide (c.align ≠ none)
  | .setLeftAlign => decide (c.align ≠ some .left)
  | .setRightAlign => decide (c.align ≠ some .right)
  | .setCenterAlign => decide (c.align ≠ some .center)
  | .clearWidth => decide (c.width ≠ none)
  | .setWidth w => decide (c.width ≠ some (.literal w))
  | .setDynWidth => decide (c.width ≠ some (dynKey slots c.argPtr))
  | .clearPrecision => decide (c.precision ≠ none)
  | .setPrecision p => decide (c.precision ≠ some (.literal p))
  | .setDynPrecision => decide (c.precision ≠ some (dynKey slots c.argPtr))
  | .fmtValue _ => true

/-- Check a whole operation stream for redundant channel operations. -/
def chanCheck (slots : List (Nat × ArgumentUsage)) (c : ChanState) :
    List FormatOp → Bool
  | [] => true
  | op :: rest => chanOk slots c op && chanCheck slots (chanStep slots c op) rest

/-- Fold the channel state over an operation list. -/
def chanApply (slots : List (Nat × ArgumentUsage)) (c : ChanState)
    (ops : List FormatOp) : ChanState :=
  ops.foldl (chanStep slots) c

/-- The channel view of an encoder state. -/
def chansOf (s : EncState) : ChanState :=
  ⟨s.current_flags, s.current_fill, s.current_align, s.current_width,
    s.current_precision, (s.current_literal_offset : Int),
    (s.current_argument_offset : Int)⟩

/-- The runtime numeric value denoted by a width/precision key. -/
def keyVal (args : List ArgValue) : Option FormatCountKey → Option Nat
  | none => none
  | some (.literal n) => some n
  | some (.argument i) => some ((args.getD i ArgValue.null).usize)

/-- List extension (the encoder's tables only grow). -/
def Grows {α : Type} (l₁ l₂ : List α) : Prop := ∃ t, l₂ = l₁ ++ t

/-! ## Reference-counted allocation core (raw_rc.rs) -/

/-- `usize::MAX`, the dangling-pointer sentinel (`NonZeroUsize::MAX`). -/
def usizeMaxAddr : Nat := 2 ^ 64 - 1

/-- A weak pointer value: the address it stores. (`RawWeak::new_dangling_in`
stores `NonNull::without_provenance(NonZeroUsize::MAX)`.) -/
structure WeakRef where
  addr : Nat
deriving DecidableEq, Repr

/-- `is_dangling`. -/
def is_dangling (w : WeakRef) : Bool :=
  w.addr == usizeMaxAddr

/-- `RawWeak::new_dangling_in`. -/
def newDangling : WeakRef := ⟨usizeMaxAddr⟩

/-- A representative non-dangling pointer into the single allocation the
state machine below tracks. -/
def validRef : WeakRef := ⟨8⟩

/-- The reference-count header of one allocation (`RefCounts`). The counts
are modelled as integers so that "never goes negative" is a statement, not
a typing artifact. -/
structure Alloc where
  strong : Int
  weak : Int
deriving DecidableEq, Repr

/-- Observable events of the refcount protocol: count accesses, payload
destruction (`drop_in_place`), and block deallocation (`deallocate`). -/
inductive RcEvent where
  | incStrong
  | decStrong
  | incWeak
  | decWeak
  | readStrong
  | destroy
  | dealloc
deriving DecidableEq, Repr

/-- Modelled from the spec: `RcOps::increment_ref_count` (the `rc`/`sync`
implementations are not under src/); per the trait contract in raw_rc.rs it
increments the counter. -/
def incrementRefCount (n : Int) : Int := n + 1

/-- Modelled from the spec: `RcOps::decrement_ref_count`; per the trait
contract it decrements the counter and reports whether it became zero. -/
def decrementRefCount (n : Int) : Int × Bool :=
  (n - 1, n - 1 == 0)

/-- Modelled from the spec: `RcOps::upgrade`; per the trait contract it
increments `strong` if and only if `strong` is non-zero and reports whether
it did. -/
def rcOpsUpgrade (n : Int) : Int × Bool :=
  if n == 0 then (n, false) else (n + 1, true)

/-- `RawWeak::drop_unchecked`: decrement the weak count; when it reaches
zero, deallocate the block. -/
def weakDropUnchecked (a : Alloc) : Alloc × List RcEvent :=
  let r := decrementRefCount a.weak
  if r.2 then ({ a with weak := r.1 }, [.decWeak, .dealloc])
  else ({ a with weak := r.1 }, [.decWeak])

/-- `RawWeak::drop`: a dangling weak does nothing. -/
def rawWeakDrop (w : WeakRef) (a : Alloc) : Alloc × List RcEvent :=
  if is_dangling w then (a, []) else weakDropUnchecked a

/-- `RawWeak::clone`: increment the weak count unless dangling; the clone
carries the same pointer. -/
def rawWeakClone (w : WeakRef) (a : Alloc) : WeakRef × Alloc × List RcEvent :=
  if is_dangling w then (w, a, [])
  else (w, { a with weak := incrementRefCount a.weak }, [.incWeak])

/-- `RawWeak::upgrade`: `!is_dangling(ptr) && R::upgrade(strong_count)`,
returning whether a strong reference was produced. -/
def rawWeakUpgrade (w : WeakRef) (a : Alloc) : Bool × Alloc × List RcEvent :=
  if is_dangling w then (false, a, [])
  else
    let r := rcOpsUpgrade a.strong
    (r.2, { a with strong := r.1 },
      .readStrong :: (if r.2 then [.incStrong] else []))

/-- `RawWeak::assume_init_drop`: destroy the payload in place, then drop
the weak reference. -/
def rcAssumeInitDrop (a : Alloc) : Alloc × List RcEvent :=
  let r := weakDropUnchecked a
  (r.1, .destroy :: r.2)

/-- `RawRc::drop`: decrement the strong count; when it reaches zero, fold
into `assume_init_drop` (payload destruction + implicit weak drop). -/
def rcDrop (a : Alloc) : Alloc × List RcEvent :=
  let r := decrementRefCount a.strong
  let a1 := { a with strong := r.1 }
  if r.2 then
    let r2 := rcAssumeInitDrop a1
    (r2.1, .decStrong :: r2.2)
  else (a1, [.decStrong])

/-- `RawRc::clone`: unconditionally increment the strong count. -/
def rcClone (a : Alloc) : Alloc × List RcEvent :=
  ({ a with strong := incrementRefCount a.strong }, [.incStrong])

/-- `RawRc::downgrade`: increment the weak count. -/
def rcDowngrade (a : Alloc) : Alloc × List RcEvent :=
  ({ a with weak := incrementRefCount a.weak }, [.incWeak])

/-- Handle-level operations on one allocation. -/
inductive RcOp where
  | cloneStrong
  | dropStrong
  | downgrade
  | cloneWeak
  | dropWeak
  | upgrade
deriving DecidableEq, Repr

/-- The protocol state: the allocation's counters plus the number of live
strong and weak handles (operations require a live handle of the matching
kind, which is how the source's ownership discipline constrains call
sequences). -/
structure RcState where
  alloc : Alloc
  strongHandles : Nat
  weakHandles : Nat
deriving DecidableEq, Repr

/-- One handle-level step; `none` when no handle of the required kind is
live (such a call cannot be written in safe code). -/
def rcStep (σ : RcState) : RcOp → Option (RcState × List RcEvent)
  | .cloneStrong =>
      if σ.strongHandles = 0 then none
      else
        let r := rcClone σ.alloc
        some ({ σ with alloc := r.1, strongHandles := σ.strongHandles + 1 }, r.2)
  | .dropStrong =>
      if σ.strongHandles = 0 then none
      else
        let r := rcDrop σ.alloc
        some ({ σ with alloc := r.1, strongHandles := σ.strongHandles - 1 }, r.2)
  | .downgrade =>
      if σ.strongHandles = 0 then none
      else
        let r := rcDowngrade σ.alloc
        some ({ σ with alloc := r.1, weakHandles := σ.weakHandles + 1 }, r.2)
  | .cloneWeak =>
      if σ.weakHandles = 0 then none
      else
        let r := rawWeakClone validRef σ.alloc
        some ({ σ with alloc := r.2.1, weakHandles := σ.weakHandles + 1 }, r.2.2)
  | .dropWeak =>
      if σ.weakHandles = 0 then none
      else
        let r := rawWeakDrop validRef σ.alloc
        some ({ σ with alloc := r.1, weakHandles := σ.weakHandles - 1 }, r.2)
  | .upgrade =>
      if σ.weakHandles = 0 then none
      else
        let r := rawWeakUpgrade validRef σ.alloc
        some
          ({ σ with
              alloc := r.2.1
              strongHandles := σ.strongHandles + (if r.1 then 1 else 0) }, r.2.2)

/-- Run a sequence of handle operations, accumulating events. -/
def rcRun (σ : RcState) (evs : List RcEvent) :
    List RcOp → Option (RcState × List RcEvent)
  | [] => some (σ, evs)
  | op :: rest =>
      (rcStep σ op).bind fun r => rcRun r.1 (evs ++ r.2) rest

/-- A freshly created allocation (`RefCounts::new(1)`) with its one strong
handle. -/
def rcInit : RcState := ⟨⟨1, 1⟩, 1, 0⟩

/-- A concrete all-inlinable `format_args` input: `"x = {}"` applied to the
literal `42`. -/
def exampleInlineAll : FormatArgs :=
  ⟨[.literal "x = ", .placeholder ⟨⟨some 0⟩, .display, {}⟩],
    [.lit (.int 42 .unsuffixed)]⟩

/-- The text one template piece contributes to the output, resolved
directly against the evaluated arguments. -/
def pieceText (args : List ArgValue) : FormatArgsPiece → String
  | .literal s => s
  | .placeholder p =>
      (args.getD (p.argument.index.getD 0) ArgValue.null).render
        p.format_trait (placeholderOpts args p.format_options)

/-- Correspondence between the encoder's tracked channels/cursors and the
live runtime formatter state. -/
def stCorr (args : List ArgValue) (s : EncState) (st : RtState) : Prop :=
  st.opts.flags = s.current_flags
  ∧ st.opts.fill = s.current_fill
  ∧ st.opts.align = s.current_align
  ∧ st.opts.width = keyVal args s.current_width
  ∧ st.opts.precision = keyVal args s.current_precision
  ∧ st.litPtr = (s.current_literal_offset : Int)
  ∧ st.argPtr = (s.current_argument_offset : Int)

/-- Table-correctness invariant of the encoder state: the literal-offset
map indexes the (duplicate-free) literal table and covers it, the
ref/usize offset maps point at slots holding the matching entry, and each
cursor is zero or points into its table. -/
def EncInv (s : EncState) : Prop :=
  (∀ lit off, s.literal_offsets.lookup lit = some off →
      s.literal_data.get? off = some lit)
  ∧ (∀ lit, lit ∈ s.literal_data → (s.literal_offsets.lookup lit).isSome = true)
  ∧ s.literal_data.Nodup
  ∧ (∀ idx off, s.ref_argument_offsets.get? idx = some (some off) →
      s.argument_data.get? off = some (idx, .ref))
  ∧ (∀ idx off, s.usize_argument_offsets.lookup idx = some off →
      s.argument_data.get? off = some (idx, .usize))
  ∧ (s.current_literal_offset = 0 ∨ s.current_literal_offset < s.literal_data.length)
  ∧ (s.current_argument_offset = 0 ∨ s.current_argument_offset < s.argument_data.length)

/-- The five option channels agree between two encoder states. -/
def ChansEq (s s' : EncState) : Prop :=
  s'.current_flags = s.current_flags ∧ s'.current_fill = s.current_fill
  ∧ s'.current_align = s.current_align ∧ s'.current_width = s.current_width
  ∧ s'.current_precision = s.current_precision

/-- The argument-side tables and cursor agree between two encoder states. -/
def ArgSideEq (s s' : EncState) : Prop :=
  s'.argument_data = s.argument_data
  ∧ s'.ref_argument_offsets = s.ref_argument_offsets
  ∧ s'.usize_argument_offsets = s.usize_argument_offsets
  ∧ s'.current_argument_offset = s.current_argument_offset

/-- The literal-side tables and cursor agree between two encoder states. -/
def LitSideEq (s s' : EncState) : Prop :=
  s'.literal_data = s.literal_data ∧ s'.literal_offsets = s.literal_offsets
  ∧ s'.current_literal_offset = s.current_literal_offset
  ∧ s'.incomplete_literal = s.incomplete_literal

/-- The operations emitted between two encoder states, together with their
semantics: they pass the redundancy check, track the channel state, and —
run on any runtime state corresponding to the first encoder state — append
`outΔ` to the output, log the literal writes `wΔ`, and leave a state
corresponding to the second encoder state. `lits`/`adata` are the final
tables (every intermediate table is a prefix of them). -/
def Emits (args : List ArgValue) (lits : List String)
    (adata : List (Nat × ArgumentUsage)) (s s' : EncState)
    (outDelta : String) (wDelta : List String) : Prop :=
  ∃ ops, s'.format_ops = s.format_ops ++ ops
    ∧ chanCheck adata (chansOf s) ops = true
    ∧ chanApply adata (chansOf s) ops = chansOf s'
    ∧ ∀ st w, stCorr args s st →
        ∃ st', runOpsG lits (slotVals adata args) ops (st, w) = (st', w ++ wDelta)
          ∧ stCorr args s' st'
          ∧ st'.output = st.output ++ outDelta

/-- A concrete template exercising the option channels: a placeholder with
argument-sourced width, literal precision, fill, alignment and flag options
between two literal pieces. -/
def exampleOpstream : FormatArgs :=
  ⟨[.literal "a",
    .placeholder ⟨⟨some 0⟩, .display,
      { width := some (.argument ⟨some 1⟩), precision := some (.literal 3),
        alignment := some .left, fill := some '*', sign := some .plus,
        alternate := true, zero_pad := true, debug_hex := none }⟩,
    .literal "b"], [.other 0, .other 1]⟩

/-- Evaluated arguments for `exampleOpstream`: the second one is read as a
`usize` width source, the first is rendered through its width option. -/
def exampleArgs : List ArgValue :=
  [⟨7, fun _ o => String.mk (List.replicate (o.width.getD 1) 'x')⟩,
    ⟨5, fun _ _ => "y"⟩]

/-- The encoder state `exampleOpstream` lowers to. -/
def exampleEncoded : EncState :=
  (encodeTemplate exampleOpstream).getD (encInit 0)

/-- A template writing the literal text `"a"` twice around two placeholder
visits, so the interned slot is revisited with a backwards cursor offset. -/
def exampleInterning : FormatArgs :=
  ⟨[.literal "a", .placeholder ⟨⟨some 0⟩, .display, {}⟩, .literal "b",
    .placeholder ⟨⟨some 0⟩, .display, {}⟩, .literal "a"], [.other 0]⟩

/-- The encoder state `exampleInterning` lowers to. -/
def exampleInterningEnc : EncState :=
  (encodeTemplate exampleInterning).getD (encInit 0)

/-! # Theorems -/

/-! ## Reference-counting protocol (claims C8, C9, C10) -/

theorem is_dangling_validRef : is_dangling validRef = false := by decide

theorem is_dangling_newDangling : is_dangling newDangling = true := by decide

/-- The inductive invariant of the handle-level protocol: the strong count
equals the number of live strong handles, the weak count equals the live
weak handles plus the implicit weak reference collectively owned by the
strong handles, and the destroy/dealloc events so far are exactly the
indicator of "the strong count has reached zero" / "the weak count has
reached zero" (written with `min` so the arithmetic is linear). -/
def RcInv (σ : RcState) (evs : List RcEvent) : Prop :=
  σ.alloc.strong = (σ.strongHandles : Int)
  ∧ σ.alloc.weak = (σ.weakHandles : Int) + min (σ.strongHandles : Int) 1
  ∧ ((evs.count RcEvent.destroy : Int) = 1 - min (σ.strongHandles : Int) 1)
  ∧ ((evs.count RcEvent.dealloc : Int) = 1 - min σ.alloc.weak 1)
  ∧ 0 ≤ σ.alloc.weak

theorem rcInit_inv : RcInv rcInit [] := by
  refine ⟨by simp [rcInit], by simp [rcInit], by simp [rcInit], by simp [rcInit],
    by simp [rcInit]⟩

theorem weakDropUnchecked_eq (s w : Int) :
    weakDropUnchecked ⟨s, w⟩ =
      (⟨s, w - 1⟩,
        if w - 1 = 0 then [RcEvent.decWeak, RcEvent.dealloc] else [RcEvent.decWeak]) := by
  simp only [weakDropUnchecked, decrementRefCount, beq_iff_eq]
  try dsimp only
  split_ifs <;> rfl

theorem rcDrop_eq (s w : Int) :
    rcDrop ⟨s, w⟩ =
      if s - 1 = 0 then
        (⟨s - 1, w - 1⟩,
          RcEvent.decStrong :: RcEvent.destroy ::
            (if w - 1 = 0 then [RcEvent.decWeak, RcEvent.dealloc] else [RcEvent.decWeak]))
      else (⟨s - 1, w⟩, [RcEvent.decStrong]) := by
  simp only [rcDrop, rcAssumeInitDrop, weakDropUnchecked, decrementRefCount, beq_iff_eq]
  try dsimp only
  split_ifs <;> rfl

theorem rawWeakUpgrade_eq (s w : Int) :
    rawWeakUpgrade validRef ⟨s, w⟩ =
      if s = 0 then (false, ⟨s, w⟩, [RcEvent.readStrong])
      else (true, ⟨s + 1, w⟩, [RcEvent.readStrong, RcEvent.incStrong]) := by
  simp only [rawWeakUpgrade, is_dangling_validRef, Bool.false_eq_true, if_false,
    rcOpsUpgrade, beq_iff_eq]
  try dsimp only
  split_ifs <;> first | rfl | simp_all

theorem rcStep_inv (σ : RcState) (evs : List RcEvent) (op : RcOp)
    (σ' : RcState) (ev : List RcEvent) (hinv : RcInv σ evs)
    (h : rcStep σ op = some (σ', ev)) : RcInv σ' (evs ++ ev) := by
  obtain ⟨⟨s, w⟩, SH, WH⟩ := σ
  obtain ⟨h1, h2, h3, h4, h5⟩ := hinv
  simp only at h1 h2 h3 h4 h5
  cases op
  case cloneStrong =>
    simp only [rcStep, rcClone, incrementRefCount] at h
    split at h
    · exact absurd h (by simp)
    · obtain ⟨rfl, rfl⟩ := Option.some.inj h
      have e3 : List.count RcEvent.destroy [RcEvent.incStrong] = 0 := by decide
      have e4 : List.count RcEvent.dealloc [RcEvent.incStrong] = 0 := by decide
      refine ⟨?_, ?_, ?_, ?_, ?_⟩ <;> (try dsimp only) <;>
        (try simp only [List.count_append, e3, e4, Bool.false_eq_true, if_false, if_true]) <;> omega
  case dropStrong =>
    simp only [rcStep, rcDrop_eq] at h
    split at h
    · exact absurd h (by simp)
    · rename_i hSH
      split at h <;> rename_i hlast
      · split at h <;> rename_i hwlast <;> obtain ⟨rfl, rfl⟩ := Option.some.inj h
        · have e3 : List.count RcEvent.destroy
              [RcEvent.decStrong, RcEvent.destroy, RcEvent.decWeak, RcEvent.dealloc] = 1 := by
            decide
          have e4 : List.count RcEvent.dealloc
              [RcEvent.decStrong, RcEvent.destroy, RcEvent.decWeak, RcEvent.dealloc] = 1 := by
            decide
          refine ⟨?_, ?_, ?_, ?_, ?_⟩ <;> (try dsimp only) <;>
            (try simp only [List.count_append, e3, e4, Bool.false_eq_true, if_false, if_true]) <;> omega
        · have e3 : List.count RcEvent.destroy
              [RcEvent.decStrong, RcEvent.destroy, RcEvent.decWeak] = 1 := by decide
          have e4 : List.count RcEvent.dealloc
              [RcEvent.decStrong, RcEvent.destroy, RcEvent.decWeak] = 0 := by decide
          refine ⟨?_, ?_, ?_, ?_, ?_⟩ <;> (try dsimp only) <;>
            (try simp only [List.count_append, e3, e4, Bool.false_eq_true, if_false, if_true]) <;> omega
      · obtain ⟨rfl, rfl⟩ := Option.some.inj h
        have e3 : List.count RcEvent.destroy [RcEvent.decStrong] = 0 := by decide
        have e4 : List.count RcEvent.dealloc [RcEvent.decStrong] = 0 := by decide
        refine ⟨?_, ?_, ?_, ?_, ?_⟩ <;> (try dsimp only) <;>
          (try simp only [List.count_append, e3, e4, Bool.false_eq_true, if_false, if_true]) <;> omega
  case downgrade =>
    simp only [rcStep, rcDowngrade, incrementRefCount] at h
    split at h
    · exact absurd h (by simp)
    · obtain ⟨rfl, rfl⟩ := Option.some.inj h
      have e3 : List.count RcEvent.destroy [RcEvent.incWeak] = 0 := by decide
      have e4 : List.count RcEvent.dealloc [RcEvent.incWeak] = 0 := by decide
      refine ⟨?_, ?_, ?_, ?_, ?_⟩ <;> (try dsimp only) <;>
        (try simp only [List.count_append, e3, e4, Bool.false_eq_true, if_false, if_true]) <;> omega
  case cloneWeak =>
    simp only [rcStep, rawWeakClone, is_dangling_validRef, Bool.false_eq_true, if_false,
      incrementRefCount] at h
    split at h
    · exact absurd h (by simp)
    · obtain ⟨rfl, rfl⟩ := Option.some.inj h
      have e3 : List.count RcEvent.destroy [RcEvent.incWeak] = 0 := by decide
      have e4 : List.count RcEvent.dealloc [RcEvent.incWeak] = 0 := by decide
      refine ⟨?_, ?_, ?_, ?_, ?_⟩ <;> (try dsimp only) <;>
        (try simp only [List.count_append, e3, e4, Bool.false_eq_true, if_false, if_true]) <;> omega
  case dropWeak =>
    simp only [rcStep, rawWeakDrop, is_dangling_validRef, Bool.false_eq_true, if_false,
      weakDropUnchecked_eq] at h
    split at h
    · exact absurd h (by simp)
    · rename_i hWH
      split at h <;> rename_i hwlast <;> obtain ⟨rfl, rfl⟩ := Option.some.inj h
      · have e3 : List.count RcEvent.destroy [RcEvent.decWeak, RcEvent.dealloc] = 0 := by
          decide
        have e4 : List.count RcEvent.dealloc [RcEvent.decWeak, RcEvent.dealloc] = 1 := by
          decide
        refine ⟨?_, ?_, ?_, ?_, ?_⟩ <;> (try dsimp only) <;>
          (try simp only [List.count_append, e3, e4, Bool.false_eq_true, if_false, if_true]) <;> omega
      · have e3 : List.count RcEvent.destroy [RcEvent.decWeak] = 0 := by decide
        have e4 : List.count RcEvent.dealloc [RcEvent.decWeak] = 0 := by decide
        refine ⟨?_, ?_, ?_, ?_, ?_⟩ <;> (try dsimp only) <;>
          (try simp only [List.count_append, e3, e4, Bool.false_eq_true, if_false, if_true]) <;> omega
  case upgrade =>
    simp only [rcStep, rawWeakUpgrade_eq] at h
    split at h
    · exact absurd h (by simp)
    · rename_i hWH
      split at h <;> rename_i hz <;> obtain ⟨rfl, rfl⟩ := Option.some.inj h
      · have e3 : List.count RcEvent.destroy [RcEvent.readStrong] = 0 := by decide
        have e4 : List.count RcEvent.dealloc [RcEvent.readStrong] = 0 := by decide
        refine ⟨?_, ?_, ?_, ?_, ?_⟩ <;> (try dsimp only) <;>
          (try simp only [List.count_append, e3, e4, Bool.false_eq_true, if_false, if_true]) <;> omega
      · have e3 : List.count RcEvent.destroy [RcEvent.readStrong, RcEvent.incStrong] = 0 := by
          decide
        have e4 : List.count RcEvent.dealloc [RcEvent.readStrong, RcEvent.incStrong] = 0 := by
          decide
        refine ⟨?_, ?_, ?_, ?_, ?_⟩ <;> (try dsimp only) <;>
          (try simp only [List.count_append, e3, e4, Bool.false_eq_true, if_false, if_true]) <;> omega

theorem rcRun_inv (ops : List RcOp) :
    ∀ (σ0 : RcState) (evs0 : List RcEvent) (σ : RcState) (evs : List RcEvent),
      RcInv σ0 evs0 → rcRun σ0 evs0 ops = some (σ, evs) → RcInv σ evs := by
  induction ops with
  | nil =>
      intro σ0 evs0 σ evs hinv h
      simp only [rcRun] at h
      obtain ⟨rfl, rfl⟩ := Option.some.inj h
      exact hinv
  | cons op rest ih =>
      intro σ0 evs0 σ evs hinv h
      simp only [rcRun] at h
      obtain ⟨⟨σ1, ev1⟩, hstep, hrest⟩ := Option.bind_eq_some.mp h
      exact ih σ1 (evs0 ++ ev1) σ evs (rcStep_inv σ0 evs0 op σ1 ev1 hinv hstep) hrest

theorem rcStep_events (σ : RcState) (op : RcOp) (σ' : RcState) (ev : List RcEvent)
    (h : rcStep σ op = some (σ', ev)) :
    (RcEvent.destroy ∈ ev ↔ op = RcOp.dropStrong ∧ σ.alloc.strong = 1)
    ∧ (RcEvent.dealloc ∈ ev ↔
        σ.alloc.weak = 1
          ∧ (op = RcOp.dropWeak ∨ (op = RcOp.dropStrong ∧ σ.alloc.strong = 1))) := by
  obtain ⟨⟨s, w⟩, SH, WH⟩ := σ
  cases op
  case cloneStrong =>
    simp only [rcStep, rcClone, incrementRefCount] at h
    split at h
    · exact absurd h (by simp)
    · obtain ⟨rfl, rfl⟩ := Option.some.inj h
      constructor <;> simp
  case dropStrong =>
    simp only [rcStep, rcDrop_eq] at h
    split at h
    · exact absurd h (by simp)
    · split at h <;> rename_i hlast
      · split at h <;> rename_i hwlast <;> obtain ⟨rfl, rfl⟩ := Option.some.inj h <;>
          constructor <;> simp <;> omega
      · obtain ⟨rfl, rfl⟩ := Option.some.inj h
        constructor <;> simp <;> omega
  case downgrade =>
    simp only [rcStep, rcDowngrade, incrementRefCount] at h
    split at h
    · exact absurd h (by simp)
    · obtain ⟨rfl, rfl⟩ := Option.some.inj h
      constructor <;> simp
  case cloneWeak =>
    simp only [rcStep, rawWeakClone, is_dangling_validRef, Bool.false_eq_true, if_false,
      incrementRefCount] at h
    split at h
    · exact absurd h (by simp)
    · obtain ⟨rfl, rfl⟩ := Option.some.inj h
      constructor <;> simp
  case dropWeak =>
    simp only [rcStep, rawWeakDrop, is_dangling_validRef, Bool.false_eq_true, if_false,
      weakDropUnchecked_eq] at h
    split at h
    · exact absurd h (by simp)
    · split at h <;> rename_i hwlast <;> obtain ⟨rfl, rfl⟩ := Option.some.inj h <;>
        constructor <;> simp <;> omega
  case upgrade =>
    simp only [rcStep, rawWeakUpgrade_eq] at h
    split at h
    · exact absurd h (by simp)
    · split at h <;> obtain ⟨rfl, rfl⟩ := Option.some.inj h <;> constructor <;> simp

/-- C8: for any sequence of clone/drop/downgrade/upgrade operations on one
reference-counted allocation, the strong count never goes negative, the weak
count never drops below 1 while the strong count is positive, the payload is
destroyed exactly once — exactly at the step where the strong count goes
from 1 to 0 — and the block is deallocated exactly once, exactly at the step
where the weak count goes from 1 to 0 with the strong count already at 0. -/
theorem rc_refcount_invariants (ops : List RcOp) (σ : RcState) (evs : List RcEvent)
    (h : rcRun rcInit [] ops = some (σ, evs)) :
    0 ≤ σ.alloc.strong
    ∧ (0 < σ.alloc.strong → 1 ≤ σ.alloc.weak)
    ∧ evs.count RcEvent.destroy = (if σ.alloc.strong = 0 then 1 else 0)
    ∧ evs.count RcEvent.dealloc = (if σ.alloc.weak = 0 then 1 else 0)
    ∧ (σ.alloc.weak = 0 → σ.alloc.strong = 0)
    ∧ ∀ op σ' ev, rcStep σ op = some (σ', ev) →
        ((RcEvent.destroy ∈ ev ↔ op = RcOp.dropStrong ∧ σ.alloc.strong = 1)
         ∧ (RcEvent.dealloc ∈ ev ↔
              σ.alloc.weak = 1
                ∧ (op = RcOp.dropWeak ∨ (op = RcOp.dropStrong ∧ σ.alloc.strong = 1)))) := by
  obtain ⟨h1, h2, h3, h4, h5⟩ := rcRun_inv ops rcInit [] σ evs rcInit_inv h
  refine ⟨by omega, by omega, ?_, ?_, by omega,
    fun op σ' ev hs => rcStep_events σ op σ' ev hs⟩
  · by_cases hz : σ.alloc.strong = 0
    · rw [if_pos hz]; omega
    · rw [if_neg hz]; omega
  · by_cases hz : σ.alloc.weak = 0
    · rw [if_pos hz]; omega
    · rw [if_neg hz]; omega

theorem rc_refcount_invariants_witness :
    List.count RcEvent.destroy
        [RcEvent.incWeak, RcEvent.incStrong, RcEvent.decStrong, RcEvent.decStrong,
          RcEvent.destroy, RcEvent.decWeak, RcEvent.readStrong, RcEvent.decWeak,
          RcEvent.dealloc] =
      (if (RcState.mk ⟨0, 0⟩ 0 0).alloc.strong = 0 then 1 else 0) :=
  (rc_refcount_invariants
    [RcOp.downgrade, RcOp.cloneStrong, RcOp.dropStrong, RcOp.dropStrong, RcOp.upgrade,
      RcOp.dropWeak]
    ⟨⟨0, 0⟩, 0, 0⟩
    [RcEvent.incWeak, RcEvent.incStrong, RcEvent.decStrong, RcEvent.decStrong,
      RcEvent.destroy, RcEvent.decWeak, RcEvent.readStrong, RcEvent.decWeak,
      RcEvent.dealloc]
    (by decide)).2.2.1

/-- C9: upgrading a non-dangling weak reference increments the strong count
and yields a strong reference if and only if the strong count is non-zero;
in particular, in any reachable state where the last strong reference has
been dropped (strong count 0), upgrading reports failure, leaves the counts
unchanged, and yields no access to the destroyed payload. -/
theorem upgrade_iff_strong_nonzero :
    (∀ (w : WeakRef) (a : Alloc), is_dangling w = false →
        ((rawWeakUpgrade w a).1 = true ↔ a.strong ≠ 0)
        ∧ ((rawWeakUpgrade w a).1 = true →
            (rawWeakUpgrade w a).2.1 = ⟨a.strong + 1, a.weak⟩)
        ∧ ((rawWeakUpgrade w a).1 = false → (rawWeakUpgrade w a).2.1 = a))
    ∧ (∀ (ops : List RcOp) (σ : RcState) (evs : List RcEvent),
        rcRun rcInit [] ops = some (σ, evs) → σ.alloc.strong = 0 →
        rawWeakUpgrade validRef σ.alloc = (false, σ.alloc, [RcEvent.readStrong])) := by
  constructor
  · intro w a hw
    obtain ⟨s, wk⟩ := a
    simp only [rawWeakUpgrade, hw, Bool.false_eq_true, if_false, rcOpsUpgrade, beq_iff_eq]
    by_cases hz : s = 0
    · subst hz
      simp
    · simp [hz]
  · intro ops σ evs hrun hzero
    obtain ⟨⟨s, w⟩, SH, WH⟩ := σ
    simp only at hzero
    subst hzero
    rw [rawWeakUpgrade_eq]
    simp

theorem upgrade_iff_strong_nonzero_witness :
    rawWeakUpgrade validRef (Alloc.mk 0 1) = (false, Alloc.mk 0 1, [RcEvent.readStrong]) :=
  upgrade_iff_strong_nonzero.2 [RcOp.downgrade, RcOp.dropStrong] ⟨⟨0, 1⟩, 0, 1⟩
    [RcEvent.incWeak, RcEvent.decStrong, RcEvent.destroy, RcEvent.decWeak]
    (by decide) (by decide)

/-- C10: for a dangling weak reference (the default-constructed weak, whose
address is the sentinel `NonZeroUsize::MAX`), clone returns another dangling
weak, drop deallocates nothing, and upgrade returns no value; none of these
operations touches any reference count (no count event is emitted and the
counters are unchanged). -/
theorem dangling_weak_noop : ∀ (a : Alloc),
    is_dangling newDangling = true
    ∧ rawWeakClone newDangling a = (newDangling, a, [])
    ∧ rawWeakDrop newDangling a = (a, [])
    ∧ rawWeakUpgrade newDangling a = (false, a, []) := by
  intro a
  refine ⟨is_dangling_newDangling, ?_, ?_, ?_⟩ <;>
    simp [rawWeakClone, rawWeakDrop, rawWeakUpgrade, is_dangling_newDangling]

/-! ## Preallocation estimate (claim C6) -/

theorem literalLengthGo_none (t : List FormatArgsPiece) : literalLengthGo none t = none := by
  induction t with
  | nil => rfl
  | cons piece rest ih =>
      cases piece with
      | literal s =>
          simp only [literalLengthGo]
          split <;> simpa using ih
      | placeholder p => simpa [literalLengthGo] using ih

theorem literalLengthGo_eq (t : List FormatArgsPiece) :
    ∀ a : Nat, a < 2 ^ 64 →
      literalLengthGo (some a) t =
        if a + naiveLiteralLength t < 2 ^ 64 then some (a + naiveLiteralLength t) else none := by
  induction t with
  | nil =>
      intro a ha
      simp only [literalLengthGo, naiveLiteralLength, Nat.add_zero]
      rw [if_pos ha]
  | cons piece rest ih =>
      intro a ha
      cases piece with
      | literal s =>
          simp only [literalLengthGo, naiveLiteralLength]
          by_cases hs : s = emptyStr
          · subst hs
            rw [if_neg (by simp)]
            have hlen : emptyStr.length = 0 := rfl
            simpa [hlen] using ih a ha
          · simp only [ne_eq, hs, not_false_eq_true, if_true, Option.some_bind,
              checkedAddU64]
            by_cases hfit : a + s.length < 2 ^ 64
            · rw [if_pos hfit, ih (a + s.length) hfit]
              by_cases h2 : a + s.length + naiveLiteralLength rest < 2 ^ 64
              · rw [if_pos h2, if_pos (by omega)]
                congr 1
                omega
              · rw [if_neg h2, if_neg (by omega)]
            · rw [if_neg hfit, literalLengthGo_none, if_neg (by omega)]
      | placeholder p =>
          simp only [literalLengthGo, naiveLiteralLength]
          exact ih a ha

theorem literalLength_eq (t : List FormatArgsPiece) :
    literalLength t =
      if naiveLiteralLength t < 2 ^ 64 then some (naiveLiteralLength t) else none := by
  simpa using literalLengthGo_eq t 0 (by norm_num)

theorem isizeMax_lt (pw : Nat) (hpw : pw = 16 ∨ pw = 32 ∨ pw = 64) :
    isizeMax pw < 2 ^ 64 := by
  rcases hpw with rfl | rfl | rfl <;> norm_num [isizeMax]

theorem estimated_capacity_core (pw : Nat) (starts : Bool) (t : List FormatArgsPiece)
    (hpw : pw = 16 ∨ pw = 32 ∨ pw = 64) :
    estimated_capacity pw starts (literalLength t) =
      amendedCapacity pw starts (naiveLiteralLength t) := by
  have hmax := isizeMax_lt pw hpw
  rw [literalLength_eq]
  by_cases hfit : naiveLiteralLength t < 2 ^ 64
  · rw [if_pos hfit]
    simp only [estimated_capacity, amendedCapacity, checkedMul2U64, Option.bind_eq_bind,
      Option.some_bind]
    by_cases hsmall : (!starts) = true ∧ naiveLiteralLength t < 16
    · rw [if_pos hsmall, if_pos hsmall]
      rfl
    · rw [if_neg hsmall, if_neg hsmall]
      by_cases h2 : naiveLiteralLength t * 2 < 2 ^ 64
      · rw [if_pos h2]
        by_cases h3 : naiveLiteralLength t * 2 ≤ isizeMax pw
        · rw [if_pos (by omega)]
          simp [Option.filter, h3]
          omega
        · rw [if_neg (by omega)]
          simp [Option.filter, h3]
      · rw [if_neg h2, if_neg (by omega)]
        rfl
  · rw [if_neg hfit]
    simp only [estimated_capacity, amendedCapacity, Option.bind_eq_bind, Option.none_bind,
      Option.getD_none]
    rw [if_neg (by omega), if_neg (by omega)]

/-- C6 (amended): whenever `expand_format_args` emits an output-buffer
preallocation size at all — for a template with no arguments it returns
early via `Arguments::from_static_str` and emits none — that size is zero
when the first operation is not a literal write and the total literal
length is small (below 16); otherwise it is twice the total known literal
length when that product does not exceed `isize::MAX`, and zero — not a
value clamped to the maximum — when it would exceed it (including when the
length accumulation itself overflows `u64`). -/
theorem emitted_capacity_spec (pw : Nat) (fmt : FormatArgs)
    (hpw : pw = 16 ∨ pw = 32 ∨ pw = 64) :
    emittedCapacity pw fmt
      = if fmt.arguments.isEmpty then none
        else (encodeTemplate fmt).map
          (fun r => amendedCapacity pw (startsWithLiteral r)
            (naiveLiteralLength fmt.template)) := by
  rw [emittedCapacity]
  by_cases hempty : fmt.arguments.isEmpty = true
  · rw [if_pos hempty, if_pos hempty]
  · rw [if_neg hempty, if_neg hempty]
    cases hE : encodeTemplate fmt with
    | none => rfl
    | some r =>
        simp only [Option.map_some']
        rw [estimated_capacity_core pw (startsWithLiteral r) fmt.template hpw]

theorem emitted_capacity_spec_witness :
    emittedCapacity 64 ⟨[.literal "ab", .placeholder ⟨⟨some 0⟩, .display, {}⟩],
        [.other 0]⟩
      = if ([ArgExpr.other 0] : List ArgExpr).isEmpty then none
        else (encodeTemplate ⟨[.literal "ab", .placeholder ⟨⟨some 0⟩, .display, {}⟩],
            [.other 0]⟩).map
          (fun r => amendedCapacity 64 (startsWithLiteral r)
            (naiveLiteralLength [.literal "ab",
              .placeholder ⟨⟨some 0⟩, .display, {}⟩])) :=
  emitted_capacity_spec 64
    ⟨[.literal "ab", .placeholder ⟨⟨some 0⟩, .display, {}⟩], [.other 0]⟩
    (by norm_num)

theorem encode_literal_placeholder (s : String) (hs : s ≠ emptyStr) :
    encodeTemplate ⟨[FormatArgsPiece.literal s,
        .placeholder ⟨⟨some 0⟩, .display, {}⟩], [.other 0]⟩ =
      some
        { literal_data := [s]
          literal_offsets := [(s, 0)]
          argument_data := [(0, .ref)]
          ref_argument_offsets := [some 0]
          usize_argument_offsets := []
          current_literal_offset := 0
          current_argument_offset := 0
          current_flags := 0
          current_fill := ' '
          current_align := none
          current_width := none
          current_precision := none
          incomplete_literal := []
          format_ops := [FormatOp.writeStr,
            FormatOp.fmtValue ⟨⟨some 0⟩, .display, {}⟩] } := by
  simp [encodeTemplate, encodePieces, encodePiece, encode_literal, hs, encode_placeholder,
    flush_literal, joinPieces, allocate_literal, set_literal_offset, encInit, updateFlags,
    computeFlags, updateFill, updateAlign, updateWidth, updatePrecision,
    allocate_ref_argument, set_argument_offset, encode_placeholder]

/-- C6 counterexample: on a 16-bit target, a template with one argument — so
the preallocation size IS emitted — whose pieces are one 16384-byte literal
followed by a placeholder yields a preallocation of 0, whereas the claim's
"twice the total known literal length, capped so that it does not overflow
the platform's maximum allocation size" would be `isize::MAX = 32767`. -/
theorem emitted_capacity_not_capped :
    emittedCapacity 16 ⟨[FormatArgsPiece.literal (String.mk (List.replicate 16384 'a')),
        .placeholder ⟨⟨some 0⟩, .display, {}⟩], [.other 0]⟩ = some 0
    ∧ (encodeTemplate ⟨[FormatArgsPiece.literal (String.mk (List.replicate 16384 'a')),
          .placeholder ⟨⟨some 0⟩, .display, {}⟩], [.other 0]⟩).map
        (fun r => claimedCapacity 16 (startsWithLiteral r)
          (naiveLiteralLength [FormatArgsPiece.literal
              (String.mk (List.replicate 16384 'a')),
            .placeholder ⟨⟨some 0⟩, .display, {}⟩]))
      = some 32767
    ∧ (0 : Nat) ≠ 32767 := by
  have hlen : (String.mk (List.replicate 16384 'a')).length = 16384 := by
    rw [show (String.mk (List.replicate 16384 'a')).length
        = (List.replicate 16384 'a').length from rfl, List.length_replicate]
  have hne : String.mk (List.replicate 16384 'a') ≠ emptyStr := by
    intro h
    rw [h] at hlen
    exact absurd hlen (by decide)
  have hnv : naiveLiteralLength
      [FormatArgsPiece.literal (String.mk (List.replicate 16384 'a')),
        FormatArgsPiece.placeholder ⟨⟨some 0⟩, .display, {}⟩] = 16384 := by
    rw [show naiveLiteralLength
          [FormatArgsPiece.literal (String.mk (List.replicate 16384 'a')),
            FormatArgsPiece.placeholder ⟨⟨some 0⟩, .display, {}⟩]
        = (String.mk (List.replicate 16384 'a')).length
          + naiveLiteralLength [FormatArgsPiece.placeholder ⟨⟨some 0⟩, .display, {}⟩]
        from rfl,
      hlen]
    rfl
  refine ⟨?_, ?_, by norm_num⟩
  · rw [emittedCapacity, if_neg (by decide), encode_literal_placeholder _ hne]
    simp only [Option.map_some', Option.some.injEq]
    rw [literalLength_eq, hnv, if_pos (by norm_num)]
    generalize startsWithLiteral _ = b
    cases b <;> norm_num [estimated_capacity, checkedMul2U64, isizeMax, Option.filter]
  · rw [encode_literal_placeholder _ hne]
    simp only [Option.map_some', Option.some.injEq, hnv]
    generalize startsWithLiteral _ = b
    cases b <;> norm_num [claimedCapacity, isizeMax]

/-! ## Literal inliner (claims C3, C5) -/

theorem getD_set_ne (m : List Bool) (j i : Nat) (b : Bool) (h : j ≠ i) :
    (m.set j b).getD i false = m.getD i false := by
  rw [List.getD_eq_getD_get?, List.getD_eq_getD_get?, List.get?_set_ne b m h]

theorem getD_set_self (m : List Bool) (i : Nat) (b : Bool) :
    (m.set i b).getD i false = if i < m.length then b else false := by
  rw [List.getD_eq_getD_get?]
  by_cases h : i < m.length
  · rw [List.get?_set_eq_of_lt b h]
    simp [h]
  · rw [if_neg h]
    rw [List.get?_eq_none.mpr (by rw [List.length_set]; omega)]
    rfl

theorem foldl_set_length (idxs : List Nat) (b : Bool) :
    ∀ m : List Bool, (idxs.foldl (fun m j => m.set j b) m).length = m.length := by
  induction idxs with
  | nil => intro m; rfl
  | cons j rest ih =>
      intro m
      simp only [List.foldl_cons]
      rw [ih]
      exact List.length_set m j b

theorem foldl_set_false_getD (idxs : List Nat) :
    ∀ (m : List Bool) (i : Nat),
      (idxs.foldl (fun m j => m.set j false) m).getD i false
        = (m.getD i false && decide (i ∉ idxs)) := by
  induction idxs with
  | nil =>
      intro m i
      simp
  | cons j rest ih =>
      intro m i
      simp only [List.foldl_cons]
      rw [ih]
      by_cases hji : j = i
      · subst hji
        rw [getD_set_self]
        simp only [List.mem_cons]
        by_cases hm : j < m.length
        · simp [hm]
        · rw [if_neg hm]
          rw [List.getD_eq_default _ _ (by omega)]
          simp
      · rw [getD_set_ne m j i false hji]
        have hij : ¬ i = j := fun hc => hji hc.symm
        simp [List.mem_cons, hij]

theorem foldl_set_true_getD (idxs : List Nat) :
    ∀ (m : List Bool) (i : Nat), (∀ j ∈ idxs, j < m.length) →
      (idxs.foldl (fun m j => m.set j true) m).getD i false
        = (m.getD i false || decide (i ∈ idxs)) := by
  induction idxs with
  | nil =>
      intro m i _
      simp
  | cons j rest ih =>
      intro m i hb
      simp only [List.foldl_cons]
      rw [ih (m.set j true) i
        (fun k hk => by rw [List.length_set]; exact hb k (List.mem_cons_of_mem j hk))]
      by_cases hji : j = i
      · subst hji
        rw [getD_set_self, if_pos (hb j (List.mem_cons_self j rest))]
        simp
      · rw [getD_set_ne m j i true hji]
        have hij : ¬ i = j := fun hc => hji hc.symm
        simp [List.mem_cons, hij]

theorem inlineLoop_template (pw : Nat) (args : List ArgExpr) :
    ∀ (t : List FormatArgsPiece) (was : List Bool),
      (inlineLoop pw args t was).1
        = t.map (fun piece =>
            match inlineResult pw args piece with
            | some r => .literal r.1
            | none => piece) := by
  intro t
  induction t with
  | nil => intro was; rfl
  | cons piece rest ih =>
      intro was
      simp only [inlineLoop, List.map_cons]
      cases h : inlineResult pw args piece with
      | none => simp [h, ih]
      | some r => simp [h, ih]

theorem inlineLoop_was (pw : Nat) (args : List ArgExpr) :
    ∀ (t : List FormatArgsPiece) (was : List Bool),
      (inlineLoop pw args t was).2.1
        = (inlinedIndexes pw args t).foldl (fun m j => m.set j true) was := by
  intro t
  induction t with
  | nil => intro was; rfl
  | cons piece rest ih =>
      intro was
      simp only [inlineLoop, inlinedIndexes, List.filterMap_cons]
      cases h : inlineResult pw args piece with
      | none => simpa [h, inlinedIndexes] using ih was
      | some r => simpa [h, inlinedIndexes] using ih (was.set r.2 true)

theorem inlineLoop_anything (pw : Nat) (args : List ArgExpr) :
    ∀ (t : List FormatArgsPiece) (was : List Bool),
      (inlineLoop pw args t was).2.2
        = t.any (fun piece => (inlineResult pw args piece).isSome) := by
  intro t
  induction t with
  | nil => intro was; rfl
  | cons piece rest ih =>
      intro was
      simp only [inlineLoop, List.any_cons]
      cases h : inlineResult pw args piece with
      | none => simp [h, ih]
      | some r => simp [h]

theorem retainByMask_sublist : ∀ (args : List ArgExpr) (mask : List Bool),
    List.Sublist (retainByMask args mask) args := by
  intro args
  induction args with
  | nil => intro mask; cases mask <;> exact List.Sublist.refl []
  | cons a rest ih =>
      intro mask
      cases mask with
      | nil => exact List.Sublist.refl _
      | cons b bs =>
          simp only [retainByMask]
          by_cases hb : b = true
          · rw [if_pos hb]
            exact List.Sublist.cons a (ih bs)
          · rw [if_neg hb]
            exact List.Sublist.cons₂ a (ih bs)

theorem retainByMask_all_false : ∀ (args : List ArgExpr) (mask : List Bool),
    (∀ b ∈ mask, b = false) → retainByMask args mask = args := by
  intro args
  induction args with
  | nil => intro mask _; cases mask <;> rfl
  | cons a rest ih =>
      intro mask hmask
      cases mask with
      | nil => rfl
      | cons b bs =>
          have hb : b = false := hmask b (List.mem_cons_self b bs)
          simp only [retainByMask, hb, Bool.false_eq_true, if_false]
          rw [ih bs (fun x hx => hmask x (List.mem_cons_of_mem b hx))]

theorem retainByMask_get : ∀ (args : List ArgExpr) (mask : List Bool) (i : Nat),
    mask.length = args.length → i < args.length → mask.getD i false = false →
      (retainByMask args mask).get? (newIndex mask i) = args.get? i := by
  intro args
  induction args with
  | nil =>
      intro mask i _ hi _
      exact absurd hi (by simp)
  | cons a rest ih =>
      intro mask i hlen hi hfalse
      cases mask with
      | nil => exact absurd hlen (by simp)
      | cons b bs =>
          cases i with
          | zero =>
              have hb : b = false := by simpa [List.getD] using hfalse
              subst hb
              simp [retainByMask, newIndex]
          | succ j =>
              have hfalse' : bs.getD j false = false := by
                simpa [List.getD_eq_getD_get?] using hfalse
              have hlen' : bs.length = rest.length := by simpa using hlen
              have hj : j < rest.length := by simpa [Nat.succ_lt_succ_iff] using hi
              have hnew : newIndex (b :: bs) (j + 1)
                  = newIndex bs j + (if b = false then 1 else 0) := by
                simp only [newIndex, List.take_succ_cons, List.countP_cons]
                cases b <;> simp
              rw [hnew]
              simp only [retainByMask]
              by_cases hb : b = true
              · rw [if_pos hb, hb]
                simpa using ih bs j hlen' hj hfalse'
              · rw [if_neg hb]
                have hb' : b = false := by
                  cases b
                  · rfl
                  · exact absurd rfl hb
                rw [hb']
                simpa using ih bs j hlen' hj hfalse'

theorem newIndex_all_false (mask : List Bool) (i : Nat)
    (hmask : ∀ b ∈ mask, b = false) (hi : i ≤ mask.length) : newIndex mask i = i := by
  unfold newIndex
  have : ∀ b ∈ mask.take i, b = false := fun b hb => hmask b (List.mem_of_mem_take hb)
  calc (mask.take i).countP (fun b => !b)
      = (mask.take i).length := by
        rw [List.countP_eq_length]
        intro b hb
        rw [this b hb]
        rfl
    _ = i := by
        rw [List.length_take]
        omega

theorem mapCount_congr (f g : Nat → Nat) (c : Option FormatCount)
    (h : ∀ i ∈ countArgIndex c, f i = g i) : mapCount f c = mapCount g c := by
  match c with
  | none => rfl
  | some (.literal n) => rfl
  | some (.argument ⟨none⟩) => rfl
  | some (.argument ⟨some i⟩) =>
      simp only [mapCount]
      rw [h i (by simp [countArgIndex])]

theorem mapPiece_congr (f g : Nat → Nat) (piece : FormatArgsPiece)
    (h : ∀ i ∈ pieceIndexes piece, f i = g i) : mapPiece f piece = mapPiece g piece := by
  match piece with
  | .literal s => rfl
  | .placeholder p =>
      simp only [mapPiece, FormatArgsPiece.placeholder.injEq]
      have hw : mapCount f p.format_options.width = mapCount g p.format_options.width :=
        mapCount_congr f g _ (fun i hi => h i (by simp [pieceIndexes, hi]))
      have hp : mapCount f p.format_options.precision
          = mapCount g p.format_options.precision :=
        mapCount_congr f g _ (fun i hi => h i (by simp [pieceIndexes, hi]))
      have ha : p.argument.index.map f = p.argument.index.map g := by
        cases hidx : p.argument.index with
        | none => rfl
        | some i =>
            simp only [Option.map_some']
            rw [h i (by simp [pieceIndexes, hidx])]
      rw [hw, hp, ha]

theorem mapCount_id (c : Option FormatCount) : mapCount id c = c := by
  match c with
  | none => rfl
  | some (.literal n) => rfl
  | some (.argument ⟨none⟩) => rfl
  | some (.argument ⟨some i⟩) => rfl

theorem mapPiece_id (piece : FormatArgsPiece) : mapPiece id piece = piece := by
  match piece with
  | .literal s => rfl
  | .placeholder ⟨⟨idx⟩, tr, ⟨w, pr, al, fi, sg, alt, zp, dh⟩⟩ =>
      simp [mapPiece, mapCount_id, Option.map_id']

theorem mapIndexes_congr (f g : Nat → Nat) (t : List FormatArgsPiece)
    (h : ∀ i ∈ templateIndexes t, f i = g i) : mapIndexes f t = mapIndexes g t := by
  induction t with
  | nil => rfl
  | cons piece rest ih =>
      simp only [mapIndexes, List.map_cons]
      rw [mapPiece_congr f g piece
          (fun i hi => h i (by
            simp only [templateIndexes, List.flatMap_cons]
            exact List.mem_append_left _ hi)),
        show List.map (mapPiece f) rest = mapIndexes f rest from rfl,
        show List.map (mapPiece g) rest = mapIndexes g rest from rfl,
        ih (fun i hi => h i (by
          simp only [templateIndexes, List.flatMap_cons]
          exact List.mem_append_right _ (by simpa [templateIndexes] using hi)))]

theorem mapIndexes_id_on (f : Nat → Nat) (t : List FormatArgsPiece)
    (h : ∀ i ∈ templateIndexes t, f i = i) : mapIndexes f t = t := by
  rw [mapIndexes_congr f id t h]
  simp only [mapIndexes]
  rw [List.map_congr_left (fun piece _ => mapPiece_id piece)]
  simp

theorem getD_replicate_false (n i : Nat) : (List.replicate n false).getD i false = false := by
  by_cases h : i < n
  · rw [List.getD_eq_getElem _ _ (by simpa using h)]
    simp
  · exact List.getD_eq_default _ _ (by simpa [Nat.not_lt] using h)

theorem inlineResult_index (pw : Nat) (args : List ArgExpr) (piece : FormatArgsPiece)
    (r : String × Nat) (h : inlineResult pw args piece = some r) :
    ∃ p, piece = .placeholder p ∧ p.argument.index = some r.2 := by
  cases piece with
  | literal s => exact absurd h (by simp [inlineResult])
  | placeholder p =>
      refine ⟨p, rfl, ?_⟩
      cases hidx : p.argument.index with
      | none => simp [inlineResult, hidx] at h
      | some k =>
          simp only [inlineResult, hidx] at h
          split at h
          · split at h
            · obtain ⟨s, hs1, hs2⟩ := Option.map_eq_some'.mp h
              rw [← hs2]
            · exact absurd h (by simp)
          · exact absurd h (by simp)

theorem inlinedIndexes_subset (pw : Nat) (args : List ArgExpr) (t : List FormatArgsPiece) :
    ∀ i ∈ inlinedIndexes pw args t, i ∈ templateIndexes t := by
  intro i hi
  simp only [inlinedIndexes, List.mem_filterMap] at hi
  obtain ⟨piece, hmem, hres⟩ := hi
  obtain ⟨r, hr, hsnd⟩ := Option.map_eq_some'.mp hres
  obtain ⟨p, rfl, hidx⟩ := inlineResult_index pw args piece r hr
  simp only [templateIndexes, List.mem_flatMap]
  exact ⟨.placeholder p, hmem, by simp [pieceIndexes, hidx, hsnd]⟩

theorem templateIndexes_map_subset (fn : FormatArgsPiece → FormatArgsPiece)
    (hfn : ∀ piece, fn piece = piece ∨ ∃ s, fn piece = .literal s)
    (t : List FormatArgsPiece) :
    ∀ i ∈ templateIndexes (t.map fn), i ∈ templateIndexes t := by
  intro i hi
  simp only [templateIndexes, List.mem_flatMap, List.mem_map] at hi ⊢
  obtain ⟨piece', ⟨piece, hmem, rfl⟩, hidx⟩ := hi
  rcases hfn piece with heq | ⟨s, heq⟩
  · exact ⟨piece, hmem, by rwa [heq] at hidx⟩
  · rw [heq] at hidx
    exact absurd hidx (by simp [pieceIndexes])

theorem templateIndexes_pass_subset (pw : Nat) (fmt : FormatArgs) :
    ∀ i ∈ templateIndexes (inlinePassResult pw fmt).1, i ∈ templateIndexes fmt.template := by
  have hT := inlineLoop_template pw fmt.arguments fmt.template
    (List.replicate fmt.arguments.length false)
  intro i hi
  rw [show (inlinePassResult pw fmt).1
      = (inlineLoop pw fmt.arguments fmt.template
          (List.replicate fmt.arguments.length false)).1 from rfl, hT] at hi
  refine templateIndexes_map_subset _ ?_ fmt.template i hi
  intro piece
  cases h : inlineResult pw fmt.arguments piece with
  | none => exact Or.inl rfl
  | some r => exact Or.inr ⟨r.1, rfl⟩

theorem removeMask_getD (pw : Nat) (fmt : FormatArgs)
    (hWF : ∀ i ∈ templateIndexes fmt.template, i < fmt.arguments.length) :
    ∀ i, (removeMask pw fmt).getD i false
      = (decide (i ∈ inlinedIndexes pw fmt.arguments fmt.template)
          && decide (i ∉ templateIndexes (inlinePassResult pw fmt).1)) := by
  intro i
  have hwas : (inlinePassResult pw fmt).2.1
      = (inlinedIndexes pw fmt.arguments fmt.template).foldl (fun m j => m.set j true)
          (List.replicate fmt.arguments.length false) := by
    rw [show (inlinePassResult pw fmt).2.1
        = (inlineLoop pw fmt.arguments fmt.template
            (List.replicate fmt.arguments.length false)).2.1 from rfl,
      inlineLoop_was]
  rw [show removeMask pw fmt
      = (templateIndexes (inlinePassResult pw fmt).1).foldl (fun m j => m.set j false)
          (inlinePassResult pw fmt).2.1 from rfl]
  rw [foldl_set_false_getD, hwas, foldl_set_true_getD _ _ _ ?hb]
  case hb =>
    intro j hj
    rw [List.length_replicate]
    exact hWF j (inlinedIndexes_subset pw fmt.arguments fmt.template j hj)
  rw [getD_replicate_false]
  simp

theorem removeMask_length (pw : Nat) (fmt : FormatArgs) :
    (removeMask pw fmt).length = fmt.arguments.length := by
  rw [show removeMask pw fmt
      = (templateIndexes (inlinePassResult pw fmt).1).foldl (fun m j => m.set j false)
          (inlinePassResult pw fmt).2.1 from rfl, foldl_set_length]
  rw [show (inlinePassResult pw fmt).2.1
      = (inlineLoop pw fmt.arguments fmt.template
          (List.replicate fmt.arguments.length false)).2.1 from rfl,
    inlineLoop_was, foldl_set_length, List.length_replicate]

theorem inline_literals_eq (pw : Nat) (fmt : FormatArgs) :
    inline_literals pw fmt =
      if (inlinePassResult pw fmt).2.2 = true then
        ⟨mapIndexes (newIndex (removeMask pw fmt)) (inlinePassResult pw fmt).1,
          retainByMask fmt.arguments (removeMask pw fmt)⟩
      else ⟨(inlinePassResult pw fmt).1, fmt.arguments⟩ := rfl

theorem all_false_of_getD (l : List Bool) (h : ∀ i, l.getD i false = false) :
    ∀ b ∈ l, b = false := by
  intro b hb
  obtain ⟨i, hi, hget⟩ := List.mem_iff_getElem.mp hb
  rw [← hget, ← List.getD_eq_getElem l false hi]
  exact h i

theorem mem_inlinedIndexes (pw : Nat) (args : List ArgExpr) (t : List FormatArgsPiece)
    (i : Nat) :
    i ∈ inlinedIndexes pw args t
      ↔ ∃ piece ∈ t, ∃ r, inlineResult pw args piece = some r ∧ r.2 = i := by
  simp [inlinedIndexes, List.mem_filterMap, Option.map_eq_some']

/-- C3 (as stated): after inlining, an argument is removed iff a placeholder
referencing it was inlined and no remaining placeholder still references it
(as value, width or precision); surviving arguments keep their relative
order; and every remaining argument-index reference is rewritten to the
argument's new contiguous index (so it denotes the same argument). -/
theorem inline_literals_spec (pw : Nat) (fmt : FormatArgs)
    (hWF : ∀ i ∈ templateIndexes fmt.template, i < fmt.arguments.length) :
    (inline_literals pw fmt).arguments
        = retainByMask fmt.arguments (removeMask pw fmt)
    ∧ (∀ i, (removeMask pw fmt).getD i false = true
        ↔ (i ∈ inlinedIndexes pw fmt.arguments fmt.template
            ∧ i ∉ templateIndexes (inlinePassResult pw fmt).1))
    ∧ (∀ i, i ∈ inlinedIndexes pw fmt.arguments fmt.template
        ↔ ∃ piece ∈ fmt.template, ∃ r,
            inlineResult pw fmt.arguments piece = some r ∧ r.2 = i)
    ∧ List.Sublist (inline_literals pw fmt).arguments fmt.arguments
    ∧ (inline_literals pw fmt).template
        = mapIndexes (newIndex (removeMask pw fmt)) (inlinePassResult pw fmt).1
    ∧ ∀ i ∈ templateIndexes (inlinePassResult pw fmt).1,
        (inline_literals pw fmt).arguments.get? (newIndex (removeMask pw fmt) i)
          = fmt.arguments.get? i := by
  have hrem := removeMask_getD pw fmt hWF
  have hlenR := removeMask_length pw fmt
  have hsubT := templateIndexes_pass_subset pw fmt
  have hargs : (inline_literals pw fmt).arguments
      = retainByMask fmt.arguments (removeMask pw fmt) := by
    rw [inline_literals_eq]
    by_cases hA : (inlinePassResult pw fmt).2.2 = true
    · rw [if_pos hA]
    · rw [if_neg hA]
      have hany : fmt.template.any
          (fun piece => (inlineResult pw fmt.arguments piece).isSome) = false := by
        rw [show (inlinePassResult pw fmt).2.2
            = (inlineLoop pw fmt.arguments fmt.template
                (List.replicate fmt.arguments.length false)).2.2 from rfl,
          inlineLoop_anything] at hA
        exact Bool.not_eq_true _ ▸ Bool.eq_false_iff.mpr hA
      have hempty : inlinedIndexes pw fmt.arguments fmt.template = [] := by
        rw [inlinedIndexes, List.filterMap_eq_nil]
        intro piece hmem
        have := List.any_eq_false.mp hany piece hmem
        rw [Option.map_eq_none']
        exact Option.not_isSome_iff_eq_none.mp this
      have hfalse : ∀ b ∈ removeMask pw fmt, b = false := by
        refine all_false_of_getD _ (fun i => ?_)
        rw [hrem i, hempty]
        simp
      exact (retainByMask_all_false fmt.arguments (removeMask pw fmt) hfalse).symm
  have htem : (inline_literals pw fmt).template
      = mapIndexes (newIndex (removeMask pw fmt)) (inlinePassResult pw fmt).1 := by
    rw [inline_literals_eq]
    by_cases hA : (inlinePassResult pw fmt).2.2 = true
    · rw [if_pos hA]
    · rw [if_neg hA]
      have hany : fmt.template.any
          (fun piece => (inlineResult pw fmt.arguments piece).isSome) = false := by
        rw [show (inlinePassResult pw fmt).2.2
            = (inlineLoop pw fmt.arguments fmt.template
                (List.replicate fmt.arguments.length false)).2.2 from rfl,
          inlineLoop_anything] at hA
        exact Bool.not_eq_true _ ▸ Bool.eq_false_iff.mpr hA
      have hempty : inlinedIndexes pw fmt.arguments fmt.template = [] := by
        rw [inlinedIndexes, List.filterMap_eq_nil]
        intro piece hmem
        have := List.any_eq_false.mp hany piece hmem
        rw [Option.map_eq_none']
        exact Option.not_isSome_iff_eq_none.mp this
      refine (mapIndexes_id_on _ _ (fun i hi => ?_)).symm
      refine newIndex_all_false _ _ ?_ ?_
      · refine all_false_of_getD _ (fun j => ?_)
        rw [hrem j, hempty]
        simp
      · rw [hlenR]
        exact Nat.le_of_lt (hWF i (hsubT i hi))
  refine ⟨hargs, ?_, ?_, ?_, htem, ?_⟩
  · intro i
    rw [hrem i]
    simp
  · exact mem_inlinedIndexes pw fmt.arguments fmt.template
  · rw [hargs]
    exact retainByMask_sublist fmt.arguments (removeMask pw fmt)
  · intro i hi
    have hia : i < fmt.arguments.length := hWF i (hsubT i hi)
    have hfalse : (removeMask pw fmt).getD i false = false := by
      rw [hrem i]
      simp [hi]
    rw [hargs]
    exact retainByMask_get fmt.arguments (removeMask pw fmt) i hlenR hia hfalse

theorem inline_literals_spec_witness :
    (inline_literals 64
        ⟨[FormatArgsPiece.placeholder ⟨⟨some 0⟩, .display, {}⟩,
          FormatArgsPiece.placeholder ⟨⟨some 1⟩, .display, {}⟩,
          FormatArgsPiece.placeholder
            ⟨⟨some 2⟩, .display, { width := some (.argument ⟨some 1⟩) }⟩],
          [ArgExpr.lit (.str "a"), ArgExpr.lit (.int 5 .unsuffixed), ArgExpr.other 0]⟩).arguments
      = retainByMask
          [ArgExpr.lit (.str "a"), ArgExpr.lit (.int 5 .unsuffixed), ArgExpr.other 0]
          (removeMask 64
            ⟨[FormatArgsPiece.placeholder ⟨⟨some 0⟩, .display, {}⟩,
              FormatArgsPiece.placeholder ⟨⟨some 1⟩, .display, {}⟩,
              FormatArgsPiece.placeholder
                ⟨⟨some 2⟩, .display, { width := some (.argument ⟨some 1⟩) }⟩],
              [ArgExpr.lit (.str "a"), ArgExpr.lit (.int 5 .unsuffixed),
                ArgExpr.other 0]⟩) :=
  (inline_literals_spec 64
    ⟨[FormatArgsPiece.placeholder ⟨⟨some 0⟩, .display, {}⟩,
      FormatArgsPiece.placeholder ⟨⟨some 1⟩, .display, {}⟩,
      FormatArgsPiece.placeholder
        ⟨⟨some 2⟩, .display, { width := some (.argument ⟨some 1⟩) }⟩],
      [ArgExpr.lit (.str "a"), ArgExpr.lit (.int 5 .unsuffixed), ArgExpr.other 0]⟩
    (by decide)).1

/-! ## Inlining round-trip (claim C5) -/

theorem join_cons_hoist : ∀ (l : List String) (a : String),
    l.foldl (fun r s => r ++ s) a = a ++ l.foldl (fun r s => r ++ s) ("") := by
  intro l
  induction l with
  | nil =>
      intro a
      simp only [List.foldl_nil]
      rw [String.append_empty]
  | cons s rest ih =>
      intro a
      simp only [List.foldl_cons]
      rw [ih (a ++ s), ih ("" ++ s), String.empty_append, String.append_assoc]

theorem join_cons (s : String) (l : List String) :
    String.join (s :: l) = s ++ String.join l := by
  show (s :: l).foldl (fun r t => r ++ t) ("") = s ++ l.foldl (fun r t => r ++ t) ("")
  simp only [List.foldl_cons]
  rw [join_cons_hoist l ("" ++ s), String.empty_append]

theorem join_singleton (s : String) : String.join [s] = s := by
  rw [join_cons]
  show s ++ String.join [] = s
  exact String.append_empty s

theorem joinPieces_eq_join (ps : List String) : joinPieces ps = String.join ps := by
  match ps with
  | [] => rfl
  | [l] => rw [join_singleton]; rfl
  | a :: b :: rest => rfl

theorem join_nonEmptyLiterals_of_literalTexts (texts : List String) :
    String.join (nonEmptyLiterals (texts.map FormatArgsPiece.literal))
      = String.join texts := by
  induction texts with
  | nil => rfl
  | cons s rest ih =>
      simp only [List.map_cons, nonEmptyLiterals, List.filterMap_cons]
      by_cases hs : s = emptyStr
      · subst hs
        simp only [ne_eq, not_true_eq_false, if_false]
        rw [show (List.filterMap _ (List.map FormatArgsPiece.literal rest) : List String)
            = nonEmptyLiterals (rest.map FormatArgsPiece.literal) from rfl, ih, join_cons]
        rfl
      · simp only [ne_eq, hs, not_false_eq_true, if_true]
        rw [join_cons,
          show (List.filterMap _ (List.map FormatArgsPiece.literal rest) : List String)
            = nonEmptyLiterals (rest.map FormatArgsPiece.literal) from rfl, ih, join_cons]

theorem encodePieces_all_literals :
    ∀ (t : List FormatArgsPiece), (∀ piece ∈ t, ∃ s, piece = .literal s) →
      ∀ s0 : EncState, encodePieces s0 t
        = some { s0 with incomplete_literal := s0.incomplete_literal ++ nonEmptyLiterals t } := by
  intro t
  induction t with
  | nil =>
      intro _ s0
      simp [encodePieces, nonEmptyLiterals]
  | cons piece rest ih =>
      intro h s0
      obtain ⟨s, rfl⟩ := h piece (List.mem_cons_self piece rest)
      have hrest := fun p hp => h p (List.mem_cons_of_mem _ hp)
      simp only [encodePieces, encodePiece, Option.some_bind]
      by_cases hs : s ≠ emptyStr
      · rw [show encode_literal s0 s
            = { s0 with incomplete_literal := s0.incomplete_literal ++ [s] } from by
              rw [encode_literal, if_pos hs],
          ih hrest]
        simp only [nonEmptyLiterals, List.filterMap_cons]
        rw [if_pos hs]
        simp [List.append_assoc]
      · rw [show encode_literal s0 s = s0 from by rw [encode_literal, if_neg hs], ih hrest]
        simp only [nonEmptyLiterals, List.filterMap_cons]
        rw [if_neg hs]

theorem flush_literal_init_data (argc : Nat) (ps : List String) :
    (flush_literal { encInit argc with incomplete_literal := ps }).literal_data
      = (match ps with | [] => ([] : List String) | _ => [joinPieces ps]) := by
  cases ps with
  | nil => rfl
  | cons a rest => rfl

theorem all_true_of_getD (l : List Bool) (h : ∀ i, i < l.length → l.getD i false = true) :
    ∀ b ∈ l, b = true := by
  intro b hb
  obtain ⟨i, hi, hget⟩ := List.mem_iff_getElem.mp hb
  rw [← hget, ← List.getD_eq_getElem l false hi]
  exact h i hi

theorem retainByMask_all_true : ∀ (args : List ArgExpr) (mask : List Bool),
    mask.length = args.length → (∀ b ∈ mask, b = true) → retainByMask args mask = [] := by
  intro args
  induction args with
  | nil => intro mask _ _; cases mask <;> rfl
  | cons a rest ih =>
      intro mask hlen hmask
      cases mask with
      | nil => exact absurd hlen (by simp)
      | cons b bs =>
          have hb : b = true := hmask b (List.mem_cons_self b bs)
          simp only [retainByMask, hb, if_true]
          exact ih bs (by simpa using hlen) (fun x hx => hmask x (List.mem_cons_of_mem b hx))

theorem templateIndexes_map_literal (g : FormatArgsPiece → String)
    (t : List FormatArgsPiece) :
    templateIndexes (t.map (fun p => FormatArgsPiece.literal (g p))) = [] := by
  induction t with
  | nil => rfl
  | cons piece rest ih =>
      simp only [List.map_cons, templateIndexes, List.flatMap_cons] at ih ⊢
      rw [ih]
      rfl

theorem flush_join_init (argc : Nat) (ps : List String) :
    String.join (flush_literal
        { encInit argc with incomplete_literal := ps }).literal_data = String.join ps
    ∧ (flush_literal
        { encInit argc with incomplete_literal := ps }).literal_data.length ≤ 1 := by
  cases ps with
  | nil =>
      refine ⟨rfl, ?_⟩
      rw [show (flush_literal
            { encInit argc with incomplete_literal := ([] : List String) }).literal_data
          = [] from rfl]
      simp
  | cons a rest =>
      constructor
      · rw [show (flush_literal
              { encInit argc with incomplete_literal := a :: rest }).literal_data
            = [joinPieces (a :: rest)] from rfl, join_singleton, joinPieces_eq_join]
      · rw [show (flush_literal
              { encInit argc with incomplete_literal := a :: rest }).literal_data
            = [joinPieces (a :: rest)] from rfl]
        simp

/-- C5 (amended): when every placeholder is `Display` with default options
and an in-bounds argument index, every argument expression peels to a
literal the inliner accepts, and every argument is referenced by some
placeholder, the inliner leaves zero remaining arguments, and the encoded
literal table is (at most) one entry equal to the naive concatenation of
the original pieces in order (with each placeholder replaced by its
stringified constant). -/
theorem inline_roundtrip (pw : Nat) (fmt : FormatArgs)
    (hph : ∀ p, FormatArgsPiece.placeholder p ∈ fmt.template →
        p.format_trait = .display ∧ p.format_options = {}
        ∧ ∃ i, p.argument.index = some i ∧ i < fmt.arguments.length)
    (hlit : ∀ i, i < fmt.arguments.length → ∃ l,
        (fmt.arguments.get? i).map peelParensAndRefs = some (.lit l)
        ∧ (try_inline_lit pw l).isSome = true)
    (hused : ∀ i, i < fmt.arguments.length → ∃ p,
        FormatArgsPiece.placeholder p ∈ fmt.template ∧ p.argument.index = some i) :
    (inline_literals pw fmt).arguments = []
    ∧ (encodeTemplate (inline_literals pw fmt)).map (fun r => String.join r.literal_data)
        = some (concatInlined pw fmt)
    ∧ (encodeTemplate (inline_literals pw fmt)).map
        (fun r => decide (r.literal_data.length ≤ 1)) = some true := by
  -- Every placeholder in the template is inlined, to its stringified text.
  have hres : ∀ p, FormatArgsPiece.placeholder p ∈ fmt.template →
      ∃ r, inlineResult pw fmt.arguments (.placeholder p) = some r
        ∧ r.1 = inlinedText pw fmt.arguments (.placeholder p) := by
    intro p hp
    obtain ⟨htrait, hopts, i, hidx, hbound⟩ := hph p hp
    obtain ⟨l, hpeel, hsome⟩ := hlit i hbound
    obtain ⟨s0, hs0⟩ := Option.isSome_iff_exists.mp hsome
    refine ⟨(s0, i), ?_, ?_⟩
    · simp only [inlineResult, hidx, htrait, hopts, and_self, if_true, hpeel, hs0,
        Option.map_some']
    · simp only [inlinedText, hidx, hpeel, hs0, Option.getD_some]
  -- The first pass turns the whole template into literals carrying the
  -- inlined texts.
  have ht1 : (inlinePassResult pw fmt).1
      = fmt.template.map (fun piece =>
          FormatArgsPiece.literal (inlinedText pw fmt.arguments piece)) := by
    rw [show (inlinePassResult pw fmt).1
        = (inlineLoop pw fmt.arguments fmt.template
            (List.replicate fmt.arguments.length false)).1 from rfl,
      inlineLoop_template]
    refine List.map_congr_left (fun piece hmem => ?_)
    cases piece with
    | literal s => rfl
    | placeholder p =>
        obtain ⟨r, hr, htext⟩ := hres p hmem
        simp only [hr, htext]
  have hrefs : templateIndexes (inlinePassResult pw fmt).1 = [] := by
    rw [ht1]
    exact templateIndexes_map_literal _ fmt.template
  -- The surviving-argument list is empty.
  have hargsnil : (inline_literals pw fmt).arguments = [] := by
    rw [inline_literals_eq]
    by_cases hA : (inlinePassResult pw fmt).2.2 = true
    · rw [if_pos hA]
      refine retainByMask_all_true fmt.arguments (removeMask pw fmt)
        (removeMask_length pw fmt) ?_
      refine all_true_of_getD _ (fun i hi => ?_)
      have hibound : i < fmt.arguments.length := by
        rw [removeMask_length pw fmt] at hi
        exact hi
      have hWF : ∀ j ∈ templateIndexes fmt.template, j < fmt.arguments.length := by
        intro j hj
        simp only [templateIndexes, List.mem_flatMap] at hj
        obtain ⟨piece, hmem, hidx⟩ := hj
        cases piece with
        | literal s => exact absurd hidx (by simp [pieceIndexes])
        | placeholder p =>
            obtain ⟨htrait, hopts, k, hk, hkb⟩ := hph p hmem
            simp only [pieceIndexes, hk, hopts] at hidx
            simp only [countArgIndex] at hidx
            simp only [Option.toList_some, List.mem_append, List.mem_singleton] at hidx
            rcases hidx with hidx | hidx
            · simp at hidx
              omega
            · simp at hidx
      rw [removeMask_getD pw fmt hWF i, hrefs]
      obtain ⟨p, hpmem, hpidx⟩ := hused i hibound
      obtain ⟨r, hr, _⟩ := hres p hpmem
      have hr2 : r.2 = i := by
        obtain ⟨q, hq, hqidx⟩ := inlineResult_index pw fmt.arguments (.placeholder p) r hr
        have : p = q := by
          cases hq
          rfl
        rw [← this] at hqidx
        rw [hpidx] at hqidx
        exact (Option.some.inj hqidx).symm
      have hmem : i ∈ inlinedIndexes pw fmt.arguments fmt.template :=
        (mem_inlinedIndexes pw fmt.arguments fmt.template i).mpr
          ⟨.placeholder p, hpmem, r, hr, hr2⟩
      simp [hmem]
    · rw [if_neg hA]
      -- nothing was inlined, so there is no placeholder, so no argument.
      have hany : fmt.template.any
          (fun piece => (inlineResult pw fmt.arguments piece).isSome) = false := by
        rw [show (inlinePassResult pw fmt).2.2
            = (inlineLoop pw fmt.arguments fmt.template
                (List.replicate fmt.arguments.length false)).2.2 from rfl,
          inlineLoop_anything] at hA
        exact Bool.not_eq_true _ ▸ Bool.eq_false_iff.mpr hA
      cases hargc : fmt.arguments.length with
      | zero => exact List.eq_nil_of_length_eq_zero hargc
      | succ n =>
          obtain ⟨p, hpmem, _⟩ := hused 0 (by omega)
          obtain ⟨r, hr, _⟩ := hres p hpmem
          have := List.any_eq_false.mp hany (.placeholder p) hpmem
          rw [hr] at this
          exact absurd this (by simp)
  have htem : (inline_literals pw fmt).template = (inlinePassResult pw fmt).1 := by
    rw [inline_literals_eq]
    by_cases hA : (inlinePassResult pw fmt).2.2 = true
    · rw [if_pos hA]
      exact mapIndexes_id_on _ _ (fun i hi => by rw [hrefs] at hi; exact absurd hi (by simp))
    · rw [if_neg hA]
  have henc : encodeTemplate (inline_literals pw fmt)
      = some (flush_literal
          { encInit 0 with
              incomplete_literal := nonEmptyLiterals (inlinePassResult pw fmt).1 }) := by
    rw [encodeTemplate, htem, hargsnil, encodePieces_all_literals (inlinePassResult pw fmt).1
      (by
        rw [ht1]
        intro piece hmem
        obtain ⟨q, _, rfl⟩ := List.mem_map.mp hmem
        exact ⟨_, rfl⟩)]
    simp only [Option.map_some', Option.some.injEq, List.length_nil]
    congr 1
  have hjoin : String.join (nonEmptyLiterals (inlinePassResult pw fmt).1)
      = concatInlined pw fmt := by
    rw [ht1, show fmt.template.map (fun piece =>
          FormatArgsPiece.literal (inlinedText pw fmt.arguments piece))
        = (fmt.template.map (inlinedText pw fmt.arguments)).map FormatArgsPiece.literal
        from by rw [List.map_map]; rfl,
      join_nonEmptyLiterals_of_literalTexts]
    rfl
  have hflush := flush_join_init 0 (nonEmptyLiterals (inlinePassResult pw fmt).1)
  refine ⟨hargsnil, ?_, ?_⟩
  · rw [henc]
    simp only [Option.map_some', Option.some.injEq]
    rw [hflush.1]
    exact hjoin
  · rw [henc]
    simp only [Option.map_some', Option.some.injEq]
    exact decide_eq_true hflush.2

/-- C5 counterexample: every placeholder is `Display` with default options
and the single argument IS a literal expression (the unsuffixed integer
literal `2^31`), but the inliner keeps it as a runtime argument — the
literal does not fit `i32`, so `try_inline_lit` declines it — refuting
"zero remaining arguments". -/
theorem inline_roundtrip_counterexample :
    (inline_literals 64 ⟨[.placeholder ⟨⟨some 0⟩, .display, {}⟩],
        [.lit (.int (2 ^ 31) .unsuffixed)]⟩).arguments.length = 1 := by
  decide

theorem inline_roundtrip_witness :
    (inline_literals 64 exampleInlineAll).arguments = []
    ∧ (encodeTemplate (inline_literals 64 exampleInlineAll)).map
        (fun r => String.join r.literal_data) = some (concatInlined 64 exampleInlineAll)
    ∧ (encodeTemplate (inline_literals 64 exampleInlineAll)).map
        (fun r => decide (r.literal_data.length ≤ 1)) = some true :=
  inline_roundtrip 64 exampleInlineAll
    (by
      intro p hp
      simp only [exampleInlineAll, List.mem_cons, List.mem_singleton,
        List.not_mem_nil, or_false] at hp
      rcases hp with hp | hp
      · exact absurd hp (by simp)
      · cases hp
        exact ⟨rfl, rfl, 0, rfl, by decide⟩)
    (by
      intro i hi
      simp only [exampleInlineAll, List.length_cons, List.length_nil] at hi
      have h0 : i = 0 := by omega
      subst h0
      exact ⟨.int 42 .unsuffixed, rfl, rfl⟩)
    (by
      intro i hi
      simp only [exampleInlineAll, List.length_cons, List.length_nil] at hi
      have h0 : i = 0 := by omega
      subst h0
      exact ⟨⟨⟨some 0⟩, .display, {}⟩,
        List.mem_cons_of_mem _ (List.mem_cons_self _ _), rfl⟩)

theorem uniqueRef_iff (t : List FormatArgsPiece) (i k : Nat) :
    uniqueRef t i k = true ↔
      ∀ j, j < t.length → j ≠ i →
        ¬ referencesValue k (t.getD j (.literal emptyStr)) := by
  rw [uniqueRef, List.all_eq_true]
  constructor
  · intro h j hj hne
    have hget : t.get? j = some (t.getD j (.literal emptyStr)) := by
      rw [List.getD_eq_getD_get?]
      cases hg : t.get? j with
      | none => exact absurd (List.get?_eq_none.mp hg) (by omega)
      | some piece => rfl
    have hj2 := h (j, t.getD j (.literal emptyStr)) (List.mem_enum_iff_get?.mpr hget)
    simp only [Bool.or_eq_true, beq_iff_eq] at hj2
    rcases hj2 with hj2 | hj2
    · exact absurd hj2 hne
    · cases hp : t.getD j (.literal emptyStr) with
      | literal s => exact id
      | placeholder q =>
          rw [hp] at hj2
          simp only [Bool.not_eq_true', beq_eq_false_iff_ne, ne_eq] at hj2
          exact hj2
  · intro h jp hmem
    obtain ⟨j, piece⟩ := jp
    have hget := List.mem_enum_iff_get?.mp hmem
    by_cases hji : j = i
    · simp [hji]
    · have hjlen : j < t.length := by
        by_contra hc
        rw [List.get?_eq_none.mpr (by omega)] at hget
        exact Option.noConfusion hget
      have hgd : t.getD j (.literal emptyStr) = piece := by
        rw [List.getD_eq_getD_get?, hget]
        rfl
      have hnr := h j hjlen hji
      rw [hgd] at hnr
      cases piece with
      | literal s => simp
      | placeholder q =>
          have : ¬ q.argument.index = some k := hnr
          simp [hji, this]

theorem spliceCheck_eq_some (fmt : FormatArgs) (i k : Nat)
    (t2 : List FormatArgsPiece) (a2 : List ArgExpr) :
    spliceCheck fmt i = some (k, t2, a2) ↔
      ∃ p, fmt.template.get? i = some (.placeholder p)
        ∧ (p.format_trait = .display ∨ p.format_trait = .debug)
        ∧ p.argument.index = some k
        ∧ (fmt.arguments.get? k).map peelParensAndRefs = some (.fmtArgs t2 a2)
        ∧ uniqueRef fmt.template i k = true := by
  constructor
  · intro h
    unfold spliceCheck at h
    split at h
    case _ p heq =>
      split at h
      case isTrue htrait =>
        split at h
        case _ k0 hidx =>
          split at h
          case _ t0 a0 hpeel =>
            split at h
            case isTrue huniq =>
              obtain ⟨rfl, rfl, rfl⟩ : k0 = k ∧ t0 = t2 ∧ a0 = a2 := by
                have := Option.some.inj h
                exact ⟨congrArg Prod.fst this,
                  congrArg (fun x => x.2.1) this, congrArg (fun x => x.2.2) this⟩
              exact ⟨p, heq, htrait, hidx, hpeel, huniq⟩
            case isFalse _ => exact Option.noConfusion h
          case _ hne hpeel => exact Option.noConfusion h
        case _ hidx => exact Option.noConfusion h
      case isFalse _ => exact Option.noConfusion h
    case _ hne heq => exact Option.noConfusion h
  · rintro ⟨p, h1, h2, h3, h4, h5⟩
    unfold spliceCheck
    rw [h1]
    simp only [h3, h4, if_pos h2, if_pos h5]

theorem spliceCheck_isSome_iff (fmt : FormatArgs) (i : Nat) :
    (spliceCheck fmt i).isSome = true ↔ flattenEligible fmt i := by
  constructor
  · intro h
    obtain ⟨r, hr⟩ := Option.isSome_iff_exists.mp h
    obtain ⟨k, t2, a2⟩ := r
    obtain ⟨p, h1, h2, h3, h4, h5⟩ := (spliceCheck_eq_some fmt i k t2 a2).mp hr
    exact ⟨p, k, t2, a2, h1, h2, h3, h4, (uniqueRef_iff _ _ _).mp h5⟩
  · rintro ⟨p, k, t2, a2, h1, h2, h3, h4, h5⟩
    rw [(spliceCheck_eq_some fmt i k t2 a2).mpr
      ⟨p, h1, h2, h3, h4, (uniqueRef_iff _ _ _).mpr h5⟩]
    rfl

theorem flattenFuel_noop (fmt : FormatArgs)
    (h : ∀ i, i < fmt.template.length → spliceCheck fmt i = none) :
    ∀ fuel i, flattenFuel fuel fmt i = fmt := by
  intro fuel
  induction fuel with
  | zero => intro i; rfl
  | succ n ih =>
      intro i
      rw [flattenFuel]
      by_cases hi : i < fmt.template.length
      · rw [if_pos hi, h i hi]
        exact ih (i + 1)
      · rw [if_neg hi]

/-- C2 (amended): the flattening loop splices at a template position exactly
when the piece there is a `Display`/`Debug` placeholder whose argument
expression peels to a nested `format_args` invocation and whose argument
index is used as a formatting value by no other placeholder — the
placeholder's format options are NOT examined, and width/precision argument
references do not block splicing; and when no position satisfies this, the
flattener returns its input unchanged. -/
theorem flatten_splice_condition (fmt : FormatArgs) :
    (∀ i, (spliceCheck fmt i).isSome = true ↔ flattenEligible fmt i)
    ∧ ((List.range fmt.template.length).all
          (fun i => !(spliceCheck fmt i).isSome) = true →
        flatten_format_args fmt = fmt) := by
  refine ⟨fun i => spliceCheck_isSome_iff fmt i, fun h => ?_⟩
  have hnone : ∀ i, i < fmt.template.length → spliceCheck fmt i = none := by
    intro i hi
    have := List.all_eq_true.mp h i (List.mem_range.mpr hi)
    simp only [Bool.not_eq_true'] at this
    exact Option.not_isSome_iff_eq_none.mp (by rw [this]; exact Bool.false_ne_true)
  exact flattenFuel_noop fmt hnone _ 0

/-- C2 counterexample: a `Display` placeholder with a NON-default width
option whose argument is a nested `format_args` call is still spliced — the
code never checks the format options before flattening, so condition (b) of
the claim is not required. -/
theorem flatten_splice_counterexample :
    (flatten_format_args ⟨[.placeholder ⟨⟨some 0⟩, .display,
        { width := some (.literal 5) }⟩], [.fmtArgs [.literal "hi"] []]⟩).template
      = [.literal "hi"] := by
  decide

theorem flatten_splice_condition_witness :
    ((spliceCheck ⟨[.literal "a"], []⟩ 0).isSome = true
        ↔ flattenEligible ⟨[.literal "a"], []⟩ 0)
    ∧ flatten_format_args ⟨[.literal "a"], []⟩ = ⟨[.literal "a"], []⟩ :=
  ⟨(flatten_splice_condition ⟨[.literal "a"], []⟩).1 0,
    (flatten_splice_condition ⟨[.literal "a"], []⟩).2 (by decide)⟩

theorem wrap_exact (a b : Nat) (ha : a < 2 ^ 63) (hb : b < 2 ^ 63) :
    (b : Int) + usizeWrapSubIsize a b = (a : Int) := by
  rw [usizeWrapSubIsize, usizeMod]
  have hbm : b % 2 ^ 64 = b := Nat.mod_eq_of_lt (by omega)
  simp only [hbm]
  rcases Nat.lt_or_ge a b with h | h
  · have hm : (a + (2 ^ 64 - b)) % 2 ^ 64 = a + (2 ^ 64 - b) :=
      Nat.mod_eq_of_lt (by omega)
    simp only [hm]
    rw [if_neg (by omega)]
    push_cast
    omega
  · have hsplit : a + (2 ^ 64 - b) = (a - b) + 1 * 2 ^ 64 := by omega
    rw [hsplit, Nat.add_mul_mod_self_right, Nat.mod_eq_of_lt (by omega),
      if_pos (by omega)]
    omega

theorem wrap_ne_zero (a b : Nat) (ha : a < 2 ^ 63) (hb : b < 2 ^ 63) (hne : a ≠ b) :
    usizeWrapSubIsize a b ≠ 0 := by
  intro h0
  have := wrap_exact a b ha hb
  rw [h0, add_zero] at this
  exact hne (by exact_mod_cast this.symm)

theorem runOpsG_append (lits : List String) (slots : List ArgValue)
    (o₁ o₂ : List FormatOp) (sw : RtState × List String) :
    runOpsG lits slots (o₁ ++ o₂) sw = runOpsG lits slots o₂ (runOpsG lits slots o₁ sw) :=
  List.foldl_append _ _ _ _

theorem runOpsG_fst (lits : List String) (slots : List ArgValue) :
    ∀ (ops : List FormatOp) (sw : RtState × List String),
      (runOpsG lits slots ops sw).1 = runOps lits slots ops sw.1 := by
  intro ops
  induction ops with
  | nil => intro sw; rfl
  | cons op rest ih =>
      intro sw
      rw [show runOpsG lits slots (op :: rest) sw
          = runOpsG lits slots rest (runOpG lits slots sw op) from rfl,
        ih, show runOps lits slots (op :: rest) sw.1
          = runOps lits slots rest (runOp lits slots sw.1 op) from rfl]
      congr 1
      cases op <;> rfl

theorem chanApply_append (slots : List (Nat × ArgumentUsage)) (c : ChanState)
    (o₁ o₂ : List FormatOp) :
    chanApply slots c (o₁ ++ o₂) = chanApply slots (chanApply slots c o₁) o₂ :=
  List.foldl_append _ _ _ _

theorem chanCheck_append (slots : List (Nat × ArgumentUsage)) :
    ∀ (o₁ : List FormatOp) (c : ChanState) (o₂ : List FormatOp),
      chanCheck slots c (o₁ ++ o₂)
        = (chanCheck slots c o₁ && chanCheck slots (chanApply slots c o₁) o₂) := by
  intro o₁
  induction o₁ with
  | nil => intro c o₂; rfl
  | cons op rest ih =>
      intro c o₂
      rw [List.cons_append, chanCheck, chanCheck, ih, Bool.and_assoc]
      rfl

theorem Grows.refl {α : Type} (l : List α) : Grows l l := ⟨[], (List.append_nil l).symm⟩

theorem Grows.trans {α : Type} {l₁ l₂ l₃ : List α} (h₁ : Grows l₁ l₂) (h₂ : Grows l₂ l₃) :
    Grows l₁ l₃ := by
  obtain ⟨t₁, rfl⟩ := h₁
  obtain ⟨t₂, rfl⟩ := h₂
  exact ⟨t₁ ++ t₂, List.append_assoc _ _ _⟩

theorem Grows.append {α : Type} (l t : List α) : Grows l (l ++ t) := ⟨t, Eq.refl _⟩

theorem Grows.length_le {α : Type} {l₁ l₂ : List α} (h : Grows l₁ l₂) :
    l₁.length ≤ l₂.length := by
  obtain ⟨t, rfl⟩ := h
  simp

theorem Grows.get?_eq {α : Type} {l₁ l₂ : List α} (h : Grows l₁ l₂) {i : Nat} {x : α}
    (hx : l₁.get? i = some x) : l₂.get? i = some x := by
  obtain ⟨t, rfl⟩ := h
  have hi : i < l₁.length := by
    by_contra hc
    rw [List.get?_eq_none.mpr (by omega)] at hx
    exact Option.noConfusion hx
  rw [List.get?_append hi]
  exact hx

theorem Emits.nil {args : List ArgValue} {lits : List String}
    {adata : List (Nat × ArgumentUsage)} {s s' : EncState}
    (hops : s'.format_ops = s.format_ops) (hchan : chansOf s' = chansOf s)
    (hcorr : ∀ st, stCorr args s st → stCorr args s' st) :
    Emits args lits adata s s' emptyStr [] := by
  refine ⟨[], by rw [hops, List.append_nil], Eq.refl _, by rw [hchan]; rfl,
    fun st w hst => ⟨st, by rw [List.append_nil]; rfl, hcorr st hst,
      (String.append_empty _).symm⟩⟩

theorem Emits.comp {args : List ArgValue} {lits : List String}
    {adata : List (Nat × ArgumentUsage)} {s₁ s₂ s₃ : EncState}
    {o₁ o₂ : String} {w₁ w₂ : List String}
    (h₁ : Emits args lits adata s₁ s₂ o₁ w₁) (h₂ : Emits args lits adata s₂ s₃ o₂ w₂) :
    Emits args lits adata s₁ s₃ (o₁ ++ o₂) (w₁ ++ w₂) := by
  obtain ⟨ops₁, e₁, c₁, a₁, r₁⟩ := h₁
  obtain ⟨ops₂, e₂, c₂, a₂, r₂⟩ := h₂
  refine ⟨ops₁ ++ ops₂, by rw [e₂, e₁, List.append_assoc], ?_, ?_, ?_⟩
  · rw [chanCheck_append, c₁, a₁, c₂]
    rfl
  · rw [chanApply_append, a₁, a₂]
  · intro st w hst
    obtain ⟨st₂, hrun₂, hcorr₂, hout₂⟩ := r₁ st w hst
    obtain ⟨st₃, hrun₃, hcorr₃, hout₃⟩ := r₂ st₂ (w ++ w₁) hcorr₂
    refine ⟨st₃, ?_, hcorr₃, ?_⟩
    · rw [runOpsG_append, hrun₂, hrun₃, List.append_assoc]
    · rw [hout₃, hout₂, String.append_assoc]

theorem set_literal_offset_spec (args : List ArgValue) (lits : List String)
    (adata : List (Nat × ArgumentUsage)) (s : EncState) (off : Nat)
    (hoff : off < 2 ^ 63) (hcur : s.current_literal_offset < 2 ^ 63) :
    ∃ fops, set_literal_offset s off
        = { s with current_literal_offset := off, format_ops := fops }
      ∧ Emits args lits adata s (set_literal_offset s off) emptyStr [] := by
  by_cases h : s.current_literal_offset = off
  · have heq : set_literal_offset s off = s := by
      rw [set_literal_offset, if_neg (fun hne => hne h)]
    refine ⟨s.format_ops, ?_, ?_⟩
    · rw [heq, ← h]
    · rw [heq]
      exact Emits.nil (Eq.refl _) (Eq.refl _) (fun _ hst => hst)
  · have heq : set_literal_offset s off = { s with
        current_literal_offset := off
        format_ops := s.format_ops
          ++ [.offsetPtr (usizeWrapSubIsize off s.current_literal_offset) .literal] } := by
      rw [set_literal_offset, if_pos h]
    refine ⟨_, heq, ?_⟩
    refine ⟨[.offsetPtr (usizeWrapSubIsize off s.current_literal_offset) .literal],
      by rw [heq], ?_, ?_, ?_⟩
    · simp only [chanCheck, chanOk, Bool.and_true]
      exact decide_eq_true (wrap_ne_zero off s.current_literal_offset hoff hcur
        (fun hc => h hc.symm))
    · rw [heq]
      dsimp only [chanApply, List.foldl, chanStep, chansOf]
      congr 1
      exact wrap_exact off s.current_literal_offset hoff hcur
    · intro st w hst
      obtain ⟨hf, hfi, hal, hw, hp, hlp, hap⟩ := hst
      refine ⟨{ st with litPtr :=
          st.litPtr + usizeWrapSubIsize off s.current_literal_offset }, ?_, ?_, ?_⟩
      · rw [List.append_nil]
        rfl
      · rw [heq]
        refine ⟨hf, hfi, hal, hw, hp, ?_, hap⟩
        rw [hlp]
        exact wrap_exact off s.current_literal_offset hoff hcur
      · exact (String.append_empty _).symm

theorem set_argument_offset_spec (args : List ArgValue) (lits : List String)
    (adata : List (Nat × ArgumentUsage)) (s : EncState) (off : Nat)
    (hoff : off < 2 ^ 63) (hcur : s.current_argument_offset < 2 ^ 63) :
    ∃ fops, set_argument_offset s off
        = { s with current_argument_offset := off, format_ops := fops }
      ∧ Emits args lits adata s (set_argument_offset s off) emptyStr [] := by
  by_cases h : s.current_argument_offset = off
  · have heq : set_argument_offset s off = s := by
      rw [set_argument_offset, if_neg (fun hne => hne h)]
    refine ⟨s.format_ops, ?_, ?_⟩
    · rw [heq, ← h]
    · rw [heq]
      exact Emits.nil (Eq.refl _) (Eq.refl _) (fun _ hst => hst)
  · have heq : set_argument_offset s off = { s with
        current_argument_offset := off
        format_ops := s.format_ops
          ++ [.offsetPtr (usizeWrapSubIsize off s.current_argument_offset) .argument] } := by
      rw [set_argument_offset, if_pos h]
    refine ⟨_, heq, ?_⟩
    refine ⟨[.offsetPtr (usizeWrapSubIsize off s.current_argument_offset) .argument],
      by rw [heq], ?_, ?_, ?_⟩
    · simp only [chanCheck, chanOk, Bool.and_true]
      exact decide_eq_true (wrap_ne_zero off s.current_argument_offset hoff hcur
        (fun hc => h hc.symm))
    · rw [heq]
      dsimp only [chanApply, List.foldl, chanStep, chansOf]
      congr 1
      exact wrap_exact off s.current_argument_offset hoff hcur
    · intro st w hst
      obtain ⟨hf, hfi, hal, hw, hp, hlp, hap⟩ := hst
      refine ⟨{ st with argPtr :=
          st.argPtr + usizeWrapSubIsize off s.current_argument_offset }, ?_, ?_, ?_⟩
      · rw [List.append_nil]
        rfl
      · rw [heq]
        refine ⟨hf, hfi, hal, hw, hp, hlp, ?_⟩
        rw [hap]
        exact wrap_exact off s.current_argument_offset hoff hcur
      · exact (String.append_empty _).symm

theorem get?_some_lt {α : Type} {l : List α} {i : Nat} {x : α} (h : l.get? i = some x) :
    i < l.length := by
  by_contra hc
  rw [List.get?_eq_none.mpr (by omega)] at h
  exact Option.noConfusion h

theorem lookup_split {α β : Type} [BEq α] :
    ∀ (l₁ l₂ : List (α × β)) (k : α),
      (l₁ ++ l₂).lookup k
        = (match l₁.lookup k with
           | some v => some v
           | none => l₂.lookup k) := by
  intro l₁
  induction l₁ with
  | nil => intro l₂ k; rfl
  | cons p rest ih =>
      intro l₂ k
      obtain ⟨a, b⟩ := p
      cases hk : k == a with
      | true => simp [List.lookup, hk]
      | false => simp [List.lookup, hk, ih]

theorem Emits.cast {args : List ArgValue} {lits : List String}
    {adata : List (Nat × ArgumentUsage)} {s s' : EncState}
    {o o' : String} {w w' : List String}
    (h : Emits args lits adata s s' o w) (ho : o = o') (hw : w = w') :
    Emits args lits adata s s' o' w' := ho ▸ hw ▸ h

theorem set_literal_offset_fields (s : EncState) (off : Nat) :
    (set_literal_offset s off).literal_data = s.literal_data
    ∧ (set_literal_offset s off).argument_data = s.argument_data
    ∧ (set_literal_offset s off).incomplete_literal = s.incomplete_literal := by
  rw [set_literal_offset]
  split <;> exact ⟨rfl, rfl, rfl⟩

theorem set_argument_offset_fields (s : EncState) (off : Nat) :
    (set_argument_offset s off).literal_data = s.literal_data
    ∧ (set_argument_offset s off).argument_data = s.argument_data
    ∧ (set_argument_offset s off).incomplete_literal = s.incomplete_literal := by
  rw [set_argument_offset]
  split <;> exact ⟨rfl, rfl, rfl⟩

theorem allocate_literal_spec (args : List ArgValue) (lits : List String)
    (adata : List (Nat × ArgumentUsage)) (s : EncState) (lit : String)
    (hinv : EncInv s)
    (hg : Grows (allocate_literal s lit).literal_data lits)
    (hb : lits.length < 2 ^ 63) :
    EncInv (allocate_literal s lit)
    ∧ Grows s.literal_data (allocate_literal s lit).literal_data
    ∧ (allocate_literal s lit).literal_data.get?
        (allocate_literal s lit).current_literal_offset = some lit
    ∧ ArgSideEq s (allocate_literal s lit)
    ∧ ChansEq s (allocate_literal s lit)
    ∧ (allocate_literal s lit).incomplete_literal = s.incomplete_literal
    ∧ Emits args lits adata s (allocate_literal s lit) emptyStr [] := by
  obtain ⟨hlk1, hlk2, hnd, href, husz, hclit, hcarg⟩ := hinv
  by_cases hl : (s.literal_offsets.lookup lit).isSome = true
  · -- interning hit: just move the cursor
    obtain ⟨off, hoff⟩ := Option.isSome_iff_exists.mp hl
    have hall : allocate_literal s lit = set_literal_offset s off := by
      rw [allocate_literal, hoff]
    have hget : s.literal_data.get? off = some lit := hlk1 lit off hoff
    have hofflt : off < s.literal_data.length := get?_some_lt hget
    have hlen : s.literal_data.length ≤ lits.length := by
      have := Grows.length_le hg
      rw [hall, (set_literal_offset_fields s off).1] at this
      exact this
    obtain ⟨fops, heq, hemits⟩ := set_literal_offset_spec args lits adata s off
      (by omega) (by rcases hclit with h | h <;> omega)
    rw [hall, heq]
    refine ⟨⟨hlk1, hlk2, hnd, href, husz, Or.inr hofflt, hcarg⟩,
      Grows.refl _, hget, ⟨rfl, rfl, rfl, rfl⟩, ⟨rfl, rfl, rfl, rfl, rfl⟩, rfl, ?_⟩
    rw [← heq, ← hall]
    exact hall ▸ hemits
  · -- interning miss: append a fresh slot, then move the cursor
    have hnone : s.literal_offsets.lookup lit = none :=
      Option.not_isSome_iff_eq_none.mp hl
    have hnotmem : lit ∉ s.literal_data := fun hmem => hl (hlk2 lit hmem)
    have hall : allocate_literal s lit
        = set_literal_offset
            { s with
              literal_data := s.literal_data ++ [lit]
              literal_offsets := s.literal_offsets ++ [(lit, s.literal_data.length)] }
            s.literal_data.length := by
      rw [allocate_literal, hnone]
    have hld : (allocate_literal s lit).literal_data = s.literal_data ++ [lit] := by
      rw [hall, (set_literal_offset_fields _ _).1]
    have hlen : s.literal_data.length + 1 ≤ lits.length := by
      have := Grows.length_le hg
      rw [hld, List.length_append, List.length_singleton] at this
      exact this
    have hinvMid : EncInv { s with
        literal_data := s.literal_data ++ [lit]
        literal_offsets := s.literal_offsets ++ [(lit, s.literal_data.length)] } := by
      refine ⟨?_, ?_, ?_, href, husz, ?_, hcarg⟩
      · intro l' off' h
        rw [lookup_split] at h
        cases hfst : s.literal_offsets.lookup l' with
        | some v =>
            rw [hfst] at h
            have hv : v = off' := Option.some.inj h
            subst hv
            have hgv := hlk1 l' v hfst
            rw [List.get?_append (get?_some_lt hgv)]
            exact hgv
        | none =>
            rw [hfst] at h
            have h2 : List.lookup l' [(lit, s.literal_data.length)] = some off' := h
            cases hbeq : l' == lit with
            | true =>
                have hleq : l' = lit := eq_of_beq hbeq
                rw [show List.lookup l' [(lit, s.literal_data.length)]
                    = some s.literal_data.length from by
                      rw [hleq]; simp [List.lookup]] at h2
                obtain rfl := Option.some.inj h2
                rw [hleq]
                exact List.get?_concat_length _ _
            | false =>
                rw [show List.lookup l' [(lit, s.literal_data.length)] = none from by
                  simp only [List.lookup, hbeq]] at h2
                exact Option.noConfusion h2
      · intro l' hmem
        rw [lookup_split]
        rcases List.mem_append.mp hmem with hmem | hmem
        · have := hlk2 l' hmem
          cases hfst : s.literal_offsets.lookup l' with
          | some v => rfl
          | none => rw [hfst] at this; exact absurd this (by simp)
        · have hleq : l' = lit := List.mem_singleton.mp hmem
          subst hleq
          rw [hnone]
          simp [List.lookup]
      · refine List.nodup_append.mpr ⟨hnd, List.nodup_singleton lit, ?_⟩
        intro a ha hb
        rw [List.mem_singleton.mp hb] at ha
        exact hnotmem ha
      · rcases hclit with h | h
        · exact Or.inl h
        · exact Or.inr (by
            show s.current_literal_offset < (s.literal_data ++ [lit]).length
            rw [List.length_append, List.length_singleton]
            omega)
    obtain ⟨fops, heq, hemits⟩ := set_literal_offset_spec args lits adata
      { s with
        literal_data := s.literal_data ++ [lit]
        literal_offsets := s.literal_offsets ++ [(lit, s.literal_data.length)] }
      s.literal_data.length (by omega)
      (by show s.current_literal_offset < 2 ^ 63; rcases hclit with h | h <;> omega)
    obtain ⟨hi1, hi2, hi3, hi4, hi5, hi6, hi7⟩ := hinvMid
    rw [hall, heq]
    refine ⟨⟨hi1, hi2, hi3, hi4, hi5,
        Or.inr (by
          show s.literal_data.length < (s.literal_data ++ [lit]).length
          rw [List.length_append, List.length_singleton]
          omega), hi7⟩,
      Grows.append _ _, List.get?_concat_length _ _,
      ⟨rfl, rfl, rfl, rfl⟩, ⟨rfl, rfl, rfl, rfl, rfl⟩, rfl, ?_⟩
    rw [← heq]
    have hnilstep : Emits args lits adata s
        { s with
          literal_data := s.literal_data ++ [lit]
          literal_offsets := s.literal_offsets ++ [(lit, s.literal_data.length)] }
        emptyStr [] :=
      Emits.nil (Eq.refl _) (Eq.refl _) (fun _ hst => hst)
    exact (Emits.comp hnilstep hemits).cast (String.empty_append _) (Eq.refl _)

theorem flush_literal_spec (args : List ArgValue) (lits : List String)
    (adata : List (Nat × ArgumentUsage)) (s : EncState)
    (hinv : EncInv s)
    (hg : Grows (flush_literal s).literal_data lits)
    (hb : lits.length < 2 ^ 63) :
    EncInv (flush_literal s)
    ∧ Grows s.literal_data (flush_literal s).literal_data
    ∧ ArgSideEq s (flush_literal s)
    ∧ ChansEq s (flush_literal s)
    ∧ (flush_literal s).incomplete_literal = []
    ∧ Emits args lits adata s (flush_literal s)
        (String.join s.incomplete_literal)
        (match s.incomplete_literal with | [] => [] | ps => [joinPieces ps]) := by
  cases hp : s.incomplete_literal with
  | nil =>
      have heq : flush_literal s = s := by
        rw [flush_literal, hp]
      rw [heq, hp]
      exact ⟨hinv, Grows.refl _, ⟨rfl, rfl, rfl, rfl⟩, ⟨rfl, rfl, rfl, rfl, rfl⟩, rfl,
        Emits.nil (Eq.refl _) (Eq.refl _) (fun _ hst => hst)⟩
  | cons a rest =>
      have heq : flush_literal s
          = { allocate_literal { s with incomplete_literal := [] }
                (joinPieces (a :: rest)) with
              format_ops := (allocate_literal { s with incomplete_literal := [] }
                (joinPieces (a :: rest))).format_ops ++ [.writeStr] } := by
        rw [flush_literal, hp]
      have hginner : Grows (allocate_literal { s with incomplete_literal := [] }
          (joinPieces (a :: rest))).literal_data lits := by
        have := hg
        rw [heq] at this
        exact this
      have hinvE : EncInv { s with incomplete_literal := ([] : List String) } :=
        ⟨hinv.1, hinv.2.1, hinv.2.2.1, hinv.2.2.2.1, hinv.2.2.2.2.1,
          hinv.2.2.2.2.2.1, hinv.2.2.2.2.2.2⟩
      obtain ⟨hinv1, hgrow1, hslot1, harg1, hchan1, hincomp1, hemits1⟩ :=
        allocate_literal_spec args lits adata { s with incomplete_literal := [] }
          (joinPieces (a :: rest)) hinvE hginner hb
      have hnil : Emits args lits adata s { s with incomplete_literal := ([] : List String) }
          emptyStr [] :=
        Emits.nil (Eq.refl _) (Eq.refl _) (fun _ hst => hst)
      have hwrite : Emits args lits adata
          (allocate_literal { s with incomplete_literal := [] } (joinPieces (a :: rest)))
          (flush_literal s) (joinPieces (a :: rest)) [joinPieces (a :: rest)] := by
        refine ⟨[.writeStr], by rw [heq], Eq.refl _, by rw [heq]; rfl, ?_⟩
        intro st w hst
        obtain ⟨hf, hfi, hal, hw, hpr, hlp, hap⟩ := hst
        have hlit : litAt lits st.litPtr = joinPieces (a :: rest) := by
          rw [litAt, hlp]
          rw [show ((((allocate_literal { s with incomplete_literal := [] }
              (joinPieces (a :: rest))).current_literal_offset : Nat) : Int)).toNat
            = (allocate_literal { s with incomplete_literal := [] }
                (joinPieces (a :: rest))).current_literal_offset from Int.toNat_natCast _]
          have hsome : lits.get? (allocate_literal { s with incomplete_literal := [] }
              (joinPieces (a :: rest))).current_literal_offset
              = some (joinPieces (a :: rest)) :=
            (Grows.trans (Grows.refl _) hginner).get?_eq hslot1
          rw [List.getD_eq_getD_get?, hsome]
          rfl
        refine ⟨{ st with output := st.output ++ litAt lits st.litPtr }, ?_, ?_, ?_⟩
        · rw [show runOpsG lits (slotVals adata args) [.writeStr] (st, w)
              = ({ st with output := st.output ++ litAt lits st.litPtr },
                  w ++ [litAt lits st.litPtr]) from rfl, hlit]
        · rw [heq]
          exact ⟨hf, hfi, hal, hw, hpr, hlp, hap⟩
        · rw [hlit]
      have hcomp := (Emits.comp hnil (Emits.comp hemits1 hwrite)).cast
        (show emptyStr ++ (emptyStr ++ joinPieces (a :: rest))
            = String.join (a :: rest) from by
          rw [show emptyStr = "" from rfl, String.empty_append, String.empty_append,
            joinPieces_eq_join])
        (show ([] : List String) ++ ([] ++ [joinPieces (a :: rest)])
            = [joinPieces (a :: rest)] from by simp)
      refine ⟨?_, ?_, ?_, ?_, ?_, hcomp⟩
      · rw [heq]
        exact ⟨hinv1.1, hinv1.2.1, hinv1.2.2.1, hinv1.2.2.2.1, hinv1.2.2.2.2.1,
          hinv1.2.2.2.2.2.1, hinv1.2.2.2.2.2.2⟩
      · rw [heq]
        exact hgrow1
      · rw [heq]
        exact ⟨harg1.1, harg1.2.1, harg1.2.2.1, harg1.2.2.2⟩
      · rw [heq]
        exact ⟨hchan1.1, hchan1.2.1, hchan1.2.2.1, hchan1.2.2.2.1, hchan1.2.2.2.2⟩
      · rw [heq]
        exact hincomp1

theorem updateFlags_spec (args : List ArgValue) (lits : List String)
    (adata : List (Nat × ArgumentUsage)) (s : EncState) (fo : FormatOptions) :
    (updateFlags s fo).current_flags = computeFlags fo
    ∧ (updateFlags s fo).current_fill = s.current_fill
    ∧ (updateFlags s fo).current_align = s.current_align
    ∧ (updateFlags s fo).current_width = s.current_width
    ∧ (updateFlags s fo).current_precision = s.current_precision
    ∧ LitSideEq s (updateFlags s fo)
    ∧ ArgSideEq s (updateFlags s fo)
    ∧ (EncInv s → EncInv (updateFlags s fo))
    ∧ Emits args lits adata s (updateFlags s fo) emptyStr [] := by
  by_cases h : s.current_flags = computeFlags fo
  · have heq : updateFlags s fo = s := by
      rw [updateFlags]
      exact if_neg (fun hne => hne h)
    rw [heq]
    exact ⟨h, rfl, rfl, rfl, rfl, ⟨rfl, rfl, rfl, rfl⟩, ⟨rfl, rfl, rfl, rfl⟩,
      fun hi => hi, Emits.nil (Eq.refl _) (Eq.refl _) (fun _ hst => hst)⟩
  · have heq : updateFlags s fo = { s with
        current_flags := computeFlags fo
        format_ops := s.format_ops ++ [.setFlags (computeFlags fo)] } := by
      rw [updateFlags]
      exact if_pos h
    rw [heq]
    refine ⟨rfl, rfl, rfl, rfl, rfl, ⟨rfl, rfl, rfl, rfl⟩, ⟨rfl, rfl, rfl, rfl⟩,
      fun hi => ⟨hi.1, hi.2.1, hi.2.2.1, hi.2.2.2.1, hi.2.2.2.2.1,
        hi.2.2.2.2.2.1, hi.2.2.2.2.2.2⟩, ?_⟩
    refine ⟨[.setFlags (computeFlags fo)], rfl, ?_, rfl, ?_⟩
    · simp only [chanCheck, chanOk, Bool.and_true]
      exact decide_eq_true h
    · intro st w hst
      obtain ⟨hf, hfi, hal, hw, hpr, hlp, hap⟩ := hst
      refine ⟨{ st with opts := { st.opts with flags := computeFlags fo } },
        by rw [List.append_nil]; rfl,
        ⟨rfl, hfi, hal, hw, hpr, hlp, hap⟩, (String.append_empty _).symm⟩

theorem updateFill_spec (args : List ArgValue) (lits : List String)
    (adata : List (Nat × ArgumentUsage)) (s : EncState) (fo : FormatOptions) :
    (updateFill s fo).current_fill = fo.fill.getD ' '
    ∧ (updateFill s fo).current_flags = s.current_flags
    ∧ (updateFill s fo).current_align = s.current_align
    ∧ (updateFill s fo).current_width = s.current_width
    ∧ (updateFill s fo).current_precision = s.current_precision
    ∧ LitSideEq s (updateFill s fo)
    ∧ ArgSideEq s (updateFill s fo)
    ∧ (EncInv s → EncInv (updateFill s fo))
    ∧ Emits args lits adata s (updateFill s fo) emptyStr [] := by
  by_cases h : s.current_fill = fo.fill.getD ' '
  · have heq : updateFill s fo = s := by
      rw [updateFill]
      exact if_neg (fun hne => hne h)
    rw [heq]
    exact ⟨h, rfl, rfl, rfl, rfl, ⟨rfl, rfl, rfl, rfl⟩, ⟨rfl, rfl, rfl, rfl⟩,
      fun hi => hi, Emits.nil (Eq.refl _) (Eq.refl _) (fun _ hst => hst)⟩
  · have heq : updateFill s fo = { s with
        current_fill := fo.fill.getD ' '
        format_ops := s.format_ops ++ [.setFill (fo.fill.getD ' ')] } := by
      rw [updateFill]
      exact if_pos h
    rw [heq]
    refine ⟨rfl, rfl, rfl, rfl, rfl, ⟨rfl, rfl, rfl, rfl⟩, ⟨rfl, rfl, rfl, rfl⟩,
      fun hi => ⟨hi.1, hi.2.1, hi.2.2.1, hi.2.2.2.1, hi.2.2.2.2.1,
        hi.2.2.2.2.2.1, hi.2.2.2.2.2.2⟩, ?_⟩
    refine ⟨[.setFill (fo.fill.getD ' ')], rfl, ?_, rfl, ?_⟩
    · simp only [chanCheck, chanOk, Bool.and_true]
      exact decide_eq_true h
    · intro st w hst
      obtain ⟨hf, hfi, hal, hw, hpr, hlp, hap⟩ := hst
      refine ⟨{ st with opts := { st.opts with fill := fo.fill.getD ' ' } },
        by rw [List.append_nil]; rfl,
        ⟨hf, rfl, hal, hw, hpr, hlp, hap⟩, (String.append_empty _).symm⟩

theorem updateAlign_spec (args : List ArgValue) (lits : List String)
    (adata : List (Nat × ArgumentUsage)) (s : EncState) (fo : FormatOptions) :
    (updateAlign s fo).current_align = fo.alignment
    ∧ (updateAlign s fo).current_flags = s.current_flags
    ∧ (updateAlign s fo).current_fill = s.current_fill
    ∧ (updateAlign s fo).current_width = s.current_width
    ∧ (updateAlign s fo).current_precision = s.current_precision
    ∧ LitSideEq s (updateAlign s fo)
    ∧ ArgSideEq s (updateAlign s fo)
    ∧ (EncInv s → EncInv (updateAlign s fo))
    ∧ Emits args lits adata s (updateAlign s fo) emptyStr [] := by
  by_cases h : s.current_align = fo.alignment
  · have heq : updateAlign s fo = s := by
      rw [updateAlign]
      exact if_neg (fun hne => hne h)
    rw [heq]
    exact ⟨h, rfl, rfl, rfl, rfl, ⟨rfl, rfl, rfl, rfl⟩, ⟨rfl, rfl, rfl, rfl⟩,
      fun hi => hi, Emits.nil (Eq.refl _) (Eq.refl _) (fun _ hst => hst)⟩
  · have heq : updateAlign s fo = { s with
        current_align := fo.alignment
        format_ops := s.format_ops ++
          [match fo.alignment with
           | none => .clearAlign
           | some .left => .setLeftAlign
           | some .right => .setRightAlign
           | some .center => .setCenterAlign] } := by
      rw [updateAlign]
      exact if_pos h
    rw [heq]
    refine ⟨rfl, rfl, rfl, rfl, rfl, ⟨rfl, rfl, rfl, rfl⟩, ⟨rfl, rfl, rfl, rfl⟩,
      fun hi => ⟨hi.1, hi.2.1, hi.2.2.1, hi.2.2.2.1, hi.2.2.2.2.1,
        hi.2.2.2.2.2.1, hi.2.2.2.2.2.2⟩, ?_⟩
    refine ⟨[match fo.alignment with
      | none => .clearAlign
      | some .left => .setLeftAlign
      | some .right => .setRightAlign
      | some .center => .setCenterAlign], rfl, ?_, ?_, ?_⟩
    · rcases halign : fo.alignment with _ | al
      · simp only [chanCheck, chanOk, Bool.and_true]
        exact decide_eq_true (by rw [halign] at h; exact h)
      · cases al <;>
          (simp only [chanCheck, chanOk, Bool.and_true]
           exact decide_eq_true (by rw [halign] at h; exact h))
    · rcases fo.alignment with _ | al
      · rfl
      · cases al <;> rfl
    · intro st w hst
      obtain ⟨hf, hfi, hal, hw, hpr, hlp, hap⟩ := hst
      rcases fo.alignment with _ | al
      · exact ⟨{ st with opts := { st.opts with align := none } },
          by rw [List.append_nil]; rfl,
          ⟨hf, hfi, rfl, hw, hpr, hlp, hap⟩, (String.append_empty _).symm⟩
      · cases al
        · exact ⟨{ st with opts := { st.opts with align := some .left } },
            by rw [List.append_nil]; rfl,
            ⟨hf, hfi, rfl, hw, hpr, hlp, hap⟩, (String.append_empty _).symm⟩
        · exact ⟨{ st with opts := { st.opts with align := some .right } },
            by rw [List.append_nil]; rfl,
            ⟨hf, hfi, rfl, hw, hpr, hlp, hap⟩, (String.append_empty _).symm⟩
        · exact ⟨{ st with opts := { st.opts with align := some .center } },
            by rw [List.append_nil]; rfl,
            ⟨hf, hfi, rfl, hw, hpr, hlp, hap⟩, (String.append_empty _).symm⟩

theorem allocate_usize_argument_spec (args : List ArgValue) (lits : List String)
    (adata : List (Nat × ArgumentUsage)) (s : EncState) (i : Nat) (s1 : EncState)
    (h : allocate_usize_argument s i = some s1)
    (hinv : EncInv s)
    (hg : Grows s1.argument_data adata)
    (hb : adata.length < 2 ^ 63) :
    EncInv s1
    ∧ Grows s.argument_data s1.argument_data
    ∧ LitSideEq s s1
    ∧ ChansEq s s1
    ∧ s1.ref_argument_offsets = s.ref_argument_offsets
    ∧ s1.argument_data.get? s1.current_argument_offset = some (i, .usize)
    ∧ Emits args lits adata s s1 emptyStr [] := by
  obtain ⟨hlk1, hlk2, hnd, href, husz, hclit, hcarg⟩ := hinv
  rw [allocate_usize_argument] at h
  split at h
  case isTrue hib =>
    split at h
    case _ off hlk =>
      obtain rfl := Option.some.inj h
      have hslot : s.argument_data.get? off = some (i, .usize) := husz i off hlk
      have hofflt : off < s.argument_data.length := get?_some_lt hslot
      have hlen : s.argument_data.length ≤ adata.length := by
        have := Grows.length_le hg
        rw [(set_argument_offset_fields s off).2.1] at this
        exact this
      obtain ⟨fops, heq, hemits⟩ := set_argument_offset_spec args lits adata s off
        (by omega) (by rcases hcarg with hc | hc <;> omega)
      rw [heq]
      exact ⟨⟨hlk1, hlk2, hnd, href, husz, hclit, Or.inr hofflt⟩, Grows.refl _,
        ⟨rfl, rfl, rfl, rfl⟩, ⟨rfl, rfl, rfl, rfl, rfl⟩, rfl, hslot, heq ▸ hemits⟩
    case _ hlk =>
      obtain rfl := Option.some.inj h
      have had : (set_argument_offset
          { s with
            argument_data := s.argument_data ++ [(i, .usize)]
            usize_argument_offsets :=
              s.usize_argument_offsets ++ [(i, s.argument_data.length)] }
          s.argument_data.length).argument_data
          = s.argument_data ++ [(i, .usize)] := (set_argument_offset_fields _ _).2.1
      have hlen : s.argument_data.length + 1 ≤ adata.length := by
        have := Grows.length_le hg
        rw [had, List.length_append, List.length_singleton] at this
        exact this
      have hinvMid : EncInv { s with
          argument_data := s.argument_data ++ [(i, .usize)]
          usize_argument_offsets :=
            s.usize_argument_offsets ++ [(i, s.argument_data.length)] } := by
        refine ⟨hlk1, hlk2, hnd, ?_, ?_, hclit, ?_⟩
        · intro idx off' hr
          have hold := href idx off' hr
          rw [List.get?_append (get?_some_lt hold)]
          exact hold
        · intro idx off' hu
          rw [lookup_split] at hu
          cases hfst : s.usize_argument_offsets.lookup idx with
          | some v =>
              rw [hfst] at hu
              obtain rfl := Option.some.inj hu
              have hold := husz idx v hfst
              rw [List.get?_append (get?_some_lt hold)]
              exact hold
          | none =>
              rw [hfst] at hu
              have h2 : List.lookup idx [(i, s.argument_data.length)] = some off' := hu
              cases hbeq : idx == i with
              | true =>
                  have hieq : idx = i := eq_of_beq hbeq
                  rw [show List.lookup idx [(i, s.argument_data.length)]
                      = some s.argument_data.length from by
                        rw [hieq]; simp [List.lookup]] at h2
                  obtain rfl := Option.some.inj h2
                  rw [hieq]
                  exact List.get?_concat_length _ _
              | false =>
                  rw [show List.lookup idx [(i, s.argument_data.length)] = none from by
                    simp only [List.lookup, hbeq]] at h2
                  exact Option.noConfusion h2
        · rcases hcarg with hc | hc
          · exact Or.inl hc
          · exact Or.inr (by
              show s.current_argument_offset
                < (s.argument_data ++ [(i, ArgumentUsage.usize)]).length
              rw [List.length_append, List.length_singleton]
              omega)
      obtain ⟨hi1, hi2, hi3, hi4, hi5, hi6, hi7⟩ := hinvMid
      obtain ⟨fops, heq, hemits⟩ := set_argument_offset_spec args lits adata
        { s with
          argument_data := s.argument_data ++ [(i, .usize)]
          usize_argument_offsets :=
            s.usize_argument_offsets ++ [(i, s.argument_data.length)] }
        s.argument_data.length (by omega)
        (by show s.current_argument_offset < 2 ^ 63; rcases hcarg with hc | hc <;> omega)
      rw [heq]
      refine ⟨⟨hi1, hi2, hi3, hi4, hi5, hi6,
          Or.inr (by
            show s.argument_data.length
              < (s.argument_data ++ [(i, ArgumentUsage.usize)]).length
            rw [List.length_append, List.length_singleton]
            omega)⟩,
        Grows.append _ _, ⟨rfl, rfl, rfl, rfl⟩, ⟨rfl, rfl, rfl, rfl, rfl⟩, rfl,
        List.get?_concat_length _ _, ?_⟩
      rw [← heq]
      have hnilstep : Emits args lits adata s
          { s with
            argument_data := s.argument_data ++ [(i, .usize)]
            usize_argument_offsets :=
              s.usize_argument_offsets ++ [(i, s.argument_data.length)] }
          emptyStr [] :=
        Emits.nil (Eq.refl _) (Eq.refl _) (fun _ hst => hst)
      exact (Emits.comp hnilstep hemits).cast (String.empty_append _) (Eq.refl _)
  case isFalse hib => exact Option.noConfusion h

theorem slotVals_get? (adata : List (Nat × ArgumentUsage)) (args : List ArgValue)
    (off : Nat) :
    (slotVals adata args).get? off
      = (adata.get? off).map (fun sl => args.getD sl.1 ArgValue.null) :=
  List.get?_map _ _ _

theorem updateWidth_spec (args : List ArgValue) (lits : List String)
    (adata : List (Nat × ArgumentUsage)) (s : EncState) (fo : FormatOptions)
    (s' : EncState)
    (h : updateWidth s fo = some s')
    (hinv : EncInv s)
    (hg : Grows s'.argument_data adata)
    (hb : adata.length < 2 ^ 63) :
    EncInv s'
    ∧ Grows s.argument_data s'.argument_data
    ∧ s'.literal_data = s.literal_data
    ∧ s'.literal_offsets = s.literal_offsets
    ∧ s'.current_literal_offset = s.current_literal_offset
    ∧ s'.incomplete_literal = s.incomplete_literal
    ∧ s'.ref_argument_offsets = s.ref_argument_offsets
    ∧ s'.current_flags = s.current_flags
    ∧ s'.current_fill = s.current_fill
    ∧ s'.current_align = s.current_align
    ∧ s'.current_precision = s.current_precision
    ∧ keyVal args s'.current_width = countValue args fo.width
    ∧ Emits args lits adata s s' emptyStr [] := by
  rw [updateWidth] at h
  split at h
  case _ hwidth =>
    rw [hwidth]
    split at h
    case isTrue hne =>
      obtain rfl := Option.some.inj h
      refine ⟨⟨hinv.1, hinv.2.1, hinv.2.2.1, hinv.2.2.2.1, hinv.2.2.2.2.1,
          hinv.2.2.2.2.2.1, hinv.2.2.2.2.2.2⟩, Grows.refl _, rfl, rfl, rfl, rfl, rfl,
        rfl, rfl, rfl, rfl, rfl, ?_⟩
      refine ⟨[.clearWidth], rfl, ?_, rfl, ?_⟩
      · simp only [chanCheck, chanOk, Bool.and_true]
        exact decide_eq_true hne
      · intro st w hst
        obtain ⟨hf, hfi, hal, hw, hpr, hlp, hap⟩ := hst
        exact ⟨{ st with opts := { st.opts with width := none } },
          by rw [List.append_nil]; rfl,
          ⟨hf, hfi, hal, rfl, hpr, hlp, hap⟩, (String.append_empty _).symm⟩
    case isFalse hne =>
      obtain rfl := Option.some.inj h
      have hcw : s.current_width = none := not_ne_iff.mp hne
      exact ⟨hinv, Grows.refl _, rfl, rfl, rfl, rfl, rfl, rfl, rfl, rfl, rfl,
        by rw [hcw]; rfl,
        Emits.nil (Eq.refl _) (Eq.refl _) (fun _ hst => hst)⟩
  case _ n hwidth =>
    rw [hwidth]
    split at h
    case isTrue hne =>
      obtain rfl := Option.some.inj h
      refine ⟨⟨hinv.1, hinv.2.1, hinv.2.2.1, hinv.2.2.2.1, hinv.2.2.2.2.1,
          hinv.2.2.2.2.2.1, hinv.2.2.2.2.2.2⟩, Grows.refl _, rfl, rfl, rfl, rfl, rfl,
        rfl, rfl, rfl, rfl, rfl, ?_⟩
      refine ⟨[.setWidth n], rfl, ?_, rfl, ?_⟩
      · simp only [chanCheck, chanOk, Bool.and_true]
        exact decide_eq_true hne
      · intro st w hst
        obtain ⟨hf, hfi, hal, hw, hpr, hlp, hap⟩ := hst
        exact ⟨{ st with opts := { st.opts with width := some n } },
          by rw [List.append_nil]; rfl,
          ⟨hf, hfi, hal, rfl, hpr, hlp, hap⟩, (String.append_empty _).symm⟩
    case isFalse hne =>
      obtain rfl := Option.some.inj h
      have hcw : s.current_width = some (.literal n) := not_ne_iff.mp hne
      exact ⟨hinv, Grows.refl _, rfl, rfl, rfl, rfl, rfl, rfl, rfl, rfl, rfl,
        by rw [hcw]; rfl,
        Emits.nil (Eq.refl _) (Eq.refl _) (fun _ hst => hst)⟩
  case _ pos hwidth =>
    rw [hwidth]
    split at h
    case _ hidx => exact Option.noConfusion h
    case _ i hidx =>
      rw [show countValue args (some (.argument pos))
          = some ((args.getD i ArgValue.null).usize) from by
        rw [countValue, hidx]]
      split at h
      case isTrue hne =>
        obtain ⟨s1, hall, rfl⟩ := Option.map_eq_some'.mp h
        obtain ⟨hinv1, hgrow1, hlit1, hchan1, href1, hslot1, hemits1⟩ :=
          allocate_usize_argument_spec args lits adata s i s1 hall hinv hg hb
        have hdyn : dynKey adata ((s1.current_argument_offset : Nat) : Int)
            = .argument i := by
          rw [dynKey, Int.toNat_natCast, List.getD_eq_getD_get?, Grows.get?_eq hg hslot1]
          rfl
        have hstep : Emits args lits adata s1
            { s1 with
              current_width := some (.argument i)
              format_ops := s1.format_ops ++ [.setDynWidth] }
            emptyStr [] := by
          refine ⟨[.setDynWidth], rfl, ?_, ?_, ?_⟩
          · simp only [chanCheck, chanOk, Bool.and_true]
            show decide (s1.current_width
              ≠ some (dynKey adata ((s1.current_argument_offset : Nat) : Int))) = true
            rw [hdyn, hchan1.2.2.2.1]
            exact decide_eq_true hne
          · dsimp only [chanApply, List.foldl, chanStep, chansOf]
            congr 1
            show some (dynKey adata ((s1.current_argument_offset : Nat) : Int))
              = some (FormatCountKey.argument i)
            rw [hdyn]
          · intro st w hst
            obtain ⟨hf, hfi, hal, hw, hpr, hlp, hap⟩ := hst
            have harg : argAt (slotVals adata args) st.argPtr
                = args.getD i ArgValue.null := by
              rw [hap, argAt, Int.toNat_natCast, List.getD_eq_getD_get?, slotVals_get?,
                Grows.get?_eq hg hslot1]
              rfl
            refine ⟨{ st with opts := { st.opts with
                width := some ((argAt (slotVals adata args) st.argPtr).usize) } },
              by rw [List.append_nil]; rfl,
              ⟨hf, hfi, hal, ?_, hpr, hlp, hap⟩, (String.append_empty _).symm⟩
            rw [show ({ st with opts := { st.opts with
                width := some ((argAt (slotVals adata args) st.argPtr).usize) } }
                  : RtState).opts.width
              = some ((argAt (slotVals adata args) st.argPtr).usize) from rfl, harg]
            rfl
        have hc := (Emits.comp hemits1 hstep).cast (String.empty_append _) (Eq.refl _)
        obtain ⟨hl1, hl2, hl3, hl4⟩ := hlit1
        obtain ⟨hc1, hc2, hc3, hc4, hc5⟩ := hchan1
        exact ⟨⟨hinv1.1, hinv1.2.1, hinv1.2.2.1, hinv1.2.2.2.1, hinv1.2.2.2.2.1,
            hinv1.2.2.2.2.2.1, hinv1.2.2.2.2.2.2⟩, hgrow1, hl1, hl2, hl3, hl4, href1,
          hc1, hc2, hc3, hc5, rfl, hc⟩
      case isFalse hne =>
        obtain rfl := Option.some.inj h
        have hcw : s.current_width = some (.argument i) := not_ne_iff.mp hne
        exact ⟨hinv, Grows.refl _, rfl, rfl, rfl, rfl, rfl, rfl, rfl, rfl, rfl,
          by rw [hcw]; rfl,
          Emits.nil (Eq.refl _) (Eq.refl _) (fun _ hst => hst)⟩

theorem updatePrecision_spec (args : List ArgValue) (lits : List String)
    (adata : List (Nat × ArgumentUsage)) (s : EncState) (fo : FormatOptions)
    (s' : EncState)
    (h : updatePrecision s fo = some s')
    (hinv : EncInv s)
    (hg : Grows s'.argument_data adata)
    (hb : adata.length < 2 ^ 63) :
    EncInv s'
    ∧ Grows s.argument_data s'.argument_data
    ∧ s'.literal_data = s.literal_data
    ∧ s'.literal_offsets = s.literal_offsets
    ∧ s'.current_literal_offset = s.current_literal_offset
    ∧ s'.incomplete_literal = s.incomplete_literal
    ∧ s'.ref_argument_offsets = s.ref_argument_offsets
    ∧ s'.current_flags = s.current_flags
    ∧ s'.current_fill = s.current_fill
    ∧ s'.current_align = s.current_align
    ∧ s'.current_width = s.current_width
    ∧ keyVal args s'.current_precision = countValue args fo.precision
    ∧ Emits args lits adata s s' emptyStr [] := by
  rw [updatePrecision] at h
  split at h
  case _ hprec =>
    rw [hprec]
    split at h
    case isTrue hne =>
      obtain rfl := Option.some.inj h
      refine ⟨⟨hinv.1, hinv.2.1, hinv.2.2.1, hinv.2.2.2.1, hinv.2.2.2.2.1,
          hinv.2.2.2.2.2.1, hinv.2.2.2.2.2.2⟩, Grows.refl _, rfl, rfl, rfl, rfl, rfl,
        rfl, rfl, rfl, rfl, rfl, ?_⟩
      refine ⟨[.clearPrecision], rfl, ?_, rfl, ?_⟩
      · simp only [chanCheck, chanOk, Bool.and_true]
        exact decide_eq_true hne
      · intro st w hst
        obtain ⟨hf, hfi, hal, hw, hpr, hlp, hap⟩ := hst
        exact ⟨{ st with opts := { st.opts with precision := none } },
          by rw [List.append_nil]; rfl,
          ⟨hf, hfi, hal, hw, rfl, hlp, hap⟩, (String.append_empty _).symm⟩
    case isFalse hne =>
      obtain rfl := Option.some.inj h
      have hcw : s.current_precision = none := not_ne_iff.mp hne
      exact ⟨hinv, Grows.refl _, rfl, rfl, rfl, rfl, rfl, rfl, rfl, rfl, rfl,
        by rw [hcw]; rfl,
        Emits.nil (Eq.refl _) (Eq.refl _) (fun _ hst => hst)⟩
  case _ n hprec =>
    rw [hprec]
    split at h
    case isTrue hne =>
      obtain rfl := Option.some.inj h
      refine ⟨⟨hinv.1, hinv.2.1, hinv.2.2.1, hinv.2.2.2.1, hinv.2.2.2.2.1,
          hinv.2.2.2.2.2.1, hinv.2.2.2.2.2.2⟩, Grows.refl _, rfl, rfl, rfl, rfl, rfl,
        rfl, rfl, rfl, rfl, rfl, ?_⟩
      refine ⟨[.setPrecision n], rfl, ?_, rfl, ?_⟩
      · simp only [chanCheck, chanOk, Bool.and_true]
        exact decide_eq_true hne
      · intro st w hst
        obtain ⟨hf, hfi, hal, hw, hpr, hlp, hap⟩ := hst
        exact ⟨{ st with opts := { st.opts with precision := some n } },
          by rw [List.append_nil]; rfl,
          ⟨hf, hfi, hal, hw, rfl, hlp, hap⟩, (String.append_empty _).symm⟩
    case isFalse hne =>
      obtain rfl := Option.some.inj h
      have hcw : s.current_precision = some (.literal n) := not_ne_iff.mp hne
      exact ⟨hinv, Grows.refl _, rfl, rfl, rfl, rfl, rfl, rfl, rfl, rfl, rfl,
        by rw [hcw]; rfl,
        Emits.nil (Eq.refl _) (Eq.refl _) (fun _ hst => hst)⟩
  case _ pos hprec =>
    rw [hprec]
    split at h
    case _ hidx => exact Option.noConfusion h
    case _ i hidx =>
      rw [show countValue args (some (.argument pos))
          = some ((args.getD i ArgValue.null).usize) from by
        rw [countValue, hidx]]
      split at h
      case isTrue hne =>
        obtain ⟨s1, hall, rfl⟩ := Option.map_eq_some'.mp h
        obtain ⟨hinv1, hgrow1, hlit1, hchan1, href1, hslot1, hemits1⟩ :=
          allocate_usize_argument_spec args lits adata s i s1 hall hinv hg hb
        have hdyn : dynKey adata ((s1.current_argument_offset : Nat) : Int)
            = .argument i := by
          rw [dynKey, Int.toNat_natCast, List.getD_eq_getD_get?, Grows.get?_eq hg hslot1]
          rfl
        have hstep : Emits args lits adata s1
            { s1 with
              current_precision := some (.argument i)
              format_ops := s1.format_ops ++ [.setDynPrecision] }
            emptyStr [] := by
          refine ⟨[.setDynPrecision], rfl, ?_, ?_, ?_⟩
          · simp only [chanCheck, chanOk, Bool.and_true]
            show decide (s1.current_precision
              ≠ some (dynKey adata ((s1.current_argument_offset : Nat) : Int))) = true
            rw [hdyn, hchan1.2.2.2.2]
            exact decide_eq_true hne
          · dsimp only [chanApply, List.foldl, chanStep, chansOf]
            congr 1
            show some (dynKey adata ((s1.current_argument_offset : Nat) : Int))
              = some (FormatCountKey.argument i)
            rw [hdyn]
          · intro st w hst
            obtain ⟨hf, hfi, hal, hw, hpr, hlp, hap⟩ := hst
            have harg : argAt (slotVals adata args) st.argPtr
                = args.getD i ArgValue.null := by
              rw [hap, argAt, Int.toNat_natCast, List.getD_eq_getD_get?, slotVals_get?,
                Grows.get?_eq hg hslot1]
              rfl
            refine ⟨{ st with opts := { st.opts with
                precision := some ((argAt (slotVals adata args) st.argPtr).usize) } },
              by rw [List.append_nil]; rfl,
              ⟨hf, hfi, hal, hw, ?_, hlp, hap⟩, (String.append_empty _).symm⟩
            rw [show ({ st with opts := { st.opts with
                precision := some ((argAt (slotVals adata args) st.argPtr).usize) } }
                  : RtState).opts.precision
              = some ((argAt (slotVals adata args) st.argPtr).usize) from rfl, harg]
            rfl
        have hc := (Emits.comp hemits1 hstep).cast (String.empty_append _) (Eq.refl _)
        obtain ⟨hl1, hl2, hl3, hl4⟩ := hlit1
        obtain ⟨hc1, hc2, hc3, hc4, hc5⟩ := hchan1
        exact ⟨⟨hinv1.1, hinv1.2.1, hinv1.2.2.1, hinv1.2.2.2.1, hinv1.2.2.2.2.1,
            hinv1.2.2.2.2.2.1, hinv1.2.2.2.2.2.2⟩, hgrow1, hl1, hl2, hl3, hl4, href1,
          hc1, hc2, hc3, hc4, rfl, hc⟩
      case isFalse hne =>
        obtain rfl := Option.some.inj h
        have hcw : s.current_precision = some (.argument i) := not_ne_iff.mp hne
        exact ⟨hinv, Grows.refl _, rfl, rfl, rfl, rfl, rfl, rfl, rfl, rfl, rfl,
          by rw [hcw]; rfl,
          Emits.nil (Eq.refl _) (Eq.refl _) (fun _ hst => hst)⟩

theorem allocate_ref_argument_spec (args : List ArgValue) (lits : List String)
    (adata : List (Nat × ArgumentUsage)) (s : EncState) (pos : FormatArgPosition)
    (s1 : EncState)
    (h : allocate_ref_argument s pos = some s1)
    (hinv : EncInv s)
    (hg : Grows s1.argument_data adata)
    (hb : adata.length < 2 ^ 63) :
    ∃ i, pos.index = some i
    ∧ EncInv s1
    ∧ Grows s.argument_data s1.argument_data
    ∧ LitSideEq s s1
    ∧ ChansEq s s1
    ∧ s1.ref_argument_offsets.length = s.ref_argument_offsets.length
    ∧ s1.argument_data.get? s1.current_argument_offset = some (i, .ref)
    ∧ Emits args lits adata s s1 emptyStr [] := by
  obtain ⟨hlk1, hlk2, hnd, href, husz, hclit, hcarg⟩ := hinv
  rw [allocate_ref_argument] at h
  split at h
  case _ hidx => exact Option.noConfusion h
  case _ index hidx =>
    split at h
    case _ hroff => exact Option.noConfusion h
    case _ off hroff =>
      obtain rfl := Option.some.inj h
      have hslot : s.argument_data.get? off = some (index, .ref) := href index off hroff
      have hofflt : off < s.argument_data.length := get?_some_lt hslot
      have hlen : s.argument_data.length ≤ adata.length := by
        have := Grows.length_le hg
        rw [(set_argument_offset_fields s off).2.1] at this
        exact this
      obtain ⟨fops, heq, hemits⟩ := set_argument_offset_spec args lits adata s off
        (by omega) (by rcases hcarg with hc | hc <;> omega)
      rw [heq]
      exact ⟨index, hidx, ⟨hlk1, hlk2, hnd, href, husz, hclit, Or.inr hofflt⟩,
        Grows.refl _, ⟨rfl, rfl, rfl, rfl⟩, ⟨rfl, rfl, rfl, rfl, rfl⟩, rfl, hslot,
        heq ▸ hemits⟩
    case _ hroff =>
      obtain rfl := Option.some.inj h
      have hkb : index < s.ref_argument_offsets.length := get?_some_lt hroff
      have had : (set_argument_offset
          { s with
            argument_data := s.argument_data ++ [(index, .ref)]
            ref_argument_offsets :=
              s.ref_argument_offsets.set index (some s.argument_data.length) }
          s.argument_data.length).argument_data
          = s.argument_data ++ [(index, .ref)] := (set_argument_offset_fields _ _).2.1
      have hlen : s.argument_data.length + 1 ≤ adata.length := by
        have := Grows.length_le hg
        rw [had, List.length_append, List.length_singleton] at this
        exact this
      have hinvMid : EncInv { s with
          argument_data := s.argument_data ++ [(index, .ref)]
          ref_argument_offsets :=
            s.ref_argument_offsets.set index (some s.argument_data.length) } := by
        refine ⟨hlk1, hlk2, hnd, ?_, ?_, hclit, ?_⟩
        · intro idx off' hr
          by_cases hii : idx = index
          · subst hii
            rw [List.get?_set_eq_of_lt _ hkb] at hr
            obtain hoeq := Option.some.inj (Option.some.inj hr)
            rw [← hoeq]
            exact List.get?_concat_length _ _
          · rw [List.get?_set_ne _ _ (fun hc => hii hc.symm)] at hr
            have hold := href idx off' hr
            rw [List.get?_append (get?_some_lt hold)]
            exact hold
        · intro idx off' hu
          have hold := husz idx off' hu
          rw [List.get?_append (get?_some_lt hold)]
          exact hold
        · rcases hcarg with hc | hc
          · exact Or.inl hc
          · exact Or.inr (by
              show s.current_argument_offset
                < (s.argument_data ++ [(index, ArgumentUsage.ref)]).length
              rw [List.length_append, List.length_singleton]
              omega)
      obtain ⟨hi1, hi2, hi3, hi4, hi5, hi6, hi7⟩ := hinvMid
      obtain ⟨fops, heq, hemits⟩ := set_argument_offset_spec args lits adata
        { s with
          argument_data := s.argument_data ++ [(index, .ref)]
          ref_argument_offsets :=
            s.ref_argument_offsets.set index (some s.argument_data.length) }
        s.argument_data.length (by omega)
        (by show s.current_argument_offset < 2 ^ 63; rcases hcarg with hc | hc <;> omega)
      rw [heq]
      refine ⟨index, hidx, ⟨hi1, hi2, hi3, hi4, hi5, hi6,
          Or.inr (by
            show s.argument_data.length
              < (s.argument_data ++ [(index, ArgumentUsage.ref)]).length
            rw [List.length_append, List.length_singleton]
            omega)⟩,
        Grows.append _ _, ⟨rfl, rfl, rfl, rfl⟩, ⟨rfl, rfl, rfl, rfl, rfl⟩, ?_,
        List.get?_concat_length _ _, ?_⟩
      · show (s.ref_argument_offsets.set index (some s.argument_data.length)).length
          = s.ref_argument_offsets.length
        exact List.length_set _ _ _
      · rw [← heq]
        have hnilstep : Emits args lits adata s
            { s with
              argument_data := s.argument_data ++ [(index, .ref)]
              ref_argument_offsets :=
                s.ref_argument_offsets.set index (some s.argument_data.length) }
            emptyStr [] :=
          Emits.nil (Eq.refl _) (Eq.refl _) (fun _ hst => hst)
        exact (Emits.comp hnilstep hemits).cast (String.empty_append _) (Eq.refl _)

theorem allocate_literal_mono (s : EncState) (lit : String) :
    Grows s.literal_data (allocate_literal s lit).literal_data
    ∧ (allocate_literal s lit).argument_data = s.argument_data := by
  rw [allocate_literal]
  cases hl : s.literal_offsets.lookup lit with
  | some off =>
      rw [(set_literal_offset_fields _ _).1, (set_literal_offset_fields _ _).2.1]
      exact ⟨Grows.refl _, rfl⟩
  | none =>
      rw [(set_literal_offset_fields _ _).1, (set_literal_offset_fields _ _).2.1]
      exact ⟨Grows.append _ _, rfl⟩

theorem flush_literal_mono (s : EncState) :
    Grows s.literal_data (flush_literal s).literal_data
    ∧ (flush_literal s).argument_data = s.argument_data := by
  rw [flush_literal]
  cases hp : s.incomplete_literal with
  | nil => exact ⟨Grows.refl _, rfl⟩
  | cons a rest =>
      exact ⟨(allocate_literal_mono _ _).1, (allocate_literal_mono _ _).2⟩

theorem allocate_usize_argument_mono (s : EncState) (i : Nat) (s1 : EncState)
    (h : allocate_usize_argument s i = some s1) :
    Grows s.argument_data s1.argument_data ∧ s1.literal_data = s.literal_data := by
  rw [allocate_usize_argument] at h
  split at h
  case isTrue hib =>
    split at h
    case _ off hlk =>
      obtain rfl := Option.some.inj h
      rw [(set_argument_offset_fields _ _).1, (set_argument_offset_fields _ _).2.1]
      exact ⟨Grows.refl _, rfl⟩
    case _ hlk =>
      obtain rfl := Option.some.inj h
      rw [(set_argument_offset_fields _ _).1, (set_argument_offset_fields _ _).2.1]
      exact ⟨Grows.append _ _, rfl⟩
  case isFalse hib => exact Option.noConfusion h

theorem updateWidth_mono (s : EncState) (fo : FormatOptions) (s' : EncState)
    (h : updateWidth s fo = some s') :
    Grows s.argument_data s'.argument_data ∧ s'.literal_data = s.literal_data := by
  rw [updateWidth] at h
  split at h
  case _ hwidth =>
    split at h <;> (obtain rfl := Option.some.inj h; exact ⟨Grows.refl _, rfl⟩)
  case _ n hwidth =>
    split at h <;> (obtain rfl := Option.some.inj h; exact ⟨Grows.refl _, rfl⟩)
  case _ pos hwidth =>
    split at h
    case _ hidx => exact Option.noConfusion h
    case _ i hidx =>
      split at h
      case isTrue hne =>
        obtain ⟨s1, hall, rfl⟩ := Option.map_eq_some'.mp h
        exact ⟨(allocate_usize_argument_mono s i s1 hall).1,
          (allocate_usize_argument_mono s i s1 hall).2⟩
      case isFalse hne =>
        obtain rfl := Option.some.inj h
        exact ⟨Grows.refl _, rfl⟩

theorem updatePrecision_mono (s : EncState) (fo : FormatOptions) (s' : EncState)
    (h : updatePrecision s fo = some s') :
    Grows s.argument_data s'.argument_data ∧ s'.literal_data = s.literal_data := by
  rw [updatePrecision] at h
  split at h
  case _ hprec =>
    split at h <;> (obtain rfl := Option.some.inj h; exact ⟨Grows.refl _, rfl⟩)
  case _ n hprec =>
    split at h <;> (obtain rfl := Option.some.inj h; exact ⟨Grows.refl _, rfl⟩)
  case _ pos hprec =>
    split at h
    case _ hidx => exact Option.noConfusion h
    case _ i hidx =>
      split at h
      case isTrue hne =>
        obtain ⟨s1, hall, rfl⟩ := Option.map_eq_some'.mp h
        exact ⟨(allocate_usize_argument_mono s i s1 hall).1,
          (allocate_usize_argument_mono s i s1 hall).2⟩
      case isFalse hne =>
        obtain rfl := Option.some.inj h
        exact ⟨Grows.refl _, rfl⟩

theorem allocate_ref_argument_mono (s : EncState) (pos : FormatArgPosition)
    (s1 : EncState) (h : allocate_ref_argument s pos = some s1) :
    Grows s.argument_data s1.argument_data ∧ s1.literal_data = s.literal_data := by
  rw [allocate_ref_argument] at h
  split at h
  case _ hidx => exact Option.noConfusion h
  case _ index hidx =>
    split at h
    case _ hroff => exact Option.noConfusion h
    case _ off hroff =>
      obtain rfl := Option.some.inj h
      rw [(set_argument_offset_fields _ _).1, (set_argument_offset_fields _ _).2.1]
      exact ⟨Grows.refl _, rfl⟩
    case _ hroff =>
      obtain rfl := Option.some.inj h
      rw [(set_argument_offset_fields _ _).1, (set_argument_offset_fields _ _).2.1]
      exact ⟨Grows.append _ _, rfl⟩

theorem encode_placeholder_spec (args : List ArgValue) (lits : List String)
    (adata : List (Nat × ArgumentUsage)) (s : EncState) (p : FormatPlaceholder)
    (s' : EncState)
    (h : encode_placeholder s p = some s')
    (hinv : EncInv s)
    (hgl : Grows s'.literal_data lits)
    (hga : Grows s'.argument_data adata)
    (hbl : lits.length < 2 ^ 63)
    (hba : adata.length < 2 ^ 63) :
    EncInv s'
    ∧ Grows s.literal_data s'.literal_data
    ∧ Grows s.argument_data s'.argument_data
    ∧ s'.ref_argument_offsets.length = s.ref_argument_offsets.length
    ∧ s'.incomplete_literal = []
    ∧ Emits args lits adata s s'
        (String.join s.incomplete_literal ++ pieceText args (.placeholder p))
        (match s.incomplete_literal with | [] => [] | ps => [joinPieces ps]) := by
  simp only [encode_placeholder] at h
  obtain ⟨s4, hw4, h⟩ := Option.bind_eq_some.mp h
  obtain ⟨s5, hp5, h⟩ := Option.bind_eq_some.mp h
  obtain ⟨s6, hr6, rfl⟩ := Option.map_eq_some'.mp h
  -- table-equality / growth wiring
  obtain ⟨mw, mwl⟩ := updateWidth_mono _ p.format_options s4 hw4
  obtain ⟨mp, mpl⟩ := updatePrecision_mono s4 p.format_options s5 hp5
  obtain ⟨mr, mrl⟩ := allocate_ref_argument_mono s5 p.argument s6 hr6
  obtain ⟨ff1, ff2, ff3, ff4, ff5, ffl, ffa, ffi, ffe⟩ :=
    updateFlags_spec args lits adata (flush_literal s) p.format_options
  obtain ⟨gf1, gf2, gf3, gf4, gf5, gfl, gfa, gfi, gfe⟩ :=
    updateFill_spec args lits adata (updateFlags (flush_literal s) p.format_options)
      p.format_options
  obtain ⟨af1, af2, af3, af4, af5, afl, afa, afi, afe⟩ :=
    updateAlign_spec args lits adata
      (updateFill (updateFlags (flush_literal s) p.format_options) p.format_options)
      p.format_options
  have hldchain : s6.literal_data = (flush_literal s).literal_data := by
    rw [mrl, mpl, mwl, afl.1, gfl.1, ffl.1]
  have hgl0 : Grows (flush_literal s).literal_data lits := by
    rw [← hldchain]
    exact hgl
  obtain ⟨hinv0, hgrow0, harg0, hchan0, hincomp0, hemits0⟩ :=
    flush_literal_spec args lits adata s hinv hgl0 hbl
  have hinv1 := ffi hinv0
  have hinv2 := gfi hinv1
  have hinv3 := afi hinv2
  have hga6 : Grows s6.argument_data adata := hga
  have hga5 : Grows s5.argument_data adata := mr.trans hga6
  have hga4 : Grows s4.argument_data adata := mp.trans hga5
  obtain ⟨hinv4, wgrow, wld, wloffs, wclit, winc, wref, wflags, wfill, walign,
      wprec, wkey, wemits⟩ :=
    updateWidth_spec args lits adata _ p.format_options s4 hw4 hinv3 hga4 hba
  obtain ⟨hinv5, pgrow, pld, ploffs, pclit, pinc, pref, pflags, pfill, palign,
      pwidth, pkey, pemits⟩ :=
    updatePrecision_spec args lits adata s4 p.format_options s5 hp5 hinv4 hga5 hba
  obtain ⟨i, hidx, hinv6, rgrow, rlit, rchan, rreflen, rslot, remits⟩ :=
    allocate_ref_argument_spec args lits adata s5 p.argument s6 hr6 hinv5 hga6 hba
  obtain ⟨rc1, rc2, rc3, rc4, rc5⟩ := rchan
  -- the channels of s6 are exactly the placeholder's options
  have hflags6 : s6.current_flags = computeFlags p.format_options := by
    rw [rc1, pflags, wflags, af2, gf2, ff1]
  have hfill6 : s6.current_fill = p.format_options.fill.getD ' ' := by
    rw [rc2, pfill, wfill, af3, gf1]
  have halign6 : s6.current_align = p.format_options.alignment := by
    rw [rc3, palign, walign, af1]
  have hkw6 : keyVal args s6.current_width = countValue args p.format_options.width := by
    rw [rc4, pwidth]
    exact wkey
  have hkp6 : keyVal args s6.current_precision
      = countValue args p.format_options.precision := by
    rw [rc5]
    exact pkey
  have hstep : Emits args lits adata s6
      { s6 with format_ops := s6.format_ops ++ [.fmtValue p] }
      (pieceText args (.placeholder p)) [] := by
    refine ⟨[.fmtValue p], rfl, Eq.refl _, rfl, ?_⟩
    intro st w hst
    obtain ⟨hf, hfi, hal, hw, hpr, hlp, hap⟩ := hst
    have hargAt : argAt (slotVals adata args) st.argPtr = args.getD i ArgValue.null := by
      rw [hap, argAt, Int.toNat_natCast, List.getD_eq_getD_get?, slotVals_get?,
        Grows.get?_eq hga6 rslot]
      rfl
    have hopts : st.opts = placeholderOpts args p.format_options := by
      rw [show st.opts = ⟨st.opts.flags, st.opts.fill, st.opts.align, st.opts.width,
          st.opts.precision⟩ from rfl,
        hf, hfi, hal, hw, hpr, hflags6, hfill6, halign6, hkw6, hkp6]
      rfl
    have hpt : pieceText args (.placeholder p)
        = (args.getD i ArgValue.null).render p.format_trait
            (placeholderOpts args p.format_options) := by
      simp only [pieceText, hidx, Option.getD_some]
    refine ⟨{ st with output := st.output
        ++ (argAt (slotVals adata args) st.argPtr).render p.format_trait st.opts },
      by rw [List.append_nil]; rfl,
      ⟨hf, hfi, hal, hw, hpr, hlp, hap⟩, ?_⟩
    rw [hargAt, hopts, hpt]
  have hfinal := hemits0.comp (ffe.comp (gfe.comp (afe.comp (wemits.comp
    (pemits.comp (remits.comp hstep))))))
  have hcast := hfinal.cast
    (show String.join s.incomplete_literal ++ (emptyStr ++ (emptyStr ++ (emptyStr
        ++ (emptyStr ++ (emptyStr ++ (emptyStr ++ pieceText args (.placeholder p)))))))
      = String.join s.incomplete_literal ++ pieceText args (.placeholder p) from by
        simp only [emptyStr, String.empty_append])
    (show (match s.incomplete_literal with | [] => [] | ps => [joinPieces ps])
          ++ ([] ++ ([] ++ ([] ++ ([] ++ ([] ++ ([] ++ ([] : List String)))))))
      = (match s.incomplete_literal with | [] => [] | ps => [joinPieces ps]) from by
        simp)
  refine ⟨?_, ?_, ?_, ?_, ?_, hcast⟩
  · exact ⟨hinv6.1, hinv6.2.1, hinv6.2.2.1, hinv6.2.2.2.1, hinv6.2.2.2.2.1,
      hinv6.2.2.2.2.2.1, hinv6.2.2.2.2.2.2⟩
  · show Grows s.literal_data s6.literal_data
    rw [hldchain]
    exact hgrow0
  · show Grows s.argument_data s6.argument_data
    have h36 : Grows
        (updateAlign (updateFill (updateFlags (flush_literal s) p.format_options)
          p.format_options) p.format_options).argument_data s6.argument_data :=
      mw.trans (mp.trans mr)
    rw [afa.1, gfa.1, ffa.1, harg0.1] at h36
    exact h36
  · show s6.ref_argument_offsets.length = s.ref_argument_offsets.length
    rw [rreflen, pref, wref, afa.2.1, gfa.2.1, ffa.2.1, harg0.2.1]
  · show s6.incomplete_literal = []
    rw [rlit.2.2.2, pinc, winc, afl.2.2.2, gfl.2.2.2, ffl.2.2.2]
    exact hincomp0

theorem join_concat (l : List String) (x : String) :
    String.join (l ++ [x]) = String.join l ++ x := by
  induction l with
  | nil =>
      rw [List.nil_append, join_singleton]
      exact (String.empty_append x).symm
  | cons a l ih =>
      rw [List.cons_append, join_cons, ih, join_cons, String.append_assoc]

theorem encode_placeholder_mono (s : EncState) (p : FormatPlaceholder) (s' : EncState)
    (h : encode_placeholder s p = some s') :
    Grows s.literal_data s'.literal_data ∧ Grows s.argument_data s'.argument_data := by
  simp only [encode_placeholder] at h
  obtain ⟨s4, hw4, h⟩ := Option.bind_eq_some.mp h
  obtain ⟨s5, hp5, h⟩ := Option.bind_eq_some.mp h
  obtain ⟨s6, hr6, rfl⟩ := Option.map_eq_some'.mp h
  obtain ⟨mw, mwl⟩ := updateWidth_mono _ p.format_options s4 hw4
  obtain ⟨mp, mpl⟩ := updatePrecision_mono s4 p.format_options s5 hp5
  obtain ⟨mr, mrl⟩ := allocate_ref_argument_mono s5 p.argument s6 hr6
  obtain ⟨ff1, ff2, ff3, ff4, ff5, ffl, ffa, ffi, ffe⟩ :=
    updateFlags_spec [] [] [] (flush_literal s) p.format_options
  obtain ⟨gf1, gf2, gf3, gf4, gf5, gfl, gfa, gfi, gfe⟩ :=
    updateFill_spec [] [] [] (updateFlags (flush_literal s) p.format_options)
      p.format_options
  obtain ⟨af1, af2, af3, af4, af5, afl, afa, afi, afe⟩ :=
    updateAlign_spec [] [] []
      (updateFill (updateFlags (flush_literal s) p.format_options) p.format_options)
      p.format_options
  constructor
  · show Grows s.literal_data s6.literal_data
    rw [mrl, mpl, mwl, afl.1, gfl.1, ffl.1]
    exact (flush_literal_mono s).1
  · show Grows s.argument_data s6.argument_data
    have h36 := mw.trans (mp.trans mr)
    rw [afa.1, gfa.1, ffa.1, (flush_literal_mono s).2] at h36
    exact h36

theorem encodePieces_mono : ∀ (t : List FormatArgsPiece) (s s' : EncState),
    encodePieces s t = some s' →
    Grows s.literal_data s'.literal_data ∧ Grows s.argument_data s'.argument_data := by
  intro t
  induction t with
  | nil =>
      intro s s' h
      obtain rfl := Option.some.inj h
      exact ⟨Grows.refl _, Grows.refl _⟩
  | cons piece rest ih =>
      intro s s' h
      rw [show encodePieces s (piece :: rest)
          = (encodePiece s piece).bind (encodePieces · rest) from rfl] at h
      obtain ⟨s1, h1, h2⟩ := Option.bind_eq_some.mp h
      have hrest := ih s1 s' h2
      cases piece with
      | literal lit =>
          obtain rfl := Option.some.inj h1
          have hfields : (encode_literal s lit).literal_data = s.literal_data
              ∧ (encode_literal s lit).argument_data = s.argument_data := by
            rw [encode_literal]
            split <;> exact ⟨rfl, rfl⟩
          rw [hfields.1, hfields.2] at hrest
          exact hrest
      | placeholder p =>
          have hstep := encode_placeholder_mono s p s1 h1
          exact ⟨hstep.1.trans hrest.1, hstep.2.trans hrest.2⟩

theorem encodePieces_spec (args : List ArgValue) (lits : List String)
    (adata : List (Nat × ArgumentUsage)) :
    ∀ (t : List FormatArgsPiece) (s s' : EncState),
      encodePieces s t = some s' →
      EncInv s →
      Grows s'.literal_data lits → Grows s'.argument_data adata →
      lits.length < 2 ^ 63 → adata.length < 2 ^ 63 →
      EncInv s'
      ∧ Grows s.literal_data s'.literal_data
      ∧ Grows s.argument_data s'.argument_data
      ∧ s'.ref_argument_offsets.length = s.ref_argument_offsets.length
      ∧ s'.incomplete_literal = (runsGo s.incomplete_literal t).2
      ∧ ∃ outD, Emits args lits adata s s' outD ((runsGo s.incomplete_literal t).1)
          ∧ outD ++ String.join s'.incomplete_literal
            = String.join s.incomplete_literal
              ++ String.join (t.map (pieceText args)) := by
  intro t
  induction t with
  | nil =>
      intro s s' h hinv hgl hga hbl hba
      obtain rfl := Option.some.inj h
      refine ⟨hinv, Grows.refl _, Grows.refl _, rfl, rfl,
        ⟨emptyStr, Emits.nil (Eq.refl _) (Eq.refl _) (fun _ hst => hst), ?_⟩⟩
      rw [show (emptyStr : String) = "" from rfl, String.empty_append, List.map_nil,
        show String.join [] = "" from rfl, String.append_empty]
  | cons piece rest ih =>
      intro s s' h hinv hgl hga hbl hba
      rw [show encodePieces s (piece :: rest)
          = (encodePiece s piece).bind (encodePieces · rest) from rfl] at h
      obtain ⟨s1, h1, h2⟩ := Option.bind_eq_some.mp h
      cases piece with
      | literal lit =>
          obtain rfl := Option.some.inj h1
          have hruns : runsGo s.incomplete_literal (FormatArgsPiece.literal lit :: rest)
              = if lit ≠ emptyStr then runsGo (s.incomplete_literal ++ [lit]) rest
                else runsGo s.incomplete_literal rest := rfl
          by_cases hne : lit ≠ emptyStr
          · have heq : encode_literal s lit
                = { s with incomplete_literal := s.incomplete_literal ++ [lit] } := by
              rw [encode_literal, if_pos hne]
            rw [heq] at h2
            have hinv1 : EncInv
                { s with incomplete_literal := s.incomplete_literal ++ [lit] } :=
              ⟨hinv.1, hinv.2.1, hinv.2.2.1, hinv.2.2.2.1, hinv.2.2.2.2.1,
                hinv.2.2.2.2.2.1, hinv.2.2.2.2.2.2⟩
            obtain ⟨rinv, rgl, rga, rref, rpend, outD, remits, reqn⟩ :=
              ih _ s' h2 hinv1 hgl hga hbl hba
            have hnil : Emits args lits adata s
                { s with incomplete_literal := s.incomplete_literal ++ [lit] }
                emptyStr [] :=
              Emits.nil (Eq.refl _) (Eq.refl _) (fun _ hst => hst)
            refine ⟨rinv, rgl, rga, rref, ?_, outD, ?_, ?_⟩
            · rw [hruns, if_pos hne]
              exact rpend
            · rw [hruns, if_pos hne]
              exact ((Emits.comp hnil remits).cast
                (by rw [show (emptyStr : String) = "" from rfl, String.empty_append])
                (by rw [List.nil_append]))
            · have reqn2 : outD ++ String.join s'.incomplete_literal
                  = (String.join s.incomplete_literal ++ lit)
                    ++ String.join (rest.map (pieceText args)) := by
                rw [← join_concat]
                exact reqn
              rw [List.map_cons, join_cons,
                show pieceText args (FormatArgsPiece.literal lit) = lit from rfl,
                ← String.append_assoc]
              exact reqn2
          · have hlit : lit = emptyStr := not_ne_iff.mp hne
            have heq : encode_literal s lit = s := by
              rw [encode_literal, if_neg hne]
            rw [heq] at h2
            obtain ⟨rinv, rgl, rga, rref, rpend, outD, remits, reqn⟩ :=
              ih s s' h2 hinv hgl hga hbl hba
            refine ⟨rinv, rgl, rga, rref, ?_, outD, ?_, ?_⟩
            · rw [hruns, if_neg hne]
              exact rpend
            · rw [hruns, if_neg hne]
              exact remits
            · rw [List.map_cons, join_cons,
                show pieceText args (FormatArgsPiece.literal lit) = lit from rfl, hlit,
                show (emptyStr : String) = "" from rfl, String.empty_append]
              exact reqn
      | placeholder p =>
          have hmono := encodePieces_mono rest s1 s' h2
          have hgl1 : Grows s1.literal_data lits := hmono.1.trans hgl
          have hga1 : Grows s1.argument_data adata := hmono.2.trans hga
          obtain ⟨pinv, pgl, pga, pref, ppend, pemits⟩ :=
            encode_placeholder_spec args lits adata s p s1 h1 hinv hgl1 hga1 hbl hba
          obtain ⟨rinv, rgl, rga, rref, rpend, outD, remits, reqn⟩ :=
            ih s1 s' h2 pinv hgl hga hbl hba
          rw [ppend] at rpend remits reqn
          refine ⟨rinv, pgl.trans rgl, pga.trans rga, by rw [rref, pref], ?_,
            (String.join s.incomplete_literal ++ pieceText args (.placeholder p))
              ++ outD, ?_, ?_⟩
          · exact rpend
          · exact pemits.comp remits
          · rw [show String.join ([] : List String) = "" from rfl,
              String.empty_append] at reqn
            rw [List.map_cons, join_cons, String.append_assoc, String.append_assoc,
              reqn]

theorem directPiece_eq (args : List ArgValue) (acc : String) (piece : FormatArgsPiece) :
    directPiece args acc piece = acc ++ pieceText args piece := by
  cases piece <;> rfl

theorem foldl_directPiece (args : List ArgValue) :
    ∀ (t : List FormatArgsPiece) (acc : String),
      t.foldl (directPiece args) acc = acc ++ String.join (t.map (pieceText args)) := by
  intro t
  induction t with
  | nil =>
      intro acc
      rw [List.foldl_nil, List.map_nil]
      exact (String.append_empty acc).symm
  | cons piece rest ih =>
      intro acc
      rw [List.foldl_cons, directPiece_eq, ih, List.map_cons, join_cons,
        String.append_assoc]

theorem directFormat_eq_join (args : List ArgValue) (t : List FormatArgsPiece) :
    directFormat args t = String.join (t.map (pieceText args)) := by
  rw [directFormat, foldl_directPiece, show (emptyStr : String) = "" from rfl]
  exact String.empty_append _

theorem encInit_inv (argc : Nat) : EncInv (encInit argc) := by
  refine ⟨?_, ?_, List.nodup_nil, ?_, ?_, Or.inl rfl, Or.inl rfl⟩
  · intro lit off h
    exact Option.noConfusion h
  · intro lit h
    exact absurd h (List.not_mem_nil lit)
  · intro idx off h
    have hmem := List.get?_mem h
    exact Option.noConfusion (List.eq_of_mem_replicate hmem)
  · intro idx off h
    exact Option.noConfusion h

theorem encodeTemplate_run (fmt : FormatArgs) (args : List ArgValue) (r : EncState)
    (henc : encodeTemplate fmt = some r)
    (hbl : r.literal_data.length < 2 ^ 63)
    (hba : r.argument_data.length < 2 ^ 63) :
    r.literal_data.Nodup
    ∧ chanCheck r.argument_data chanInit r.format_ops = true
    ∧ runOpsG r.literal_data (slotVals r.argument_data args) r.format_ops (rtInit, [])
        = (runOps r.literal_data (slotVals r.argument_data args) r.format_ops rtInit,
            mergedRuns fmt.template)
    ∧ (runOps r.literal_data (slotVals r.argument_data args) r.format_ops rtInit).output
        = directFormat args fmt.template := by
  rw [encodeTemplate] at henc
  obtain ⟨sEnd, hpieces, rfl⟩ := Option.map_eq_some'.mp henc
  have hginl : Grows sEnd.literal_data (flush_literal sEnd).literal_data :=
    (flush_literal_mono sEnd).1
  have hgina : Grows sEnd.argument_data (flush_literal sEnd).argument_data := by
    rw [(flush_literal_mono sEnd).2]
    exact Grows.refl _
  obtain ⟨minv, mgl, mga, mref, mpend, outD, memits, meqn⟩ :=
    encodePieces_spec args (flush_literal sEnd).literal_data
      (flush_literal sEnd).argument_data fmt.template
      (encInit fmt.arguments.length) sEnd hpieces (encInit_inv _) hginl hgina hbl hba
  obtain ⟨finv, fgl, farg, fchan, finc, femits⟩ :=
    flush_literal_spec args (flush_literal sEnd).literal_data
      (flush_literal sEnd).argument_data sEnd minv (Grows.refl _) hbl
  have htotal := memits.comp femits
  obtain ⟨ops, hops, hchk, happly, hrunAll⟩ := htotal
  have hops2 : (flush_literal sEnd).format_ops = ops :=
    hops.trans (List.nil_append ops)
  have hcorr0 : stCorr args (encInit fmt.arguments.length) rtInit :=
    ⟨rfl, rfl, rfl, rfl, rfl, by simp [rtInit, encInit], by simp [rtInit, encInit]⟩
  obtain ⟨st', hrun, hcorr', hout⟩ := hrunAll rtInit [] hcorr0
  have meqn2 : outD ++ String.join sEnd.incomplete_literal
      = String.join (fmt.template.map (pieceText args)) := by
    rw [meqn,
      show String.join (encInit fmt.arguments.length).incomplete_literal = "" from rfl,
      String.empty_append]
  have hst' : st' = runOps (flush_literal sEnd).literal_data
      (slotVals (flush_literal sEnd).argument_data args) ops rtInit := by
    have := runOpsG_fst (flush_literal sEnd).literal_data
      (slotVals (flush_literal sEnd).argument_data args) ops (rtInit, [])
    rw [hrun] at this
    exact this
  have hw : (runsGo ([] : List String) fmt.template).1
        ++ (match sEnd.incomplete_literal with | [] => [] | ps => [joinPieces ps])
      = mergedRuns fmt.template := by
    rw [mpend]
    rfl
  refine ⟨finv.2.2.1, ?_, ?_, ?_⟩
  · rw [hops2]
    rw [show chanInit = chansOf (encInit fmt.arguments.length) from by
      simp [chanInit, chansOf, encInit]]
    exact hchk
  · rw [hops2, hrun, ← hst']
    refine Prod.ext rfl ?_
    show ([] : List String)
        ++ ((runsGo (encInit fmt.arguments.length).incomplete_literal fmt.template).1
          ++ (match sEnd.incomplete_literal with | [] => [] | ps => [joinPieces ps]))
      = mergedRuns fmt.template
    rw [List.nil_append]
    exact hw
  · rw [hops2, ← hst', hout, meqn2,
      show rtInit.output = "" from rfl, String.empty_append, directFormat_eq_join]

/-- C1: executing the encoded operation stream (offset-cursor, write-literal,
set-option, format-value operations in order) against the evaluated
arguments produces exactly the output of directly formatting each original
template piece in order with each placeholder's original options, for every
combination of trait, alignment, fill, width/precision source, and flags —
whenever the encoding succeeds and the emitted tables fit in `isize`. -/
theorem opstream_equivalence (fmt : FormatArgs) (args : List ArgValue) (r : EncState)
    (henc : encodeTemplate fmt = some r)
    (hbl : r.literal_data.length < 2 ^ 63)
    (hba : r.argument_data.length < 2 ^ 63) :
    (runOps r.literal_data (slotVals r.argument_data args) r.format_ops rtInit).output
      = directFormat args fmt.template
    ∧ encodeRun fmt args = some (directFormat args fmt.template) := by
  have h := encodeTemplate_run fmt args r henc hbl hba
  refine ⟨h.2.2.2, ?_⟩
  rw [encodeRun, henc, Option.map_some', h.2.2.2]

theorem opstream_equivalence_witness :
    encodeTemplate exampleOpstream = some exampleEncoded
    ∧ exampleEncoded.literal_data.length < 2 ^ 63
    ∧ exampleEncoded.argument_data.length < 2 ^ 63
    ∧ ((runOps exampleEncoded.literal_data
          (slotVals exampleEncoded.argument_data exampleArgs)
          exampleEncoded.format_ops rtInit).output
        = directFormat exampleArgs exampleOpstream.template
      ∧ encodeRun exampleOpstream exampleArgs
        = some (directFormat exampleArgs exampleOpstream.template)) :=
  ⟨rfl, by decide, by decide,
    opstream_equivalence exampleOpstream exampleArgs exampleEncoded rfl
      (by decide) (by decide)⟩

/-- C4: the emitted operation stream never sets a channel (flags, fill,
alignment, width, precision — width/precision compared as keys separating
literal from argument sources) to its already-current value, and never moves
a cursor by zero, starting from flags 0, fill space, no alignment, no
width, no precision, cursors at offset 0. -/
theorem no_redundant_ops (fmt : FormatArgs) (r : EncState)
    (henc : encodeTemplate fmt = some r)
    (hbl : r.literal_data.length < 2 ^ 63)
    (hba : r.argument_data.length < 2 ^ 63) :
    chanCheck r.argument_data chanInit r.format_ops = true :=
  (encodeTemplate_run fmt [] r henc hbl hba).2.1

theorem no_redundant_ops_witness :
    encodeTemplate exampleOpstream = some exampleEncoded
    ∧ exampleEncoded.literal_data.length < 2 ^ 63
    ∧ exampleEncoded.argument_data.length < 2 ^ 63
    ∧ chanCheck exampleEncoded.argument_data chanInit exampleEncoded.format_ops
        = true :=
  ⟨rfl, by decide, by decide,
    no_redundant_ops exampleOpstream exampleEncoded rfl (by decide) (by decide)⟩

/-- C7: the literal table the encoder emits is duplicate-free (identical
texts share one interned slot), and running the operation stream writes —
through the emitted relative cursor offsets, including when a slot is
revisited — exactly the template's merged literal runs, in order. -/
theorem literal_interning (fmt : FormatArgs) (args : List ArgValue) (r : EncState)
    (henc : encodeTemplate fmt = some r)
    (hbl : r.literal_data.length < 2 ^ 63)
    (hba : r.argument_data.length < 2 ^ 63) :
    r.literal_data.Nodup
    ∧ (runOpsG r.literal_data (slotVals r.argument_data args) r.format_ops
        (rtInit, [])).2 = mergedRuns fmt.template := by
  have h := encodeTemplate_run fmt args r henc hbl hba
  exact ⟨h.1, by rw [h.2.2.1]⟩

theorem literal_interning_witness :
    encodeTemplate exampleInterning = some exampleInterningEnc
    ∧ exampleInterningEnc.literal_data.length < 2 ^ 63
    ∧ exampleInterningEnc.argument_data.length < 2 ^ 63
    ∧ (exampleInterningEnc.literal_data.Nodup
      ∧ (runOpsG exampleInterningEnc.literal_data
          (slotVals exampleInterningEnc.argument_data exampleArgs)
          exampleInterningEnc.format_ops (rtInit, [])).2
        = mergedRuns exampleInterning.template) :=
  ⟨rfl, by decide, by decide,
    literal_interning exampleInterning exampleArgs exampleInterningEnc rfl
      (by decide) (by decide)⟩
